import Mathlib

/-!
PDF Creator: scroll-capture pipeline, batch coordinator and page assembler

A shallow embedding of the capture and assembly code of the extension:

* `ServiceWorker` : `captureFullPage` and `loadPageAndCapture`
  (src/background/service-worker.js),
* `Popup` : the batch coordinator `createPDF` (src/popup/popup.js),
* `Offscreen` : `generatePDF` (src/offscreen/offscreen.js).

Asynchronous browser primitives are modelled as oracles that give the outcome of
each call; timers that only delay execution are left out.  A loop that the
source does not bound is run on fuel, `none` meaning that the fuel ran out.
-/

namespace PdfCreator

/-- JavaScript `s.includes(sub)`: `sub` occurs in `s` as a contiguous run. -/
def includes (s sub : String) : Bool :=
  s.toList.tails.any (fun t => sub.toList.isPrefixOf t)

/-- JavaScript truthiness of a possibly undefined string: defined and non-empty. -/
def truthy : Option String → Bool
  | none => false
  | some s => !(s == "")

/-- The object returned by the page-metrics script of `captureFullPage`. -/
structure Dimensions where
  scrollHeight : Nat
  clientHeight : Nat
  scrollWidth : Nat
  clientWidth : Nat
  deriving DecidableEq, Repr

/-- One entry of `captures`: `dataUrl` is `none` when the variable was never assigned. -/
structure Tile where
  dataUrl : Option String
  y : Nat
  height : Nat
  deriving DecidableEq, Repr

/-- The reply object of `captureFullPage` and `loadPageAndCapture`: either
`{ captures, dimensions }` or `{ error }`; an absent key is `none`. -/
structure Response where
  captures : Option (List Tile)
  dimensions : Option Dimensions
  error : Option String
  deriving DecidableEq, Repr

namespace ServiceWorker

/-- Outcome of one call of `chrome.tabs.captureVisibleTab`: the data URL of the
image, or a rejection with an error message. -/
inductive CaptureOutcome where
  | image (dataUrl : String)
  | failure (message : String)
  deriving DecidableEq, Repr

/-- What a tab does during one run of `captureFullPage`.  `scrollTo i` and
`capture i k` are indexed by the iteration `i` of the scroll loop (from 0) and
the attempt `k` within the iteration (from 0); for a scripting call `none` means
that it resolved and `some msg` that it rejected with message `msg`. -/
structure TabEnv where
  getDimensions : Except String Dimensions
  scrollTo : Nat → Option String
  capture : Nat → Nat → CaptureOutcome
  resetScroll : Option String

/-- Result of the retry loop: a value for `dataUrl`, or the error thrown. -/
inductive RetryResult where
  | value (dataUrl : Option String)
  | thrown (message : String)
  deriving DecidableEq, Repr

/-- The loop `while (retries > 0)` of `captureFullPage`, entered with `retries`
attempts left and `k` attempts already made.  Returns the result and the number
of attempts made so far.  The first equation is the loop condition failing,
which leaves `dataUrl` unassigned. -/
def retryLoop (attempt : Nat → CaptureOutcome) : Nat → Nat → RetryResult × Nat
  | 0, k => (RetryResult.value none, k)
  | r + 1, k =>
    match attempt k with
    | CaptureOutcome.image d => (RetryResult.value (some d), k + 1)
    | CaptureOutcome.failure m =>
      if includes m "MAX_CAPTURE" && decide (r + 1 > 1) then
        retryLoop attempt r (k + 1)
      else
        (RetryResult.thrown m, k + 1)

/-- Result of the scroll loop: the accumulated captures or the error thrown. -/
inductive LoopResult where
  | done (captures : List Tile)
  | thrown (message : String)
  deriving DecidableEq, Repr

/-- Whether an outcome of the capture primitive is a rejection that the retry
loop takes for a rate-limit error: its message includes MAX_CAPTURE. -/
def rateLimited : CaptureOutcome → Bool
  | CaptureOutcome.image _ => false
  | CaptureOutcome.failure m => includes m "MAX_CAPTURE"

/-- The body of the scroll loop at iteration `i` with loop variable `y`: scroll
to `y`, run the retry loop, push the tile.  The result is the new value of
`captures`, or the error thrown. -/
def captureStep (env : TabEnv) (scrollHeight clientHeight : Nat) (i y : Nat)
    (captures : List Tile) : LoopResult :=
  match env.scrollTo i with
  | some e => LoopResult.thrown e
  | none =>
    match (retryLoop (env.capture i) 3 0).1 with
    | RetryResult.thrown e => LoopResult.thrown e
    | RetryResult.value dataUrl =>
      LoopResult.done (captures ++ [⟨dataUrl, y, min clientHeight (scrollHeight - y)⟩])

/-- The loop `for (let y = 0; y < scrollHeight; y += clientHeight)`, at
iteration `i` with loop variable `y` and the captures pushed so far.  One unit
of fuel is one iteration. -/
def captureLoop (env : TabEnv) (scrollHeight clientHeight : Nat) :
    Nat → Nat → Nat → List Tile → Option LoopResult
  | 0, _, y, captures =>
    if y < scrollHeight then none else some (LoopResult.done captures)
  | fuel + 1, i, y, captures =>
    if y < scrollHeight then
      match captureStep env scrollHeight clientHeight i y captures with
      | LoopResult.thrown e => some (LoopResult.thrown e)
      | LoopResult.done captures1 =>
        captureLoop env scrollHeight clientHeight fuel (i + 1) (y + clientHeight) captures1
    else some (LoopResult.done captures)

/-- `captureFullPage(tabId)`: everything runs inside one `try`, whose `catch`
turns any rejection into `{ error: error.message }`. -/
def captureFullPage (env : TabEnv) (fuel : Nat) : Option Response :=
  match env.getDimensions with
  | Except.error e => some ⟨none, none, some e⟩
  | Except.ok dimensions =>
    match captureLoop env dimensions.scrollHeight dimensions.clientHeight fuel 0 0 [] with
    | none => none
    | some (LoopResult.thrown e) => some ⟨none, none, some e⟩
    | some (LoopResult.done captures) =>
      match env.resetScroll with
      | some e => some ⟨none, none, some e⟩
      | none => some ⟨some captures, some dimensions, none⟩

/-- A call of the tabs API made by `loadPageAndCapture`. -/
inductive TabCall where
  | create (url : String)
  | remove (tabId : Nat)
  deriving DecidableEq, Repr

/-- What the browser does during one run of `loadPageAndCapture`: the outcome
of `chrome.tabs.create` (the id of the new tab, or a rejection), the time in ms
after which the tab reports status complete (`none`: never), the behaviour of
the tab under `captureFullPage`, and the outcome of `chrome.tabs.remove`. -/
structure LoadEnv where
  create : Except String Nat
  loadCompleteAt : Option Nat
  tab : TabEnv
  remove : Option String

/-- The load wait of `loadPageAndCapture`: the promise is rejected by the
30000 ms timer unless the listener resolved it before the timer fired. -/
def loadTimedOut (env : LoadEnv) : Bool :=
  match env.loadCompleteAt with
  | none => true
  | some t => decide (30000 ≤ t)

/-- The `try` block of `loadPageAndCapture` after the tab was created: the load
wait, then `captureFullPage(tab.id)`. -/
def loadBody (env : LoadEnv) (fuel : Nat) : Option (Except String Response) :=
  if loadTimedOut env then some (Except.error "Page load timeout")
  else (captureFullPage env.tab fuel).map Except.ok

/-- The `finally` block of `loadPageAndCapture` for a created tab: one call of
`chrome.tabs.remove(tab.id)`, whose rejection is swallowed. -/
def closeTab (tabId : Nat) (_outcome : Option String) : List TabCall :=
  [TabCall.remove tabId]

/-- `loadPageAndCapture(url)`: the reply together with the tabs API calls made,
in order.  When `chrome.tabs.create` rejects, `tab` stays `null` and the
`finally` block removes nothing. -/
def loadPageAndCapture (env : LoadEnv) (url : String) (fuel : Nat) :
    Option (Response × List TabCall) :=
  match env.create with
  | Except.error e => some (⟨none, none, some e⟩, [TabCall.create url])
  | Except.ok tabId =>
    match loadBody env fuel with
    | none => none
    | some (Except.ok result) =>
      some (result, TabCall.create url :: closeTab tabId env.remove)
    | some (Except.error e) =>
      some (⟨none, none, some e⟩, TabCall.create url :: closeTab tabId env.remove)

/-- A page 1000 high in a viewport 400 high on which every call succeeds. -/
def sampleTab : TabEnv :=
  ⟨Except.ok ⟨1000, 400, 800, 800⟩, fun _ => none,
    fun _ _ => CaptureOutcome.image "data:image/png;base64,AAAA", none⟩

/-- The page of `sampleTab` when the first two capture attempts at every offset
hit the rate limit and the third one succeeds. -/
def retryTab : TabEnv :=
  ⟨Except.ok ⟨1000, 400, 800, 800⟩, fun _ => none,
    fun _ k =>
      if k < 2 then CaptureOutcome.failure "MAX_CAPTURE_VISIBLE_TAB_CALLS_PER_SECOND"
      else CaptureOutcome.image "data:image/png;base64,AAAA",
    none⟩

/-- The page of `sampleTab` when only the final scroll back to the top rejects. -/
def resetFailsTab : TabEnv :=
  ⟨Except.ok ⟨1000, 400, 800, 800⟩, fun _ => none,
    fun _ _ => CaptureOutcome.image "data:image/png;base64,AAAA",
    some "No tab with id: 7"⟩

/-- The page of `sampleTab` when the scroll to the second offset rejects, as it
does when the tab navigates away during the capture. -/
def scrollFailsTab : TabEnv :=
  ⟨Except.ok ⟨1000, 400, 800, 800⟩,
    fun i => if i = 1 then some "Frame with ID 0 was removed." else none,
    fun _ _ => CaptureOutcome.image "data:image/png;base64,AAAA", none⟩

/-- A hidden tab with id 7 that never reports status complete. -/
def stalledLoad : LoadEnv := ⟨Except.ok 7, none, sampleTab, none⟩

end ServiceWorker

/-- The keys of `pageSizes`. -/
inductive PageSize where
  | a4
  | letter
  | legal
  deriving DecidableEq, Repr

/-- The two values of the orientation setting. -/
inductive Orientation where
  | portrait
  | landscape
  deriving DecidableEq, Repr

/-- The `settings` object. -/
structure Settings where
  pageSize : PageSize
  orientation : Orientation
  deriving DecidableEq, Repr

/-- An element of `pages`, as pushed by the popup and read by `generatePDF`. -/
structure Page where
  url : String
  title : String
  captures : Option (List Tile)
  dimensions : Option Dimensions
  deriving DecidableEq, Repr

/-- The reply object of the `createPDF` message: `{ dataUrl }` or `{ error }`. -/
structure PdfResponse where
  dataUrl : Option String
  error : Option String
  deriving DecidableEq, Repr

namespace Popup

/-- The fields of `currentTab` that `createPDF` reads. -/
structure Tab where
  id : Nat
  url : String
  title : String
  deriving DecidableEq, Repr

/-- A request that `createPDF` sends out: a runtime message or the download. -/
inductive Call where
  | captureFullPage (tabId : Nat)
  | loadPageAndCapture (url : String)
  | createPDF (pages : List Page) (settings : Settings)
  | download (url : String) (filename : String)
  deriving DecidableEq, Repr

/-- How `createPDF` ends: the selection alert, the `catch` block showing an
error message, or the download having been started. -/
inductive JobOutcome where
  | alerted (message : String)
  | failed (message : String)
  | saved
  deriving DecidableEq, Repr

/-- The inputs read from the popup form and the replies of the collaborators:
`loadPage i url` is the reply to the request for the link at index `i`. -/
structure PopupEnv where
  includeCurrent : Bool
  selectedLinks : List String
  currentTab : Tab
  filename : String
  settings : Settings
  captureCurrent : Response
  loadPage : Nat → String → Response
  createPDFReply : List Page → Settings → PdfResponse
  downloadReply : Option String

/-- The loop `for (let i = 0; i < selectedLinks.length; i++)` of `createPDF`,
from index `i` on, with the pages pushed and the requests sent so far. -/
def captureLinks (env : PopupEnv) : List String → Nat → List Page → List Call →
    List Page × List Call
  | [], _, pages, calls => (pages, calls)
  | url :: rest, i, pages, calls =>
    let result := env.loadPage i url
    if truthy result.error then
      captureLinks env rest (i + 1) pages (calls ++ [Call.loadPageAndCapture url])
    else
      captureLinks env rest (i + 1)
        (pages ++ [⟨url, url, result.captures, result.dimensions⟩])
        (calls ++ [Call.loadPageAndCapture url])

/-- The part of `createPDF` after the capture loop: the empty check, the
`createPDF` message and the download. -/
def finishJob (env : PopupEnv) (pages : List Page) (calls : List Call) :
    JobOutcome × List Call :=
  if pages.length == 0 then
    (JobOutcome.failed "No pages were captured successfully", calls)
  else
    let pdfResult := env.createPDFReply pages env.settings
    let calls1 := calls ++ [Call.createPDF pages env.settings]
    if truthy pdfResult.error then
      (JobOutcome.failed ("Failed to generate PDF: " ++ pdfResult.error.getD ""), calls1)
    else if !truthy pdfResult.dataUrl then
      (JobOutcome.failed "No PDF data received", calls1)
    else
      let calls2 := calls1 ++ [Call.download (pdfResult.dataUrl.getD "") env.filename]
      match env.downloadReply with
      | some e => (JobOutcome.failed e, calls2)
      | none => (JobOutcome.saved, calls2)

/-- `createPDF()` of the popup: how the job ends and the requests sent, in order. -/
def createPDF (env : PopupEnv) : JobOutcome × List Call :=
  if !env.includeCurrent && env.selectedLinks.length == 0 then
    (JobOutcome.alerted "Please select at least one page to include in the PDF", [])
  else if env.includeCurrent then
    let result := env.captureCurrent
    let calls := [Call.captureFullPage env.currentTab.id]
    if truthy result.error then
      (JobOutcome.failed ("Failed to capture current page: " ++ result.error.getD ""), calls)
    else
      let r := captureLinks env env.selectedLinks 0
        [⟨env.currentTab.url, env.currentTab.title, result.captures, result.dimensions⟩] calls
      finishJob env r.1 r.2
  else
    let r := captureLinks env env.selectedLinks 0 [] []
    finishJob env r.1 r.2

/-- The page that `createPDF` pushes for the current tab. -/
def currentPage (env : PopupEnv) : Page :=
  ⟨env.currentTab.url, env.currentTab.title, env.captureCurrent.captures,
    env.captureCurrent.dimensions⟩

/-- Specification of the link loop: the pages of the selected links, from index
`i` on and in selection order, whose reply carries no error. -/
def capturedLinks (env : PopupEnv) : List String → Nat → List Page
  | [], _ => []
  | url :: rest, i =>
    if truthy (env.loadPage i url).error then capturedLinks env rest (i + 1)
    else
      ⟨url, url, (env.loadPage i url).captures, (env.loadPage i url).dimensions⟩
        :: capturedLinks env rest (i + 1)

/-- Specification of a batch: the targets in caller order, the current page
first when it is included, whose capture is taken as successful. -/
def capturedTargets (env : PopupEnv) : List Page :=
  (if env.includeCurrent then [currentPage env] else []) ++
    capturedLinks env env.selectedLinks 0

/-- Specification of a batch: one capture request for each target, in caller order. -/
def captureRequests (env : PopupEnv) : List Call :=
  (if env.includeCurrent then [Call.captureFullPage env.currentTab.id] else []) ++
    env.selectedLinks.map Call.loadPageAndCapture

/-- A one-tile capture reply. -/
def okReply : Response :=
  ⟨some [⟨some "data:image/png;base64,AAAA", 0, 600⟩], some ⟨600, 600, 800, 800⟩, none⟩

/-- A batch of two links, without the current page, in which the capture of the
first link fails and the capture of the second one succeeds. -/
def firstLinkFails : PopupEnv :=
  ⟨false, ["https://a.example/", "https://b.example/"], ⟨1, "https://example.org/", "Home"⟩,
    "Home.pdf", ⟨PageSize.a4, Orientation.portrait⟩, okReply,
    fun i _ => if i = 0 then ⟨none, none, some "Page load timeout"⟩ else okReply,
    fun _ _ => ⟨some "data:application/pdf;base64,JVBERi0=", none⟩, none⟩

/-- A batch of the current page and one link in which the capture of the current
page fails and the capture of the link would succeed. -/
def currentFails : PopupEnv :=
  ⟨true, ["https://a.example/"], ⟨1, "https://example.org/", "Home"⟩,
    "Home.pdf", ⟨PageSize.a4, Orientation.portrait⟩,
    ⟨none, none, some "Cannot access contents of the page"⟩,
    fun _ _ => okReply,
    fun _ _ => ⟨some "data:application/pdf;base64,JVBERi0=", none⟩, none⟩

/-- A batch of the current page alone in which its capture fails. -/
def onlyCurrentFails : PopupEnv :=
  ⟨true, [], ⟨1, "https://example.org/", "Home"⟩,
    "Home.pdf", ⟨PageSize.a4, Orientation.portrait⟩,
    ⟨none, none, some "Cannot access contents of the page"⟩,
    fun _ _ => okReply,
    fun _ _ => ⟨some "data:application/pdf;base64,JVBERi0=", none⟩, none⟩

end Popup

namespace Offscreen

/-- The pixel size of a decoded image. -/
structure Image where
  width : Nat
  height : Nat
  deriving DecidableEq, Repr

/-- Something drawn on a document page: `addImage(data, PNG, x, y, w, h)` or
`text(s, x, y)`. -/
inductive DrawOp where
  | image (dataUrl : Option String) (x y w h : ℚ)
  | text (s : String) (x y : ℚ)
  deriving DecidableEq, Repr

/-- Modelled from the spec: the PDF document primitive (the jsPDF library,
which is not part of the repository).  A document is its pages in order, each
page the list of what was drawn on it; drawing goes to the last page. -/
structure Pdf where
  pages : List (List DrawOp)
  fontSize : Nat
  deriving DecidableEq, Repr

/-- Modelled from the spec: `new jsPDF(...)`, a document that already has its
first page; 16 is the initial font size. -/
def jsPDF : Pdf := ⟨[[]], 16⟩

/-- Modelled from the spec: `pdf.addPage()` appends an empty page, which becomes
the page drawn on. -/
def Pdf.addPage (pdf : Pdf) : Pdf := ⟨pdf.pages ++ [[]], pdf.fontSize⟩

/-- Modelled from the spec: drawing on the current (last) page. -/
def Pdf.draw (pdf : Pdf) (op : DrawOp) : Pdf :=
  ⟨pdf.pages.dropLast ++ [pdf.pages.getLast?.getD [] ++ [op]], pdf.fontSize⟩

/-- Modelled from the spec: `pdf.setFontSize(n)`. -/
def Pdf.setFontSize (pdf : Pdf) (n : Nat) : Pdf := ⟨pdf.pages, n⟩

/-- The number of pages of a document. -/
def Pdf.numberOfPages (pdf : Pdf) : Nat := pdf.pages.length

/-- The table `pageSizes`, in mm. -/
def pageSizes : PageSize → ℚ × ℚ
  | PageSize.a4 => (210, 297)
  | PageSize.letter => (2159 / 10, 2794 / 10)
  | PageSize.legal => (2159 / 10, 3556 / 10)

/-- The pair `[pageWidth, pageHeight]`: the table entry, reversed for landscape. -/
def pageDims (settings : Settings) : ℚ × ℚ :=
  match settings.orientation with
  | Orientation.landscape => ((pageSizes settings.pageSize).2, (pageSizes settings.pageSize).1)
  | Orientation.portrait => pageSizes settings.pageSize

/-- The scaled size `(imgWidth, imgHeight)` of an image on the page. -/
def fitSize (img : Image) (pageWidth pageHeight : ℚ) : ℚ × ℚ :=
  let imgAspectRatio : ℚ := (img.width : ℚ) / (img.height : ℚ)
  let pageAspectRatio : ℚ := pageWidth / pageHeight
  if imgAspectRatio > pageAspectRatio then
    (pageWidth, pageWidth / imgAspectRatio)
  else
    (pageHeight * imgAspectRatio, pageHeight)

/-- The body of the inner loop of `generatePDF` for one capture of the page with
address `url`; the state is the document and `isFirstPage`.  `loadImage` gives
the decoded image, or `none` when the promise rejects. -/
def processCapture (loadImage : Option String → Option Image) (pageWidth pageHeight : ℚ)
    (url : String) (st : Pdf × Bool) (capture : Tile) : Pdf × Bool :=
  let pdf := if !st.2 then st.1.addPage else st.1
  match loadImage capture.dataUrl with
  | some img =>
    let size := fitSize img pageWidth pageHeight
    let x := (pageWidth - size.1) / 2
    let y := (pageHeight - size.2) / 2
    (pdf.draw (DrawOp.image capture.dataUrl x y size.1 size.2), false)
  | none =>
    ((pdf.setFontSize 12).draw (DrawOp.text ("Failed to capture: " ++ url) 10 20), false)

/-- The body of the outer loop of `generatePDF`: `none` once reading
`page.captures.length` of an undefined `captures` has thrown. -/
def processPage (loadImage : Option String → Option Image) (pageWidth pageHeight : ℚ)
    (st : Option (Pdf × Bool)) (page : Page) : Option (Pdf × Bool) :=
  match st with
  | none => none
  | some s =>
    match page.captures with
    | none => none
    | some captures =>
      some (captures.foldl (processCapture loadImage pageWidth pageHeight page.url) s)

/-- `generatePDF(pages, settings)`: the document that is serialised, or `none`
when the promise rejects. -/
def generatePDF (loadImage : Option String → Option Image) (pages : List Page)
    (settings : Settings) : Option Pdf :=
  ((pages.foldl
      (processPage loadImage (pageDims settings).1 (pageDims settings).2)
      (some (jsPDF, true))).map Prod.fst)

/-- The number of tiles of a page; an undefined `captures` counts for none. -/
def tileCount (page : Page) : Nat :=
  match page.captures with
  | some captures => captures.length
  | none => 0

/-- Invariant of the loops of `generatePDF` after `k` tiles: before the first
tile the document has its initial page only, afterwards it has `k` pages. -/
def UsedPages (st : Pdf × Bool) (k : Nat) : Prop :=
  (st.2 = true ∧ st.1.pages.length = 1 ∧ k = 0) ∨
    (st.2 = false ∧ st.1.pages.length = k ∧ 0 < k)

/-- Invariant of the loops of `generatePDF`: every text drawn in the document
is the note Failed to capture followed by one of the addresses `urls`. -/
def NotesFrom (urls : List String) (pdf : Pdf) : Prop :=
  ∀ pg, pg ∈ pdf.pages → ∀ s x y, DrawOp.text s x y ∈ pg →
    ∃ u, u ∈ urls ∧ s = "Failed to capture: " ++ u

/-- A decoder for which every image is 800 by 600 pixels. -/
def decodeAll : Option String → Option Image := fun _ => some ⟨800, 600⟩

/-- A captured page with two tiles. -/
def twoTilePage : Page :=
  ⟨"https://example.org/", "Home",
    some [⟨some "data:image/png;base64,AAAA", 0, 600⟩,
      ⟨some "data:image/png;base64,BBBB", 600, 600⟩],
    some ⟨1200, 600, 800, 800⟩⟩

/-- A captured page of scroll height 0, which has no tile. -/
def noTilePage : Page :=
  ⟨"https://example.org/empty", "Empty", some [], some ⟨0, 600, 800, 800⟩⟩

/-- Specification of one document page: what the page of a tile of the page
with address `url` carries, the scaled and centred image when the tile decodes
and the note Failed to capture otherwise. -/
def tileContent (loadImage : Option String → Option Image) (pageWidth pageHeight : ℚ)
    (url : String) (capture : Tile) : List DrawOp :=
  match loadImage capture.dataUrl with
  | some img =>
    [DrawOp.image capture.dataUrl
      ((pageWidth - (fitSize img pageWidth pageHeight).1) / 2)
      ((pageHeight - (fitSize img pageWidth pageHeight).2) / 2)
      (fitSize img pageWidth pageHeight).1 (fitSize img pageWidth pageHeight).2]
  | none => [DrawOp.text ("Failed to capture: " ++ url) 10 20]

/-- Specification: the tiles of all pages in processing order, each with the
address of its page. -/
def allTiles : List Page → List (String × Tile)
  | [] => []
  | p :: ps =>
    (match p.captures with
      | some captures => captures.map (fun c => (p.url, c))
      | none => []) ++ allTiles ps

/-- Invariant of the loops of `generatePDF`: the pages of the document are the
contents `done` of the tiles processed so far, the initial empty page standing
for no tile. -/
def Assembled (st : Pdf × Bool) (done : List (List DrawOp)) : Prop :=
  (done = [] ∧ st.2 = true ∧ st.1.pages = [[]]) ∨
    (done ≠ [] ∧ st.2 = false ∧ st.1.pages = done)

/-- A decoder that fails on the image BBBB and decodes every other image as
800 by 600 pixels. -/
def decodeButOne : Option String → Option Image := fun d =>
  if d = some "data:image/png;base64,BBBB" then none else some ⟨800, 600⟩

end Offscreen

namespace Links

/-! The link classifier: `extractLinks` (src/content/content-script.js) and
`extractLinksFromDOM` (src/background/service-worker.js).  A JavaScript string
is modelled by the string of its code units; the case mappings and the
character classes of the regular expressions are the ASCII ones. -/

/-- The code points that `trim()` strips: white space and line terminators. -/
def isWhiteSpace (c : Char) : Bool :=
  [9, 10, 11, 12, 13, 32, 160, 5760, 8192, 8193, 8194, 8195, 8196, 8197, 8198, 8199, 8200,
    8201, 8202, 8232, 8233, 8239, 8287, 12288, 65279].contains c.toNat

/-- JavaScript `cs.trim()` on the list of characters. -/
def trimChars (cs : List Char) : List Char :=
  ((cs.dropWhile isWhiteSpace).reverse.dropWhile isWhiteSpace).reverse

/-- JavaScript `s.trim()`. -/
def trim (s : String) : String := ⟨trimChars s.toList⟩

/-- JavaScript `s.substring(0, n)`. -/
def substring0 (s : String) (n : Nat) : String := ⟨s.toList.take n⟩

/-- JavaScript `s.startsWith(p)`. -/
def startsWith (s p : String) : Bool := p.toList.isPrefixOf s.toList

/-- JavaScript `a || b` for two strings: `b` when `a` is empty. -/
def orElse (a b : String) : String := if a = "" then b else a

/-- JavaScript `a || b` when `a` may be `null`. -/
def orElseNull (a : Option String) (b : String) : String :=
  match a with
  | none => b
  | some x => orElse x b

/-- JavaScript `s.toLowerCase()`, on ASCII letters. -/
def toLowerCase (s : String) : String := ⟨s.toList.map Char.toLower⟩

/-- The class `\w` of the regular expressions: ASCII letters, digits and the underscore. -/
def isWordChar (c : Char) : Bool := c.isAlphanum || c == '_'

/-- The first replacement of `formatLabel`, `.replace(/[-_]/g, ' ')`. -/
def replaceSeparators (cs : List Char) : List Char :=
  cs.map (fun c => if c == '-' || c == '_' then ' ' else c)

/-- The second replacement of `formatLabel`, `.replace(/([a-z])([A-Z])/g, '$1 $2')`:
matches do not overlap, the scan goes on after the upper-case letter. -/
def splitCamel : List Char → List Char
  | [] => []
  | [a] => [a]
  | a :: b :: rest =>
    if a.isLower && b.isUpper then a :: ' ' :: b :: splitCamel rest
    else a :: splitCamel (b :: rest)

/-- The third replacement of `formatLabel`, `.replace(/\b\w/g, c => c.toUpperCase())`;
`prev` tells whether the character before is a word character. -/
def capitalize : Bool → List Char → List Char
  | _, [] => []
  | prev, c :: rest =>
    (if isWordChar c && !prev then c.toUpper else c) :: capitalize (isWordChar c) rest

/-- `formatLabel(str)` on the list of characters. -/
def formatChars (cs : List Char) : List Char :=
  trimChars (capitalize false (splitCamel (replaceSeparators cs)))

/-- `formatLabel(str)`. -/
def formatLabel (str : String) : String := ⟨formatChars str.toList⟩

/-- Specification of the second step of label formatting, in the words of the
description: a space is put between every lower-case letter and the upper-case
letter that directly follows it.  Every adjacent pair of characters is looked at. -/
def spaceAtBoundaries : List Char → List Char
  | [] => []
  | [a] => [a]
  | a :: b :: rest =>
    if a.isLower && b.isUpper then a :: ' ' :: spaceAtBoundaries (b :: rest)
    else a :: spaceAtBoundaries (b :: rest)

/-- The pair `x y` of adjacent characters is not a boundary from a lower-case
to an upper-case letter. -/
def NoBoundary (x y : Char) : Prop := ¬ (x.isLower = true ∧ y.isUpper = true)

/-- Specification of the start of a word: position `i` of `l` holds a word
character that is the first character of `l` or follows a character that is not
a word character. -/
def isWordStart (l : List Char) (i : Nat) : Bool :=
  ((l[i]?).map isWordChar).getD false &&
    (i == 0 || !(((l[i - 1]?).map isWordChar).getD false))

/-- A node of the page: a text node or an element with its tag name, its
attributes and its child nodes. -/
inductive Node where
  | text (data : String)
  | element (tagName : String) (attrs : List (String × String)) (children : List Node)
  deriving Repr

/-- The `tagName` of a node, empty for a text node. -/
def Node.tagName : Node → String
  | Node.text _ => ""
  | Node.element t _ _ => t

mutual
/-- The `textContent` of a node: the text of its descendants in document order. -/
def textContent : Node → String
  | Node.text d => d
  | Node.element _ _ cs => textContentList cs
/-- The concatenated `textContent` of a list of nodes. -/
def textContentList : List Node → String
  | [] => ""
  | n :: ns => textContent n ++ textContentList ns
end

/-- The test `/^H[1-6]$/` on a tag name. -/
def isHeadingTag (t : String) : Bool := ["H1", "H2", "H3", "H4", "H5", "H6"].contains t

mutual
/-- The first heading among a node and its descendants, in document order. -/
def firstHeading : Node → Option Node
  | Node.text _ => none
  | Node.element t as cs =>
    if isHeadingTag t then some (Node.element t as cs) else firstHeadingList cs
/-- The first heading in a list of subtrees: `querySelector('h1, h2, h3, h4, h5, h6')`
on the element with these children. -/
def firstHeadingList : List Node → Option Node
  | [] => none
  | n :: ns =>
    match firstHeading n with
    | some h => some h
    | none => firstHeadingList ns
end

/-- An ancestor of a link as `findParentGroup` reads it: the element and its
previous element siblings, the nearest first. -/
structure Frame where
  tagName : String
  attrs : List (String × String)
  children : List Node
  prev : List Node

/-- JavaScript `getAttribute(name)`, `none` for `null`. -/
def getAttribute (attrs : List (String × String)) (name : String) : Option String :=
  attrs.lookup name

/-- The `className` of an element: its class attribute, empty when absent. -/
def className (attrs : List (String × String)) : String :=
  (getAttribute attrs "class").getD ""

/-- JavaScript `s.split(' ')[0]`: what stands before the first space. -/
def firstToken (s : String) : String := ⟨s.toList.takeWhile (fun c => !(c == ' '))⟩

/-- The value of a return statement of `findParentGroup`. -/
structure Group where
  id : String
  name : String
  deriving DecidableEq, Repr

/-- The group of a heading, a section heading or a list heading: its trimmed
text cut at 50, with the given key in front for the id. -/
def textGroup (key : String) (heading : Node) : Group :=
  ⟨key ++ substring0 (trim (textContent heading)) 50,
    substring0 (trim (textContent heading)) 50⟩

/-- The tags of `sectionTags`. -/
def sectionTags : List String :=
  ["SECTION", "ARTICLE", "NAV", "ASIDE", "MAIN", "HEADER", "FOOTER"]

/-- The stoplist `/^(container|wrapper|inner|outer|col|row)$/i`. -/
def isGenericName (s : String) : Bool :=
  ["container", "wrapper", "inner", "outer", "col", "row"].contains (toLowerCase s)

/-- The branch of `findParentGroup` for a semantic section element. -/
def sectionGroup (current : Frame) : Group :=
  match firstHeadingList current.children with
  | some h => textGroup "section-" h
  | none =>
    let label := orElseNull (getAttribute current.attrs "aria-label")
      (orElseNull (getAttribute current.attrs "id") (toLowerCase current.tagName))
    ⟨current.tagName ++ "-" ++ label, formatLabel label⟩

/-- The branch of `findParentGroup` for a list whose parent is `listParent`;
`none` when the branch returns nothing. -/
def listGroup (listParent : Frame) : Option Group :=
  match listParent.prev.head? with
  | some prevSibling =>
    if isHeadingTag prevSibling.tagName then some (textGroup "list-" prevSibling)
    else
      let parentId := orElseNull (getAttribute listParent.attrs "id")
        (firstToken (className listParent.attrs))
      if !(parentId == "") && decide (parentId.length > 2) then
        some ⟨"list-" ++ parentId, formatLabel parentId⟩
      else none
  | none =>
    let parentId := orElseNull (getAttribute listParent.attrs "id")
      (firstToken (className listParent.attrs))
    if !(parentId == "") && decide (parentId.length > 2) then
      some ⟨"list-" ++ parentId, formatLabel parentId⟩
    else none

/-- The branch of `findParentGroup` for a div; `none` when it returns nothing. -/
def divGroup (current : Frame) : Option Group :=
  let meaningful := orElseNull (getAttribute current.attrs "id")
    (firstToken (className current.attrs))
  if !(meaningful == "") && decide (meaningful.length > 2) && !isGenericName meaningful then
    some ⟨"div-" ++ meaningful, formatLabel meaningful⟩
  else none

/-- One turn of the loop of `findParentGroup` at the ancestor `current`, whose
parent is `listParent`: the group returned, or `none` to go on with the parent. -/
def groupAt (current listParent : Frame) : Option Group :=
  match current.prev.find? (fun sibling => isHeadingTag sibling.tagName) with
  | some heading => some (textGroup "heading-" heading)
  | none =>
    if sectionTags.contains current.tagName then some (sectionGroup current)
    else
      match (if current.tagName == "UL" || current.tagName == "OL" then listGroup listParent
        else none) with
      | some g => some g
      | none => if current.tagName == "DIV" then divGroup current else none

/-- `findParentGroup(element)` on the ancestors of the element, from its parent
up to the body, which is the last one: the loop ends at the body. -/
def findParentGroup : List Frame → Group
  | [] => ⟨"ungrouped", "Other Links"⟩
  | [_] => ⟨"ungrouped", "Other Links"⟩
  | current :: listParent :: rest =>
    match groupAt current listParent with
    | some g => g
    | none => findParentGroup (listParent :: rest)

/-- A link found by `querySelectorAll('a[href]')`: the value of its href
attribute, the element itself and its ancestors up to the body. -/
structure Anchor where
  hrefAttr : String
  element : Node
  ancestors : List Frame

mutual
/-- The links in the subtree of a node, in document order; `ancestors` are the
ancestors of the node and `prev` its previous element siblings. -/
def collectNode (ancestors : List Frame) (prev : List Node) : Node → List Anchor
  | Node.text _ => []
  | Node.element t as cs =>
    (match (if t == "A" then getAttribute as "href" else none) with
      | some v => [⟨v, Node.element t as cs, ancestors⟩]
      | none => []) ++ collectList (⟨t, as, cs, prev⟩ :: ancestors) [] cs
/-- The links in the subtrees of a list of sibling nodes, in document order. -/
def collectList (ancestors : List Frame) (prev : List Node) : List Node → List Anchor
  | [] => []
  | n :: ns =>
    collectNode ancestors prev n ++
      collectList ancestors
        (match n with
          | Node.text _ => prev
          | Node.element _ _ _ => n :: prev) ns
end

/-- What `new URL(href)` gives that the classifier reads. -/
structure URLRecord where
  pathname : String
  hostname : String
  deriving DecidableEq, Repr

/-- The page as the classifier sees it: the attributes and the children of the
body, the `href` property of a link with a given href attribute, the result of
`new URL(href)` (`none` when it throws), the `innerText` of an element, and the
path and host of `window.location`. -/
structure Document where
  bodyAttrs : List (String × String)
  bodyChildren : List Node
  href : String → String
  parseURL : String → Option URLRecord
  innerText : Node → String
  pathname : String
  hostname : String

/-- The result of `document.querySelectorAll('a[href]')`, in document order. -/
def anchors (doc : Document) : List Anchor :=
  collectList [⟨"BODY", doc.bodyAttrs, doc.bodyChildren, []⟩] [] doc.bodyChildren

/-- An element of the `links` array of a group. -/
structure LinkRecord where
  url : String
  text : String
  sameDomain : Bool
  deriving DecidableEq, Repr

/-- An element of the array that the extractors return. -/
structure LinkGroup where
  groupId : String
  groupName : String
  links : List LinkRecord
  deriving DecidableEq, Repr

/-- The test `href.match(/\.(ext1|ext2|...)$/i)` for the extensions `exts`. -/
def matchesExtension (exts : List String) (href : String) : Bool :=
  exts.any (fun e => ('.' :: e.toList).isSuffixOf (href.toList.map Char.toLower))

/-- The test `href.includes('#') && new URL(href).pathname === window.location.pathname`;
`none` when `new URL` throws. -/
def samePageAnchor (doc : Document) (href : String) : Option Bool :=
  if includes href "#" then
    match doc.parseURL href with
    | none => none
    | some u => some (u.pathname == doc.pathname)
  else some false

/-- The text of a link, `(link.textContent || link.innerText || '').trim()`. -/
def linkText (doc : Document) (link : Node) : String :=
  trim (orElse (textContent link) (orElse (doc.innerText link) ""))

/-- The display text `text.substring(0, 100) || url.pathname || href`. -/
def displayText (text : String) (url : URLRecord) (href : String) : String :=
  orElse (substring0 text 100) (orElse url.pathname href)

/-- What the callback of `links.forEach` does with one link. -/
inductive Verdict where
  | skipped
  | seenOnly (href : String)
  | kept (href : String) (group : Group) (record : LinkRecord)

/-- The callback of `links.forEach` up to the update of `seen` and `groups`:
the link is skipped by a `return` or by an exception before `seen.add`, or its
address is added to `seen` and `new URL` throws, or it is recorded. -/
def examine (doc : Document) (exts : List String) (seen : List String) (a : Anchor) :
    Verdict :=
  let href := doc.href a.hrefAttr
  if href == "" || seen.contains href then Verdict.skipped
  else if !startsWith href "http" then Verdict.skipped
  else
    match samePageAnchor doc href with
    | none => Verdict.skipped
    | some true => Verdict.skipped
    | some false =>
      if matchesExtension exts href then Verdict.skipped
      else if includes href "javascript:" then Verdict.skipped
      else
        match doc.parseURL href with
        | none => Verdict.seenOnly href
        | some url =>
          Verdict.kept href (findParentGroup a.ancestors)
            ⟨href, displayText (linkText doc a.element) url href,
              url.hostname == doc.hostname⟩

/-- The update of the map `groups`: a new entry at the end when the id is new,
then the record pushed to the links of the entry with that id. -/
def pushLink : List LinkGroup → Group → LinkRecord → List LinkGroup
  | [], g, r => [⟨g.id, g.name, [r]⟩]
  | x :: xs, g, r =>
    if x.groupId == g.id then ⟨x.groupId, x.groupName, x.links ++ [r]⟩ :: xs
    else x :: pushLink xs g r

/-- The state of the loop over the links: the set `seen` and the map `groups`. -/
structure ExtractState where
  seen : List String
  groups : List LinkGroup

/-- The callback of `links.forEach`. -/
def visit (doc : Document) (exts : List String) (st : ExtractState) (a : Anchor) :
    ExtractState :=
  match examine doc exts st.seen a with
  | Verdict.skipped => st
  | Verdict.seenOnly href => ⟨st.seen ++ [href], st.groups⟩
  | Verdict.kept href g r => ⟨st.seen ++ [href], pushLink st.groups g r⟩

/-- The body shared by the two extractors, for the extensions `exts` of the
regular expression. -/
def extractWith (exts : List String) (doc : Document) : List LinkGroup :=
  ((anchors doc).foldl (visit doc exts) ⟨[], []⟩).groups

/-- The extensions in the regular expression of `extractLinksFromDOM`. -/
def workerExtensions : List String :=
  ["jpg", "jpeg", "png", "gif", "svg", "pdf", "zip", "exe", "dmg", "mp3", "mp4", "wav"]

/-- The extensions in the regular expression of `extractLinks`. -/
def contentExtensions : List String :=
  ["jpg", "jpeg", "png", "gif", "svg", "pdf", "zip", "exe", "dmg", "mp3", "mp4", "wav",
    "webp", "ico"]

/-- `extractLinksFromDOM()` of the service worker. -/
def extractLinksFromDOM (doc : Document) : List LinkGroup :=
  extractWith workerExtensions doc

/-- `extractLinks()` of the content script. -/
def extractLinks (doc : Document) : List LinkGroup :=
  extractWith contentExtensions doc

/-- A link element with the given href attribute and text. -/
def linkTo (href text : String) : Node :=
  Node.element "A" [("href", href)] [Node.text text]

/-- The result of `new URL` on the addresses of the sample pages; it throws on
every other string. -/
def sampleURL (href : String) : Option URLRecord :=
  [("https://alpha.example/", (⟨"/", "alpha.example"⟩ : URLRecord)),
    ("https://beta.example/docs", ⟨"/docs", "beta.example"⟩),
    ("https://gamma.example/", ⟨"/", "gamma.example"⟩),
    ("https://example.org/about", ⟨"/about", "example.org"⟩),
    ("https://example.org/contact", ⟨"/contact", "example.org"⟩),
    ("https://example.org/photo.png?size=large", ⟨"/photo.png", "example.org"⟩),
    ("https://example.org/view?file=report.pdf", ⟨"/view", "example.org"⟩),
    ("httpx://example.org/", ⟨"/", "example.org"⟩),
    ("https://example.org/archive/2024/reports/quarterly/finance/summary/europe/western-region/district-12/details/tables/annex-b",
      ⟨"/archive/2024/reports/quarterly/finance/summary/europe/western-region/district-12/details/tables/annex-b",
        "example.org"⟩)].lookup href

/-- A page at https://example.org/ with the given children of the body, on
which the href property of a link is its href attribute. -/
def samplePage (children : List Node) : Document :=
  ⟨[], children, fun v => v, sampleURL, fun _ => "", "/", "example.org"⟩

/-- The heading Resources, as an h2. -/
def resourcesHeading : Node := Node.element "H2" [] [Node.text "Resources"]

/-- A list of 3 links to three distinct domains. -/
def resourcesList : Node :=
  Node.element "UL" []
    [Node.element "LI" [] [linkTo "https://alpha.example/" "Alpha"],
      Node.element "LI" [] [linkTo "https://beta.example/docs" "Beta"],
      Node.element "LI" [] [linkTo "https://gamma.example/" "Gamma"]]

/-- A div with id footer-links that contains 2 links. -/
def footerLinks : Node :=
  Node.element "DIV" [("id", "footer-links")]
    [linkTo "https://example.org/about" "About",
      linkTo "https://example.org/contact" "Contact"]

/-- The page whose body contains, in this order, the heading Resources, the
list of 3 links and the div footer-links with 2 links. -/
def resourcesPage : Document := samplePage [resourcesHeading, resourcesList, footerLinks]

/-- The same content with the heading and the list inside a div of their own,
so that the heading is not a sibling of the div footer-links. -/
def wrappedResourcesPage : Document :=
  samplePage [Node.element "DIV" [] [resourcesHeading, resourcesList], footerLinks]

/-- The id, the name and the number of links of each group. -/
def summary (groups : List LinkGroup) : List (String × String × Nat) :=
  groups.map (fun g => (g.groupId, g.groupName, g.links.length))

/-- Specification of the loop over the links: the groups and records of the
links that are recorded, in document order, when the loop starts with `seen`. -/
def kept (doc : Document) (exts : List String) : List String → List Anchor →
    List (Group × LinkRecord)
  | _, [] => []
  | seen, a :: rest =>
    match examine doc exts seen a with
    | Verdict.skipped => kept doc exts seen rest
    | Verdict.seenOnly href => kept doc exts (seen ++ [href]) rest
    | Verdict.kept href g r => (g, r) :: kept doc exts (seen ++ [href]) rest

/-- Specification: the surviving links of a page in document order, each with
its group. -/
def survivors (doc : Document) (exts : List String) : List (Group × LinkRecord) :=
  kept doc exts [] (anchors doc)

/-- Specification of the filters on the address of a link, the test on `seen`
left out: the address is not empty, starts with http, is not an anchor into the
current page, does not end in one of the extensions, does not include
javascript: and is accepted by `new URL`. -/
def passes (doc : Document) (exts : List String) (href : String) : Bool :=
  !(href == "") && startsWith href "http" && (samePageAnchor doc href == some false) &&
    !matchesExtension exts href && !includes href "javascript:" &&
    (doc.parseURL href).isSome

/-- All link records of the groups, group by group. -/
def allLinks : List LinkGroup → List LinkRecord
  | [] => []
  | g :: gs => g.links ++ allLinks gs

/-- The addresses of all link records of the groups. -/
def allUrls (groups : List LinkGroup) : List String :=
  (allLinks groups).map LinkRecord.url

/-- The scheme of an address: what stands before the first colon. -/
def scheme (url : String) : String := ⟨url.toList.takeWhile (fun c => !(c == ':'))⟩

/-- A page with a link to an image with a query and a link to a page whose
query ends in an extension. -/
def extensionPage : Document :=
  samplePage [linkTo "https://example.org/photo.png?size=large" "Photo",
    linkTo "https://example.org/view?file=report.pdf" "Report"]

/-- A page with one link whose scheme is httpx. -/
def httpxPage : Document := samplePage [linkTo "httpx://example.org/" "Elsewhere"]

/-- A page with one link without text to an address with a path of 104 characters. -/
def longPathPage : Document :=
  samplePage [linkTo
    "https://example.org/archive/2024/reports/quarterly/finance/summary/europe/western-region/district-12/details/tables/annex-b"
    ""]

/-- The map `groups` after the given records were pushed in order. -/
def pushAll (groups : List LinkGroup) (records : List (Group × LinkRecord)) :
    List LinkGroup :=
  records.foldl (fun gs p => pushLink gs p.1 p.2) groups

/-- The addresses of the links of a page, in document order. -/
def hrefs (doc : Document) : List String :=
  (anchors doc).map (fun a => doc.href a.hrefAttr)

/-- Invariant of the map `groups` after the records `S` were pushed: no id
twice, every record in a group, the links of a group are the records with its
id in the order of `S`, and the groups stand in the order in which their ids
first occur in `S`. -/
def GroupsOf (gs : List LinkGroup) (S : List (Group × LinkRecord)) : Prop :=
  (gs.map LinkGroup.groupId).Nodup ∧
    (∀ p, p ∈ S → p.1.id ∈ gs.map LinkGroup.groupId) ∧
    (∀ g, g ∈ gs →
      g.links = (S.filter (fun p => p.1.id == g.groupId)).map Prod.snd ∧ g.links ≠ []) ∧
    List.Pairwise (fun a b => a < b)
      ((gs.map LinkGroup.groupId).map (fun id => (S.map (fun p => p.1.id)).indexOf id))

/-- A page at https://example.org/ with one link, to the image logo.webp. -/
def webpPage : Document :=
  ⟨[], [linkTo "https://example.org/logo.webp" "Logo"], fun v => v,
    fun _ => some ⟨"/logo.webp", "example.org"⟩, fun _ => "", "/", "example.org"⟩

/-- The frame of the body of a page, the last ancestor of every link. -/
def bodyFrame (doc : Document) : Frame := ⟨"BODY", doc.bodyAttrs, doc.bodyChildren, []⟩

/-- A section with the id tools that follows the heading Tools and contains a link. -/
def toolsPage : Document :=
  samplePage [Node.element "H3" [] [Node.text "  Tools  "],
    Node.element "SECTION" [("id", "tools")] [linkTo "https://example.org/about" "About"]]

end Links

end PdfCreator

namespace PdfCreator

namespace ServiceWorker

/-! ## The scroll loop -/

/-- The retry loop returns the image of the first attempt when that attempt succeeds. -/
theorem retryLoop_first_image (attempt : Nat → CaptureOutcome) (r k : Nat) (d : String)
    (h : attempt k = CaptureOutcome.image d) :
    retryLoop attempt (r + 1) k = (RetryResult.value (some d), k + 1) := by
  simp [retryLoop, h]

/-- A run of the scroll loop in which the scroll and the retry loop of every
iteration succeed: from iteration `i` it makes `n` further iterations, where
`n` is the number of offsets `i * C, (i + 1) * C, ...` below `H`, and pushes one
tile for each. -/
theorem captureLoop_run (env : TabEnv) (H C : Nat) (img : Nat → Option String)
    (hs : ∀ j, j * C < H → env.scrollTo j = none)
    (hr : ∀ j, j * C < H → (retryLoop (env.capture j) 3 0).1 = RetryResult.value (img j)) :
    ∀ (n fuel i : Nat) (caps : List Tile), n ≤ fuel → H ≤ (i + n) * C →
      (∀ j, j < n → (i + j) * C < H) →
      captureLoop env H C fuel i (i * C) caps
        = some (LoopResult.done
            (caps ++ (List.range' i n).map (fun j => ⟨img j, j * C, min C (H - j * C)⟩))) := by
  intro n
  induction n with
  | zero =>
    intro fuel i caps _ hH _
    have hnot : ¬ (i * C < H) := by
      have : H ≤ i * C := by simpa using hH
      omega
    cases fuel <;> simp [captureLoop, hnot]
  | succ n ih =>
    intro fuel i caps hf hH hlt
    have h0 : i * C < H := by simpa using hlt 0 (by omega)
    obtain ⟨f, rfl⟩ : ∃ f, fuel = f + 1 := ⟨fuel - 1, by omega⟩
    have hy : i * C + C = (i + 1) * C := by ring
    have hH1 : H ≤ (i + 1 + n) * C := by
      have : i + 1 + n = i + (n + 1) := by omega
      rw [this]; exact hH
    have hlt1 : ∀ j, j < n → (i + 1 + j) * C < H := by
      intro j hj
      have : i + 1 + j = i + (j + 1) := by omega
      rw [this]; exact hlt (j + 1) (by omega)
    simp only [captureLoop, captureStep, if_pos h0, hs i h0, hr i h0, hy]
    rw [ih f (i + 1) _ (by omega) hH1 hlt1]
    simp [List.range'_succ]

/-- Whatever the captures do, a scroll loop with a positive step that ends
normally has pushed exactly one tile for each offset `j * C` below `H`, with
height `min C (H - j * C)`. -/
theorem captureLoop_done (env : TabEnv) (H C : Nat) :
    ∀ (fuel i : Nat) (caps result : List Tile),
      captureLoop env H C fuel i (i * C) caps = some (LoopResult.done result) →
      ∃ (n : Nat) (rest : List Tile), result = caps ++ rest ∧
        rest.map (fun t => (t.y, t.height))
          = (List.range' i n).map (fun j => (j * C, min C (H - j * C))) ∧
        H ≤ (i + n) * C ∧ ∀ j, j < n → (i + j) * C < H := by
  intro fuel
  induction fuel with
  | zero =>
    intro i caps result h
    by_cases hy : i * C < H
    · simp [captureLoop, hy] at h
    · simp only [captureLoop, if_neg hy, Option.some.injEq, LoopResult.done.injEq] at h
      refine ⟨0, [], by simp [h], by simp, by simpa using Nat.le_of_not_lt hy, ?_⟩
      intro j hj; omega
  | succ f ih =>
    intro i caps result h
    by_cases hy : i * C < H
    · simp only [captureLoop, captureStep, if_pos hy] at h
      cases hsc : env.scrollTo i with
      | some e => simp [hsc] at h
      | none =>
        simp only [hsc] at h
        cases hrt : (retryLoop (env.capture i) 3 0).1 with
        | thrown e => simp [hrt] at h
        | value d =>
          simp only [hrt] at h
          have hyC : i * C + C = (i + 1) * C := by ring
          rw [hyC] at h
          obtain ⟨n, rest, hres, hgeo, hH, hlt⟩ := ih (i + 1) _ result h
          refine ⟨n + 1, ⟨d, i * C, min C (H - i * C)⟩ :: rest, by simp [hres], ?_, ?_, ?_⟩
          · simp [List.range'_succ, hgeo]
          · have : i + (n + 1) = i + 1 + n := by omega
            rw [this]; exact hH
          · intro j hj
            cases j with
            | zero => simpa using hy
            | succ j =>
              have : i + (j + 1) = i + 1 + j := by omega
              rw [this]; exact hlt j (by omega)
    · simp only [captureLoop, if_neg hy, Option.some.injEq, LoopResult.done.injEq] at h
      refine ⟨0, [], by simp [h], by simp, by simpa using Nat.le_of_not_lt hy, ?_⟩
      intro j hj; omega

/-- The number of offsets `0, C, 2 * C, ...` below `H` is `ceil (H / C)`. -/
theorem count_eq_ceil (H C n : Nat) (hC : 0 < C) (hH : H ≤ n * C)
    (hlt : ∀ j, j < n → j * C < H) : n = ⌈(H : ℚ) / (C : ℚ)⌉₊ := by
  have hCq : (0 : ℚ) < (C : ℚ) := by exact_mod_cast hC
  apply le_antisymm
  · cases n with
    | zero => exact Nat.zero_le _
    | succ m =>
      have hm : m * C < H := hlt m (by omega)
      have : m < ⌈(H : ℚ) / (C : ℚ)⌉₊ := by
        rw [Nat.lt_ceil, lt_div_iff₀ hCq]
        exact_mod_cast hm
      omega
  · rw [Nat.ceil_le, div_le_iff₀ hCq]
    exact_mod_cast hH

/-- The offsets below `H` are exactly `j * C` for `j < ceil (H / C)`. -/
theorem ceil_bounds (H C : Nat) (hC : 0 < C) :
    H ≤ ⌈(H : ℚ) / (C : ℚ)⌉₊ * C ∧ ∀ j, j < ⌈(H : ℚ) / (C : ℚ)⌉₊ → j * C < H := by
  have hCq : (0 : ℚ) < (C : ℚ) := by exact_mod_cast hC
  constructor
  · have h := Nat.le_ceil ((H : ℚ) / (C : ℚ))
    rw [div_le_iff₀ hCq] at h
    exact_mod_cast h
  · intro j hj
    rw [Nat.lt_ceil, lt_div_iff₀ hCq] at hj
    exact_mod_cast hj

/-- What the geometry of the pushed tiles says tile by tile. -/
theorem tiles_geometry (H C n : Nat) (tiles : List Tile)
    (hgeo : tiles.map (fun t => (t.y, t.height))
      = (List.range' 0 n).map (fun j => (j * C, min C (H - j * C)))) :
    tiles.length = n ∧
      ∀ j t, tiles[j]? = some t → j < n ∧ t.y = j * C ∧ t.height = min C (H - j * C) := by
  have hlen : tiles.length = n := by
    have := congrArg List.length hgeo
    simpa using this
  refine ⟨hlen, ?_⟩
  intro j t hj
  have hjn : j < n := by
    have := (List.getElem?_eq_some_iff.1 hj).1
    omega
  have h := congrArg (fun l => l[j]?) hgeo
  simp only [List.getElem?_map, hj, Option.map_some', List.getElem?_range' 0 1 hjn] at h
  simp only [Option.some.injEq, Prod.mk.injEq] at h
  refine ⟨hjn, ?_, ?_⟩
  · simpa using h.1
  · simpa using h.2

/-- C1 fails on the code: on `scrollFailsTab` and on `resetFailsTab`, pages of
scroll height 1000 and client height 400, every visible-area capture succeeds,
yet `captureFullPage` returns no tile at all: the rejection of a scripted scroll
command, in the loop or at the final restore, is the whole reply. -/
theorem captureFullPage_tiles_need_scroll :
    (scrollFailsTab.getDimensions = Except.ok ⟨1000, 400, 800, 800⟩ ∧
      (∀ i k, scrollFailsTab.capture i k = CaptureOutcome.image "data:image/png;base64,AAAA") ∧
      ∀ fuel, captureFullPage scrollFailsTab (fuel + 2)
        = some ⟨none, none, some "Frame with ID 0 was removed."⟩) ∧
      (resetFailsTab.getDimensions = Except.ok ⟨1000, 400, 800, 800⟩ ∧
        (∀ i k, resetFailsTab.capture i k = CaptureOutcome.image "data:image/png;base64,AAAA") ∧
        ∀ fuel, captureFullPage resetFailsTab (fuel + 3)
          = some ⟨none, none, some "No tab with id: 7"⟩) := by
  refine ⟨⟨rfl, fun _ _ => rfl, fun _ => rfl⟩, rfl, fun _ _ => rfl, ?_⟩
  intro fuel
  cases fuel <;> rfl

/-- C1, amended: on a page of scroll height H and client height C > 0 on which
every scripted scroll command resolves, the scroll to each offset and the final
scroll restore, and on which every visible-area capture succeeds,
`captureFullPage` returns exactly `ceil (H / C)` tiles, tile `i` with `y = i * C`
and `height = min C (H - i * C)`, together with the dimensions; for H = 1000 and
C = 400 these are the offsets 0, 400, 800 with heights 400, 400, 200. -/
theorem captureFullPage_tiles (env : TabEnv) (dims : Dimensions) (img : Nat → String)
    (fuel : Nat)
    (hdims : env.getDimensions = Except.ok dims)
    (hC : 0 < dims.clientHeight)
    (hscroll : ∀ i, env.scrollTo i = none) (hreset : env.resetScroll = none)
    (hcap : ∀ i, env.capture i 0 = CaptureOutcome.image (img i))
    (hfuel : ⌈(dims.scrollHeight : ℚ) / (dims.clientHeight : ℚ)⌉₊ ≤ fuel) :
    captureFullPage env fuel
        = some ⟨some ((List.range ⌈(dims.scrollHeight : ℚ) / (dims.clientHeight : ℚ)⌉₊).map
            (fun i => ⟨some (img i), i * dims.clientHeight,
              min dims.clientHeight (dims.scrollHeight - i * dims.clientHeight)⟩)),
          some dims, none⟩ ∧
      (dims.scrollHeight = 1000 → dims.clientHeight = 400 →
        captureFullPage env fuel
          = some ⟨some [⟨some (img 0), 0, 400⟩, ⟨some (img 1), 400, 400⟩,
              ⟨some (img 2), 800, 200⟩], some dims, none⟩) := by
  have hb := ceil_bounds dims.scrollHeight dims.clientHeight hC
  have hrun := captureLoop_run env dims.scrollHeight dims.clientHeight (fun j => some (img j))
    (fun j _ => hscroll j)
    (fun j _ => by rw [retryLoop_first_image _ _ _ _ (hcap j)])
    ⌈(dims.scrollHeight : ℚ) / (dims.clientHeight : ℚ)⌉₊ fuel 0 [] hfuel
    (by simpa using hb.1) (by simpa using hb.2)
  have hmain : captureFullPage env fuel
      = some ⟨some ((List.range ⌈(dims.scrollHeight : ℚ) / (dims.clientHeight : ℚ)⌉₊).map
          (fun i => ⟨some (img i), i * dims.clientHeight,
            min dims.clientHeight (dims.scrollHeight - i * dims.clientHeight)⟩)),
        some dims, none⟩ := by
    simp only [Nat.zero_mul, List.nil_append] at hrun
    simp only [captureFullPage, hdims, hrun, hreset, List.range_eq_range']
  refine ⟨hmain, ?_⟩
  intro h1 h2
  have h3 : ⌈(dims.scrollHeight : ℚ) / (dims.clientHeight : ℚ)⌉₊ = 3 := by
    refine (count_eq_ceil dims.scrollHeight dims.clientHeight 3 hC ?_ ?_).symm
    · rw [h1, h2]; norm_num
    · intro j hj
      rw [h1, h2]
      omega
  rw [hmain, h3, h1, h2]
  rfl

/-- C2: on a page with positive scroll height H and client height C, the tiles
returned by a successful `captureFullPage` start at offset 0, have strictly
increasing offsets and positive heights, each tile ends where the next one
starts, every tile but the last has height C, and the last tile ends at H: the
tiles cover the interval from 0 to H without gap or overlap. -/
theorem captureFullPage_tiles_cover (env : TabEnv) (dims : Dimensions) (fuel : Nat)
    (r : Response) (tiles : List Tile)
    (hdims : env.getDimensions = Except.ok dims)
    (hH : 0 < dims.scrollHeight) (hC : 0 < dims.clientHeight)
    (hres : captureFullPage env fuel = some r) (hcaps : r.captures = some tiles) :
    tiles ≠ [] ∧
      (tiles.map Tile.y).Pairwise (fun a b => a < b) ∧
      (∀ t, t ∈ tiles → 0 < t.height ∧ t.height ≤ dims.clientHeight) ∧
      (∀ t, tiles.head? = some t → t.y = 0) ∧
      (∀ i t u, tiles[i]? = some t → tiles[i + 1]? = some u →
        t.y < u.y ∧ t.y + t.height = u.y ∧ t.height = dims.clientHeight) ∧
      (∀ t, tiles.getLast? = some t → t.y + t.height = dims.scrollHeight) := by
  obtain ⟨⟨H, C, sw, cw⟩, rfl⟩ : ∃ d, d = dims := ⟨dims, rfl⟩
  simp only at hH hC ⊢
  have hloop : captureLoop env H C fuel 0 (0 * C) [] = some (LoopResult.done tiles) := by
    simp only [captureFullPage, hdims] at hres
    rw [Nat.zero_mul]
    cases hl : captureLoop env H C fuel 0 0 [] with
    | none => simp [hl] at hres
    | some lr =>
      cases lr with
      | thrown e =>
        simp only [hl, Option.some.injEq] at hres
        subst hres
        simp at hcaps
      | done caps =>
        simp only [hl] at hres
        cases hrs : env.resetScroll with
        | some e =>
          simp only [hrs, Option.some.injEq] at hres
          subst hres
          simp at hcaps
        | none =>
          simp only [hrs, Option.some.injEq] at hres
          subst hres
          simp only [Option.some.injEq] at hcaps
          rw [hcaps]
  obtain ⟨n, rest, hrest, hgeo, hHn, hlt⟩ := captureLoop_done env H C fuel 0 [] tiles hloop
  simp only [List.nil_append] at hrest
  subst hrest
  simp only [Nat.zero_add] at hHn hlt
  obtain ⟨hlen, hget⟩ := tiles_geometry H C n tiles hgeo
  have hn : 0 < n := by
    rcases Nat.eq_zero_or_pos n with h0 | h0
    · subst h0; simp at hHn; omega
    · exact h0
  have hgap : ∀ j, j + 1 < n → j * C + C < H := by
    intro j hj
    have := hlt (j + 1) hj
    have e : (j + 1) * C = j * C + C := by ring
    omega
  refine ⟨?_, ?_, ?_, ?_, ?_, ?_⟩
  · intro h; rw [h] at hlen; simp at hlen; omega
  · have hy : tiles.map Tile.y = (List.range n).map (fun j => j * C) := by
      have := congrArg (List.map Prod.fst) hgeo
      simpa [List.map_map, Function.comp_def, List.range_eq_range'] using this
    rw [hy, List.pairwise_map]
    exact (List.pairwise_lt_range n).imp (fun {a b} hab => Nat.mul_lt_mul_of_pos_right hab hC)
  · intro t ht
    obtain ⟨j, hj, hjt⟩ := List.getElem_of_mem ht
    have hj2 : tiles[j]? = some t := by rw [List.getElem?_eq_getElem hj, hjt]
    obtain ⟨hjn, _, hh⟩ := hget j t hj2
    have := hlt j hjn
    rw [hh]
    omega
  · intro t ht
    rw [List.head?_eq_getElem?] at ht
    obtain ⟨_, hy, _⟩ := hget 0 t ht
    simpa using hy
  · intro i t u ht hu
    obtain ⟨_, hty, hth⟩ := hget i t ht
    obtain ⟨hin, huy, _⟩ := hget (i + 1) u hu
    have := hgap i hin
    have e : (i + 1) * C = i * C + C := by ring
    rw [hty, hth, huy, e]
    omega
  · intro t ht
    rw [List.getLast?_eq_getElem?, hlen] at ht
    obtain ⟨_, hty, hth⟩ := hget (n - 1) t ht
    have h1 := hlt (n - 1) (by omega)
    have e : n * C = (n - 1) * C + C := by
      have : n = (n - 1) + 1 := by omega
      conv_lhs => rw [this]
      ring
    rw [hty, hth]
    omega

/-! ## The retry loop -/

/-- The two ways the retry loop started with 3 retries can end: attempt `k < 3`
succeeds after `k` rate-limit failures, or the `n`-th attempt (`n ≤ 3`) fails
after `n - 1` rate-limit failures and its error is thrown, because it is not a
rate-limit error or because it is the third attempt. -/
theorem retryLoop_spec (att : Nat → CaptureOutcome) :
    (∃ k d, k < 3 ∧ att k = CaptureOutcome.image d ∧
        (∀ j, j < k → rateLimited (att j) = true) ∧
        retryLoop att 3 0 = (RetryResult.value (some d), k + 1)) ∨
      (∃ n m, 1 ≤ n ∧ n ≤ 3 ∧ att (n - 1) = CaptureOutcome.failure m ∧
        (∀ j, j < n - 1 → rateLimited (att j) = true) ∧
        (rateLimited (att (n - 1)) = false ∨ n = 3) ∧
        retryLoop att 3 0 = (RetryResult.thrown m, n)) := by
  cases h0 : att 0 with
  | image d0 =>
    left
    exact ⟨0, d0, by omega, h0, by intro j hj; omega, by simp [retryLoop, h0]⟩
  | failure m0 =>
    by_cases r0 : includes m0 "MAX_CAPTURE" = true
    · cases h1 : att 1 with
      | image d1 =>
        left
        refine ⟨1, d1, by omega, h1, ?_, by simp [retryLoop, h0, h1, r0]⟩
        intro j hj
        have hj0 : j = 0 := by omega
        subst hj0
        simp [rateLimited, h0, r0]
      | failure m1 =>
        by_cases r1 : includes m1 "MAX_CAPTURE" = true
        · cases h2 : att 2 with
          | image d2 =>
            left
            refine ⟨2, d2, by omega, h2, ?_, by simp [retryLoop, h0, h1, h2, r0, r1]⟩
            intro j hj
            have hj01 : j = 0 ∨ j = 1 := by omega
            rcases hj01 with rfl | rfl
            · simp [rateLimited, h0, r0]
            · simp [rateLimited, h1, r1]
          | failure m2 =>
            right
            refine ⟨3, m2, by omega, by omega, by simpa using h2, ?_, Or.inr rfl,
              by simp [retryLoop, h0, h1, h2, r0, r1]⟩
            intro j hj
            have hj01 : j = 0 ∨ j = 1 := by omega
            rcases hj01 with rfl | rfl
            · simp [rateLimited, h0, r0]
            · simp [rateLimited, h1, r1]
        · right
          refine ⟨2, m1, by omega, by omega, by simpa using h1, ?_,
            Or.inl (by simpa [rateLimited, h1] using r1), by simp [retryLoop, h0, h1, r0, r1]⟩
          intro j hj
          have hj0 : j = 0 := by omega
          subst hj0
          simp [rateLimited, h0, r0]
    · right
      exact ⟨1, m0, by omega, by omega, by simpa using h0, by intro j hj; omega,
        Or.inl (by simpa [rateLimited, h0] using r0), by simp [retryLoop, h0, r0]⟩

/-- While every iteration succeeds the scroll loop only advances: after `i`
successful iterations it is the loop at iteration `i0 + i` with some captures. -/
theorem captureLoop_prefix (env : TabEnv) (H C : Nat) :
    ∀ (i fuel i0 y : Nat) (caps : List Tile),
      (∀ j, j < i → env.scrollTo (i0 + j) = none ∧
        ∃ d, (retryLoop (env.capture (i0 + j)) 3 0).1 = RetryResult.value d) →
      (∀ j, j < i → y + j * C < H) →
      ∃ caps1, captureLoop env H C (fuel + i) i0 y caps
        = captureLoop env H C fuel (i0 + i) (y + i * C) caps1 := by
  intro i
  induction i with
  | zero =>
    intro fuel i0 y caps _ _
    exact ⟨caps, by simp⟩
  | succ i ih =>
    intro fuel i0 y caps hok hlt
    obtain ⟨hs, d, hd⟩ := hok 0 (by omega)
    have hy : y < H := by simpa using hlt 0 (by omega)
    have hfuel : fuel + (i + 1) = (fuel + i) + 1 := by omega
    simp only [Nat.add_zero] at hs hd
    obtain ⟨caps1, h1⟩ := ih fuel (i0 + 1) (y + C)
      (caps ++ [⟨d, y, min C (H - y)⟩])
      (fun j hj => by
        have e : i0 + 1 + j = i0 + (j + 1) := by omega
        rw [e]; exact hok (j + 1) (by omega))
      (fun j hj => by
        have := hlt (j + 1) (by omega)
        have e : (j + 1) * C = j * C + C := by ring
        omega)
    refine ⟨caps1, ?_⟩
    rw [hfuel]
    simp only [captureLoop, captureStep, if_pos hy, hs, hd]
    rw [h1]
    have e1 : i0 + 1 + i = i0 + (i + 1) := by omega
    have e2 : y + C + i * C = y + (i + 1) * C := by ring
    rw [e1, e2]

/-- C3: at a scroll offset that the loop reaches and scrolls to, at most 3
capture attempts are made; the tile of that offset is pushed, once and with the
image of the successful attempt, exactly when some attempt k < 3 (counted from
0) succeeds and every attempt before it failed with a rate-limit error;
otherwise the n-th attempt (n ≤ 3) failed without a rate-limit error or was the
third one, no tile is pushed, and `captureFullPage` returns the error of that
last attempt. -/
theorem captureStep_retry (env : TabEnv) (dims : Dimensions) (i fuel : Nat) (caps : List Tile)
    (hdims : env.getDimensions = Except.ok dims)
    (hprev : ∀ j, j < i → env.scrollTo j = none ∧
      ∃ d, (retryLoop (env.capture j) 3 0).1 = RetryResult.value d)
    (hy : i * dims.clientHeight < dims.scrollHeight)
    (hscroll : env.scrollTo i = none) (hfuel : i < fuel) :
    (retryLoop (env.capture i) 3 0).2 ≤ 3 ∧
      (∀ d, (∃ k, k < 3 ∧ env.capture i k = CaptureOutcome.image d ∧
            ∀ j, j < k → rateLimited (env.capture i j) = true) ↔
          captureStep env dims.scrollHeight dims.clientHeight i (i * dims.clientHeight) caps
            = LoopResult.done (caps ++ [⟨some d, i * dims.clientHeight,
                min dims.clientHeight (dims.scrollHeight - i * dims.clientHeight)⟩])) ∧
      ((¬ ∃ k d, k < 3 ∧ env.capture i k = CaptureOutcome.image d ∧
            ∀ j, j < k → rateLimited (env.capture i j) = true) →
        ∃ n m, 1 ≤ n ∧ n ≤ 3 ∧ env.capture i (n - 1) = CaptureOutcome.failure m ∧
          (∀ j, j < n - 1 → rateLimited (env.capture i j) = true) ∧
          (rateLimited (env.capture i (n - 1)) = false ∨ n = 3) ∧
          retryLoop (env.capture i) 3 0 = (RetryResult.thrown m, n) ∧
          captureStep env dims.scrollHeight dims.clientHeight i (i * dims.clientHeight) caps
            = LoopResult.thrown m ∧
          captureFullPage env fuel = some ⟨none, none, some m⟩) := by
  rcases retryLoop_spec (env.capture i) with
    ⟨k, d, hk, hkd, hrl, hret⟩ | ⟨n, m, hn1, hn3, hnm, hrl, hlast, hret⟩
  · refine ⟨by rw [hret]; simp only; omega, ?_, ?_⟩
    · intro d1
      constructor
      · rintro ⟨k1, hk1, hk1d, hrl1⟩
        have hkk : k1 = k := by
          rcases Nat.lt_trichotomy k1 k with h | h | h
          · have := hrl k1 h
            rw [hk1d] at this
            simp [rateLimited] at this
          · exact h
          · have := hrl1 k h
            rw [hkd] at this
            simp [rateLimited] at this
        subst hkk
        rw [hkd] at hk1d
        simp only [CaptureOutcome.image.injEq] at hk1d
        subst hk1d
        simp [captureStep, hscroll, hret]
      · intro hstep
        simp only [captureStep, hscroll, hret, LoopResult.done.injEq,
          List.append_cancel_left_eq, List.cons.injEq, Tile.mk.injEq, Option.some.injEq,
          and_true] at hstep
        subst hstep
        exact ⟨k, hk, hkd, hrl⟩
    · intro hno
      exact absurd ⟨k, d, hk, hkd, hrl⟩ hno
  · have hnoimg : ∀ k1 d1, k1 < 3 → env.capture i k1 = CaptureOutcome.image d1 →
        (∀ j, j < k1 → rateLimited (env.capture i j) = true) → False := by
      intro k1 d1 hk1 hk1d hrl1
      rcases Nat.lt_trichotomy k1 (n - 1) with h | h | h
      · have := hrl k1 h
        rw [hk1d] at this
        simp [rateLimited] at this
      · rw [h, hnm] at hk1d
        simp at hk1d
      · have h2 := hrl1 (n - 1) h
        rcases hlast with h3 | h3
        · rw [h3] at h2
          simp at h2
        · omega
    have hstep : captureStep env dims.scrollHeight dims.clientHeight i
        (i * dims.clientHeight) caps = LoopResult.thrown m := by
      simp [captureStep, hscroll, hret]
    refine ⟨by rw [hret]; exact hn3, ?_, ?_⟩
    · intro d1
      constructor
      · rintro ⟨k1, hk1, hk1d, hrl1⟩
        exact absurd (hnoimg k1 d1 hk1 hk1d hrl1) id
      · intro h
        rw [hstep] at h
        simp at h
    · intro _
      refine ⟨n, m, hn1, hn3, hnm, hrl, hlast, hret, hstep, ?_⟩
      have hlt : ∀ j, j < i → 0 + j * dims.clientHeight < dims.scrollHeight := by
        intro j hj
        have := Nat.mul_le_mul_right dims.clientHeight (Nat.le_of_lt hj)
        omega
      obtain ⟨caps1, hpre⟩ := captureLoop_prefix env dims.scrollHeight dims.clientHeight
        i (fuel - i) 0 0 [] (fun j hj => by simpa using hprev j hj) hlt
      have hf : fuel - i + i = fuel := by omega
      obtain ⟨f, hf1⟩ : ∃ f, fuel - i = f + 1 := ⟨fuel - i - 1, by omega⟩
      rw [hf] at hpre
      have hstep1 : captureStep env dims.scrollHeight dims.clientHeight i
          (i * dims.clientHeight) caps1 = LoopResult.thrown m := by
        simp [captureStep, hscroll, hret]
      simp only [Nat.zero_add] at hpre
      simp only [captureFullPage, hdims, hpre, hf1, captureLoop, if_pos hy, hstep1]

/-- The page of `sampleTab` is captured as three tiles at 0, 400 and 800 with
heights 400, 400 and 200. -/
theorem captureFullPage_tiles_witness :
    captureFullPage sampleTab 3
      = some ⟨some [⟨some "data:image/png;base64,AAAA", 0, 400⟩,
          ⟨some "data:image/png;base64,AAAA", 400, 400⟩,
          ⟨some "data:image/png;base64,AAAA", 800, 200⟩],
        some ⟨1000, 400, 800, 800⟩, none⟩ :=
  (captureFullPage_tiles sampleTab ⟨1000, 400, 800, 800⟩
    (fun _ => "data:image/png;base64,AAAA") 3 rfl (by decide) (fun _ => rfl) rfl
    (fun _ => rfl) (Nat.ceil_le.2 (by norm_num))).2 rfl rfl

/-- The three tiles of `sampleTab` have strictly increasing offsets. -/
theorem captureFullPage_tiles_cover_witness :
    List.Pairwise (fun a b => a < b)
      ([(⟨some "data:image/png;base64,AAAA", 0, 400⟩ : Tile),
        ⟨some "data:image/png;base64,AAAA", 400, 400⟩,
        ⟨some "data:image/png;base64,AAAA", 800, 200⟩].map Tile.y) :=
  (captureFullPage_tiles_cover sampleTab ⟨1000, 400, 800, 800⟩ 3
    ⟨some [⟨some "data:image/png;base64,AAAA", 0, 400⟩,
        ⟨some "data:image/png;base64,AAAA", 400, 400⟩,
        ⟨some "data:image/png;base64,AAAA", 800, 200⟩],
      some ⟨1000, 400, 800, 800⟩, none⟩ _ rfl (by decide)
    (by decide) (by decide) rfl).2.1

/-- On `retryTab` the first tile is pushed once, with the image of the third attempt. -/
theorem captureStep_retry_witness :
    captureStep retryTab 1000 400 0 0 []
      = LoopResult.done [⟨some "data:image/png;base64,AAAA", 0, 400⟩] :=
  ((captureStep_retry retryTab ⟨1000, 400, 800, 800⟩ 0 1 [] rfl
      (fun j hj => absurd hj (Nat.not_lt_zero j)) (by decide) rfl (by decide)).2.1
    "data:image/png;base64,AAAA").1
    ⟨2, by decide, rfl, fun j hj => by
      have hj01 : j = 0 ∨ j = 1 := by omega
      rcases hj01 with rfl | rfl <;> decide⟩

/-! ## The scroll restore and the hidden tab -/

/-- C4 fails on the code: on `resetFailsTab` every tile capture succeeds and
the scroll loop ends with three tiles, but the rejected scroll restore makes
`captureFullPage` return the error instead of the tiles and the dimensions. -/
theorem captureFullPage_reset_fatal :
    (∀ i k, resetFailsTab.capture i k = CaptureOutcome.image "data:image/png;base64,AAAA") ∧
      captureLoop resetFailsTab 1000 400 3 0 0 []
        = some (LoopResult.done [⟨some "data:image/png;base64,AAAA", 0, 400⟩,
            ⟨some "data:image/png;base64,AAAA", 400, 400⟩,
            ⟨some "data:image/png;base64,AAAA", 800, 200⟩]) ∧
      captureFullPage resetFailsTab 3 = some ⟨none, none, some "No tab with id: 7"⟩ :=
  ⟨fun _ _ => rfl, by decide, by decide⟩

/-- C4, amended: when the scroll loop has ended with its tiles,
`captureFullPage` returns these tiles and the original dimensions if the scroll
restore resolves, and returns the error of the scroll restore, without tiles
and dimensions, if it rejects. -/
theorem captureFullPage_reset (env : TabEnv) (dims : Dimensions) (fuel : Nat)
    (tiles : List Tile)
    (hdims : env.getDimensions = Except.ok dims)
    (hloop : captureLoop env dims.scrollHeight dims.clientHeight fuel 0 0 []
      = some (LoopResult.done tiles)) :
    (env.resetScroll = none →
        captureFullPage env fuel = some ⟨some tiles, some dims, none⟩) ∧
      (∀ e, env.resetScroll = some e →
        captureFullPage env fuel = some ⟨none, none, some e⟩) := by
  constructor
  · intro h
    simp only [captureFullPage, hdims, hloop, h]
  · intro e h
    simp only [captureFullPage, hdims, hloop, h]

/-- On `resetFailsTab` the error of the scroll restore is the reply. -/
theorem captureFullPage_reset_witness :
    captureFullPage resetFailsTab 3 = some ⟨none, none, some "No tab with id: 7"⟩ :=
  (captureFullPage_reset resetFailsTab ⟨1000, 400, 800, 800⟩ 3
    [⟨some "data:image/png;base64,AAAA", 0, 400⟩,
      ⟨some "data:image/png;base64,AAAA", 400, 400⟩,
      ⟨some "data:image/png;base64,AAAA", 800, 200⟩] rfl (by decide)).2
    "No tab with id: 7" rfl

/-- C5: once the hidden tab is created, every run of `loadPageAndCapture` that
returns has called `chrome.tabs.remove` for that tab exactly once, as its last
call; when the tab does not report status complete within 30000 ms the run
returns the error Page load timeout, for any fuel, and the tab is removed;
otherwise the run returns the reply of `captureFullPage` whenever that returns. -/
theorem loadPageAndCapture_closes (env : LoadEnv) (url : String) (fuel tabId : Nat)
    (hcreate : env.create = Except.ok tabId) :
    (∀ result calls, loadPageAndCapture env url fuel = some (result, calls) →
        calls = [TabCall.create url, TabCall.remove tabId] ∧
        calls.count (TabCall.remove tabId) = 1 ∧
        calls.getLast? = some (TabCall.remove tabId)) ∧
      ((∀ t, env.loadCompleteAt = some t → 30000 < t) →
        loadPageAndCapture env url fuel
          = some (⟨none, none, some "Page load timeout"⟩,
              [TabCall.create url, TabCall.remove tabId])) ∧
      (∀ t r, env.loadCompleteAt = some t → t < 30000 →
        captureFullPage env.tab fuel = some r →
        loadPageAndCapture env url fuel
          = some (r, [TabCall.create url, TabCall.remove tabId])) := by
  have hcalls : ∀ result calls, loadPageAndCapture env url fuel = some (result, calls) →
      calls = [TabCall.create url, TabCall.remove tabId] := by
    intro result calls h
    simp only [loadPageAndCapture, hcreate, closeTab] at h
    cases hb : loadBody env fuel with
    | none => simp [hb] at h
    | some b =>
      cases b with
      | ok r =>
        simp only [hb, Option.some.injEq, Prod.mk.injEq] at h
        exact h.2.symm
      | error e =>
        simp only [hb, Option.some.injEq, Prod.mk.injEq] at h
        exact h.2.symm
  refine ⟨?_, ?_, ?_⟩
  · intro result calls h
    have hc := hcalls result calls h
    subst hc
    refine ⟨rfl, ?_, ?_⟩
    · simp [List.count_cons]
    · simp
  · intro hlate
    have hto : loadTimedOut env = true := by
      unfold loadTimedOut
      cases ht : env.loadCompleteAt with
      | none => rfl
      | some t =>
        have := hlate t ht
        simp only [decide_eq_true_eq]
        omega
    simp [loadPageAndCapture, hcreate, loadBody, hto, closeTab]
  · intro t r ht hlt hcap
    have hto : loadTimedOut env = false := by
      unfold loadTimedOut
      simp only [ht, decide_eq_false_iff_not]
      omega
    simp [loadPageAndCapture, hcreate, loadBody, hto, hcap, closeTab]

/-- The stalled tab 7 is removed and the reply is the load timeout. -/
theorem loadPageAndCapture_closes_witness :
    loadPageAndCapture stalledLoad "https://example.org/a" 0
      = some (⟨none, none, some "Page load timeout"⟩,
          [TabCall.create "https://example.org/a", TabCall.remove 7]) :=
  (loadPageAndCapture_closes stalledLoad "https://example.org/a" 0 7 rfl).2.1
    (fun t ht => by simp [stalledLoad] at ht)

end ServiceWorker

namespace Popup

/-! ## The batch coordinator -/

/-- The link loop requests every link, in order, and pushes exactly the pages of
the links whose reply carries no error. -/
theorem captureLinks_eq (env : PopupEnv) :
    ∀ (links : List String) (i : Nat) (pages : List Page) (calls : List Call),
      captureLinks env links i pages calls
        = (pages ++ capturedLinks env links i, calls ++ links.map Call.loadPageAndCapture) := by
  intro links
  induction links with
  | nil => intro i pages calls; simp [captureLinks, capturedLinks]
  | cons url rest ih =>
    intro i pages calls
    by_cases h : truthy (env.loadPage i url).error = true
    · simp [captureLinks, capturedLinks, h, ih]
    · simp [captureLinks, capturedLinks, h, ih]

/-- What `finishJob` adds to the requests: nothing when no page was pushed, else
the `createPDF` message with the pushed pages, followed at most by the download. -/
theorem finishJob_calls (env : PopupEnv) (pages : List Page) (calls : List Call) :
    ∃ extra, (finishJob env pages calls).2 = calls ++ extra ∧
      (pages = [] → extra = []) ∧
      (pages ≠ [] → ∃ more, extra = Call.createPDF pages env.settings :: more ∧
        ∀ c, c ∈ more → ∃ u f, c = Call.download u f) := by
  unfold finishJob
  cases pages with
  | nil => exact ⟨[], by simp, fun _ => rfl, fun h => absurd rfl h⟩
  | cons p ps =>
    simp only [List.length_cons, Nat.succ_ne_zero, beq_iff_eq, if_false]
    by_cases he : truthy (env.createPDFReply (p :: ps) env.settings).error = true
    · refine ⟨[Call.createPDF (p :: ps) env.settings], by simp [he], by simp, ?_⟩
      intro _
      exact ⟨[], rfl, by simp⟩
    · by_cases hd : truthy (env.createPDFReply (p :: ps) env.settings).dataUrl = true
      · refine ⟨[Call.createPDF (p :: ps) env.settings,
            Call.download ((env.createPDFReply (p :: ps) env.settings).dataUrl.getD "")
              env.filename], ?_, by simp, ?_⟩
        · cases env.downloadReply <;> simp [he, hd]
        · intro _
          exact ⟨_, rfl, by simp⟩
      · refine ⟨[Call.createPDF (p :: ps) env.settings], by simp [he, hd], by simp, ?_⟩
        intro _
        exact ⟨[], rfl, by simp⟩

/-- The requests of a batch whose current page, if included, is captured: the
capture requests of all targets followed by what `finishJob` adds. -/
theorem createPDF_calls (env : PopupEnv)
    (hcur : env.includeCurrent = true → truthy env.captureCurrent.error = false) :
    ∃ extra, (createPDF env).2 = captureRequests env ++ extra ∧
      (capturedTargets env = [] → extra = []) ∧
      (capturedTargets env ≠ [] →
        ∃ more, extra = Call.createPDF (capturedTargets env) env.settings :: more ∧
          ∀ c, c ∈ more → ∃ u f, c = Call.download u f) := by
  by_cases hinc : env.includeCurrent = true
  · have herr := hcur hinc
    obtain ⟨extra, h1, h2, h3⟩ := finishJob_calls env
      ([currentPage env] ++ capturedLinks env env.selectedLinks 0)
      ([Call.captureFullPage env.currentTab.id] ++
        env.selectedLinks.map Call.loadPageAndCapture)
    refine ⟨extra, ?_, ?_, ?_⟩
    · simp only [createPDF, hinc, herr, captureLinks_eq, captureRequests, currentPage] at h1 ⊢
      simpa using h1
    · intro h; simp [capturedTargets, hinc] at h
    · intro _
      have := h3 (by simp)
      simpa [capturedTargets, hinc] using this
  · have hinc1 : env.includeCurrent = false := by simpa using hinc
    by_cases hsel : env.selectedLinks = []
    · refine ⟨[], ?_, fun _ => rfl, ?_⟩
      · simp [createPDF, hinc1, hsel, captureRequests]
      · intro h; simp [capturedTargets, hinc1, hsel, capturedLinks] at h
    · obtain ⟨extra, h1, h2, h3⟩ := finishJob_calls env
        (capturedLinks env env.selectedLinks 0) (env.selectedLinks.map Call.loadPageAndCapture)
      refine ⟨extra, ?_, ?_, ?_⟩
      · have hlen : ¬ env.selectedLinks.length = 0 := by
          intro h; exact hsel (List.length_eq_zero.1 h)
        simp only [createPDF, hinc1, captureLinks_eq, captureRequests]
        simpa [hlen] using h1
      · intro h; exact h2 (by simpa [capturedTargets, hinc1] using h)
      · intro h
        have := h3 (by simpa [capturedTargets, hinc1] using h)
        simpa [capturedTargets, hinc1] using this

/-- A batch whose current page is included and fails to capture ends at once. -/
theorem createPDF_current_failed (env : PopupEnv) (hinc : env.includeCurrent = true)
    (herr : truthy env.captureCurrent.error = true) :
    createPDF env
      = (JobOutcome.failed
          ("Failed to capture current page: " ++ env.captureCurrent.error.getD ""),
        [Call.captureFullPage env.currentTab.id]) := by
  simp [createPDF, hinc, herr]

/-- Every `createPDF` message of a job carries the captured targets, which are
then not empty, and the settings of the form. -/
theorem createPDF_request (env : PopupEnv) (ps : List Page) (st : Settings)
    (h : Call.createPDF ps st ∈ (createPDF env).2) :
    ps = capturedTargets env ∧ st = env.settings ∧ ps ≠ [] := by
  by_cases hcur : env.includeCurrent = true → truthy env.captureCurrent.error = false
  · obtain ⟨extra, h1, h2, h3⟩ := createPDF_calls env hcur
    rw [h1, List.mem_append] at h
    rcases h with h | h
    · exfalso
      simp only [captureRequests, List.mem_append, List.mem_map] at h
      rcases h with h | ⟨u, _, hu⟩
      · split at h <;> simp at h
      · cases hu
    · by_cases ht : capturedTargets env = []
      · rw [h2 ht] at h
        simp at h
      · obtain ⟨more, hm, hdl⟩ := h3 ht
        rw [hm, List.mem_cons] at h
        rcases h with h | h
        · simp only [Call.createPDF.injEq] at h
          exact ⟨h.1, h.2, by rw [h.1]; exact ht⟩
        · obtain ⟨u, f, huf⟩ := hdl _ h
          cases huf
  · exfalso
    have hinc : env.includeCurrent = true := by
      by_contra hc
      exact hcur (fun h => absurd h hc)
    have herr : truthy env.captureCurrent.error = true := by
      by_contra hc
      exact hcur (fun _ => by simpa using hc)
    rw [createPDF_current_failed env hinc herr] at h
    simp at h

/-- A link whose reply carries no error has its page among the captured links. -/
theorem mem_capturedLinks (env : PopupEnv) :
    ∀ (links : List String) (i j : Nat) (url : String), links[j]? = some url →
      truthy (env.loadPage (i + j) url).error = false →
      (⟨url, url, (env.loadPage (i + j) url).captures,
          (env.loadPage (i + j) url).dimensions⟩ : Page) ∈ capturedLinks env links i := by
  intro links
  induction links with
  | nil => intro i j url h; simp at h
  | cons u rest ih =>
    intro i j url h hok
    cases j with
    | zero =>
      simp only [List.getElem?_cons_zero, Option.some.injEq] at h
      subst h
      simp only [Nat.add_zero] at hok ⊢
      simp [capturedLinks, hok]
    | succ j =>
      simp only [List.getElem?_cons_succ] at h
      have e : i + (j + 1) = i + 1 + j := by omega
      rw [e] at hok ⊢
      have hmem := ih (i + 1) j url h hok
      unfold capturedLinks
      split
      · exact hmem
      · exact List.mem_cons_of_mem _ hmem

/-- C6: in a batch whose current page, if included, is captured, the requests
are the capture requests of all targets in caller order (every selected link is
requested, whatever the replies for the other links), followed only by the
`createPDF` message and the download; the pages of any `createPDF` message are
exactly the targets whose reply carries no error, the current page first when
included, then the links in selection order. -/
theorem createPDF_links_continue (env : PopupEnv) :
    ((env.includeCurrent = true → truthy env.captureCurrent.error = false) →
        ∃ rest, (createPDF env).2 = captureRequests env ++ rest ∧
          (∀ c, c ∈ rest → ∀ u, c ≠ Call.loadPageAndCapture u) ∧
          (capturedTargets env ≠ [] →
            Call.createPDF (capturedTargets env) env.settings ∈ rest)) ∧
      (∀ ps st, Call.createPDF ps st ∈ (createPDF env).2 →
        ps = capturedTargets env ∧ st = env.settings) := by
  constructor
  · intro hcur
    obtain ⟨extra, h1, h2, h3⟩ := createPDF_calls env hcur
    refine ⟨extra, h1, ?_, ?_⟩
    · intro c hc u hu
      subst hu
      by_cases ht : capturedTargets env = []
      · rw [h2 ht] at hc
        simp at hc
      · obtain ⟨more, hm, hdl⟩ := h3 ht
        rw [hm, List.mem_cons] at hc
        rcases hc with hc | hc
        · cases hc
        · obtain ⟨v, f, hvf⟩ := hdl _ hc
          cases hvf
    · intro ht
      obtain ⟨more, hm, _⟩ := h3 ht
      rw [hm]
      exact List.mem_cons_self _ _
  · intro ps st h
    obtain ⟨h1, h2, _⟩ := createPDF_request env ps st h
    exact ⟨h1, h2⟩

/-- In `firstLinkFails` both links are requested although the first one fails. -/
theorem createPDF_links_continue_witness :
    ∃ rest, (createPDF firstLinkFails).2
        = [Call.loadPageAndCapture "https://a.example/",
            Call.loadPageAndCapture "https://b.example/"] ++ rest ∧
      (∀ c, c ∈ rest → ∀ u, c ≠ Call.loadPageAndCapture u) ∧
      (capturedTargets firstLinkFails ≠ [] →
        Call.createPDF (capturedTargets firstLinkFails) firstLinkFails.settings ∈ rest) :=
  (createPDF_links_continue firstLinkFails).1 (fun h => by simp [firstLinkFails] at h)

/-- C7 fails on the code for the current page: in `currentFails` the capture of
the current page fails, the job ends with that error, and the linked page,
whose capture would succeed, is never requested. -/
theorem createPDF_current_failure_aborts :
    truthy (currentFails.loadPage 0 "https://a.example/").error = false ∧
      createPDF currentFails
        = (JobOutcome.failed
            "Failed to capture current page: Cannot access contents of the page",
          [Call.captureFullPage 1]) ∧
      Call.loadPageAndCapture "https://a.example/" ∉ (createPDF currentFails).2 := by
  decide

/-- C7, amended: a capture failure of the current page ends the job at once,
with the error Failed to capture current page and no request for any linked
page; when the current page, if included, is captured, every selected link is
requested whatever the replies for the other links, and the page of every link
whose own reply carries no error is in the pages of the `createPDF` message. -/
theorem createPDF_failure_isolation (env : PopupEnv) :
    (env.includeCurrent = true → truthy env.captureCurrent.error = true →
        createPDF env
          = (JobOutcome.failed
              ("Failed to capture current page: " ++ env.captureCurrent.error.getD ""),
            [Call.captureFullPage env.currentTab.id])) ∧
      ((env.includeCurrent = true → truthy env.captureCurrent.error = false) →
        ∀ j url, env.selectedLinks[j]? = some url →
          Call.loadPageAndCapture url ∈ (createPDF env).2 ∧
          (truthy (env.loadPage j url).error = false →
            ∃ ps, Call.createPDF ps env.settings ∈ (createPDF env).2 ∧
              (⟨url, url, (env.loadPage j url).captures,
                (env.loadPage j url).dimensions⟩ : Page) ∈ ps)) := by
  refine ⟨createPDF_current_failed env, ?_⟩
  intro hcur j url hj
  obtain ⟨extra, h1, h2, h3⟩ := createPDF_calls env hcur
  constructor
  · rw [h1]
    apply List.mem_append_left
    simp only [captureRequests]
    apply List.mem_append_right
    exact List.mem_map.2 ⟨url, List.getElem?_mem hj, rfl⟩
  · intro hok
    have hmem := mem_capturedLinks env env.selectedLinks 0 j url hj (by simpa using hok)
    simp only [Nat.zero_add] at hmem
    have hin : (⟨url, url, (env.loadPage j url).captures,
        (env.loadPage j url).dimensions⟩ : Page) ∈ capturedTargets env := by
      simp only [capturedTargets]
      exact List.mem_append_right _ hmem
    have hne : capturedTargets env ≠ [] := List.ne_nil_of_mem hin
    obtain ⟨more, hm, _⟩ := h3 hne
    refine ⟨capturedTargets env, ?_, hin⟩
    rw [h1, hm]
    exact List.mem_append_right _ (List.mem_cons_self _ _)

/-- In `firstLinkFails` the second link is requested and its page is handed on. -/
theorem createPDF_failure_isolation_witness :
    Call.loadPageAndCapture "https://b.example/" ∈ (createPDF firstLinkFails).2 ∧
      (truthy (firstLinkFails.loadPage 1 "https://b.example/").error = false →
        ∃ ps, Call.createPDF ps firstLinkFails.settings ∈ (createPDF firstLinkFails).2 ∧
          (⟨"https://b.example/", "https://b.example/",
            (firstLinkFails.loadPage 1 "https://b.example/").captures,
            (firstLinkFails.loadPage 1 "https://b.example/").dimensions⟩ : Page) ∈ ps) :=
  (createPDF_failure_isolation firstLinkFails).2 (fun h => by simp [firstLinkFails] at h)
    1 "https://b.example/" rfl

/-- C9 fails on the code: in `onlyCurrentFails` no target is captured, and the
job fails with the error of the current page, not with the error No pages were
captured successfully. -/
theorem createPDF_nothing_captured_other_error :
    onlyCurrentFails.selectedLinks = [] ∧
      truthy onlyCurrentFails.captureCurrent.error = true ∧
      createPDF onlyCurrentFails
        = (JobOutcome.failed
            "Failed to capture current page: Cannot access contents of the page",
          [Call.captureFullPage 1]) ∧
      (createPDF onlyCurrentFails).1
        ≠ JobOutcome.failed "No pages were captured successfully" := by
  decide

/-- C9, amended: when no target is captured, the `createPDF` message is never
sent, and the job ends with the error Failed to capture current page when the
current page is included (its failure ends the job before any link), with the
error No pages were captured successfully when only links were selected, and
with the selection alert when nothing was selected; a `createPDF` message is
sent only with a non-empty page list. -/
theorem createPDF_nothing_captured (env : PopupEnv) :
    (env.includeCurrent = true → truthy env.captureCurrent.error = true →
        createPDF env
          = (JobOutcome.failed
              ("Failed to capture current page: " ++ env.captureCurrent.error.getD ""),
            [Call.captureFullPage env.currentTab.id])) ∧
      (env.includeCurrent = false → env.selectedLinks ≠ [] →
        capturedLinks env env.selectedLinks 0 = [] →
        createPDF env
          = (JobOutcome.failed "No pages were captured successfully",
            env.selectedLinks.map Call.loadPageAndCapture)) ∧
      (env.includeCurrent = false → env.selectedLinks = [] →
        createPDF env
          = (JobOutcome.alerted "Please select at least one page to include in the PDF",
            [])) ∧
      ((env.includeCurrent = true ∧ truthy env.captureCurrent.error = true) ∨
          (env.includeCurrent = false ∧ capturedLinks env env.selectedLinks 0 = []) →
        ∀ ps st, Call.createPDF ps st ∉ (createPDF env).2) ∧
      (∀ ps st, Call.createPDF ps st ∈ (createPDF env).2 → ps ≠ []) := by
  have hlinks : env.includeCurrent = false → env.selectedLinks ≠ [] →
      capturedLinks env env.selectedLinks 0 = [] →
      createPDF env
        = (JobOutcome.failed "No pages were captured successfully",
          env.selectedLinks.map Call.loadPageAndCapture) := by
    intro hinc hsel hnone
    have hlen : ¬ env.selectedLinks.length = 0 := by
      intro h; exact hsel (List.length_eq_zero.1 h)
    simp [createPDF, hinc, hlen, captureLinks_eq, hnone, finishJob]
  have halert : env.includeCurrent = false → env.selectedLinks = [] →
      createPDF env
        = (JobOutcome.alerted "Please select at least one page to include in the PDF",
          []) := by
    intro hinc hsel
    simp [createPDF, hinc, hsel]
  refine ⟨createPDF_current_failed env, hlinks, halert, ?_, ?_⟩
  · rintro (⟨hinc, herr⟩ | ⟨hinc, hnone⟩) ps st hmem
    · rw [createPDF_current_failed env hinc herr] at hmem
      simp at hmem
    · obtain ⟨h1, _, h3⟩ := createPDF_request env ps st hmem
      apply h3
      rw [h1]
      simp [capturedTargets, hinc, hnone]
  · intro ps st hmem
    exact (createPDF_request env ps st hmem).2.2

/-- In `onlyCurrentFails` the job ends with the error of the current page. -/
theorem createPDF_nothing_captured_witness :
    createPDF onlyCurrentFails
      = (JobOutcome.failed
          "Failed to capture current page: Cannot access contents of the page",
        [Call.captureFullPage 1]) :=
  (createPDF_nothing_captured onlyCurrentFails).1 rfl (by decide)

end Popup

namespace Offscreen

/-! ## The page assembler -/

/-- Drawing keeps the number of pages of a document that has a page. -/
theorem draw_pages_length (pdf : Pdf) (op : DrawOp) (h : 0 < pdf.pages.length) :
    (pdf.draw op).pages.length = pdf.pages.length := by
  simp only [Pdf.draw, List.length_append, List.length_dropLast, List.length_singleton]
  omega

/-- Everything on a page after a drawing was drawn now or was there before. -/
theorem mem_draw (pdf : Pdf) (op o : DrawOp) (pg : List DrawOp)
    (hpg : pg ∈ (pdf.draw op).pages) (ho : o ∈ pg) :
    o = op ∨ ∃ pg0, pg0 ∈ pdf.pages ∧ o ∈ pg0 := by
  simp only [Pdf.draw, List.mem_append, List.mem_singleton] at hpg
  rcases hpg with h | h
  · exact Or.inr ⟨pg, List.mem_of_mem_dropLast h, ho⟩
  · subst h
    rcases List.mem_append.1 ho with h1 | h1
    · cases hl : pdf.pages.getLast? with
      | none => simp [hl] at h1
      | some l =>
        simp only [hl, Option.getD_some] at h1
        exact Or.inr ⟨l, List.mem_of_mem_getLast? hl, h1⟩
    · exact Or.inl (by simpa using h1)

/-- One tile uses one more page of the document. -/
theorem processCapture_used (loadImage : Option String → Option Image) (w h : ℚ)
    (url : String) (st : Pdf × Bool) (k : Nat) (c : Tile) (hst : UsedPages st k) :
    UsedPages (processCapture loadImage w h url st c) (k + 1) := by
  right
  have hflag : (processCapture loadImage w h url st c).2 = false := by
    unfold processCapture
    cases loadImage c.dataUrl <;> rfl
  refine ⟨hflag, ?_, by omega⟩
  rcases hst with ⟨hf, hl, hk⟩ | ⟨hf, hl, hk⟩
  · subst hk
    cases hi : loadImage c.dataUrl with
    | some img =>
      simp only [processCapture, hf, hi]
      rw [draw_pages_length _ _ (by simp [hl])]
      simpa using hl
    | none =>
      simp only [processCapture, hf, hi]
      rw [draw_pages_length _ _ (by simp [Pdf.setFontSize, hl])]
      simpa [Pdf.setFontSize] using hl
  · cases hi : loadImage c.dataUrl with
    | some img =>
      simp only [processCapture, hf, hi]
      rw [draw_pages_length _ _ (by simp [Pdf.addPage])]
      simp [Pdf.addPage, hl]
    | none =>
      simp only [processCapture, hf, hi]
      rw [draw_pages_length _ _ (by simp [Pdf.setFontSize, Pdf.addPage])]
      simp [Pdf.setFontSize, Pdf.addPage, hl]

/-- The tiles of one page use one page of the document each. -/
theorem foldl_processCapture_used (loadImage : Option String → Option Image) (w h : ℚ)
    (url : String) :
    ∀ (captures : List Tile) (st : Pdf × Bool) (k : Nat), UsedPages st k →
      UsedPages (captures.foldl (processCapture loadImage w h url) st)
        (k + captures.length) := by
  intro captures
  induction captures with
  | nil => intro st k hst; simpa using hst
  | cons c rest ih =>
    intro st k hst
    have := ih _ (k + 1) (processCapture_used loadImage w h url st k c hst)
    simp only [List.foldl_cons, List.length_cons]
    have e : k + (rest.length + 1) = k + 1 + rest.length := by omega
    rw [e]
    exact this

/-- When every page has its `captures`, the outer loop of `generatePDF` ends
normally and has used one page of the document for each tile. -/
theorem foldl_processPage_used (loadImage : Option String → Option Image) (w h : ℚ) :
    ∀ (pages : List Page) (st : Pdf × Bool) (k : Nat),
      (∀ p, p ∈ pages → p.captures ≠ none) → UsedPages st k →
      ∃ st1, pages.foldl (processPage loadImage w h) (some st) = some st1 ∧
        UsedPages st1 (k + (pages.map tileCount).sum) := by
  intro pages
  induction pages with
  | nil => intro st k _ hst; exact ⟨st, rfl, by simpa using hst⟩
  | cons p rest ih =>
    intro st k hall hst
    cases hc : p.captures with
    | none => exact absurd hc (hall p (List.mem_cons_self _ _))
    | some captures =>
      obtain ⟨st1, h1, h2⟩ := ih
        (captures.foldl (processCapture loadImage w h p.url) st) (k + captures.length)
        (fun q hq => hall q (List.mem_cons_of_mem _ hq))
        (foldl_processCapture_used loadImage w h p.url captures st k hst)
      refine ⟨st1, ?_, ?_⟩
      · simp only [List.foldl_cons, processPage, hc]
        exact h1
      · simp only [List.map_cons, List.sum_cons, tileCount, hc]
        have e : k + (captures.length + (rest.map tileCount).sum)
            = k + captures.length + (rest.map tileCount).sum := by omega
        rw [e]
        exact h2

/-- The number of pages of the document of `generatePDF`. -/
theorem generatePDF_pages (loadImage : Option String → Option Image) (pages : List Page)
    (settings : Settings) (hall : ∀ p, p ∈ pages → p.captures ≠ none) :
    ∃ pdf, generatePDF loadImage pages settings = some pdf ∧
      pdf.numberOfPages = max 1 (pages.map tileCount).sum := by
  obtain ⟨st1, h1, h2⟩ := foldl_processPage_used loadImage (pageDims settings).1
    (pageDims settings).2 pages (jsPDF, true) 0 hall (Or.inl ⟨rfl, rfl, rfl⟩)
  refine ⟨st1.1, by simp [generatePDF, h1], ?_⟩
  simp only [Pdf.numberOfPages, Nat.zero_add] at h2 ⊢
  rcases h2 with ⟨_, hl, hk⟩ | ⟨_, hl, hk⟩
  · rw [hl, hk]; rfl
  · rw [hl]; omega

/-- C10 fails on the code when there is no tile: for an empty sequence of
pages, and for the one captured page `noTilePage` without tiles, the document is
the initial one, which has 1 page, while the sum of the tile counts is 0. -/
theorem generatePDF_no_tile_one_page :
    generatePDF decodeAll [] ⟨PageSize.a4, Orientation.portrait⟩ = some jsPDF ∧
      generatePDF decodeAll [noTilePage] ⟨PageSize.a4, Orientation.portrait⟩ = some jsPDF ∧
      jsPDF.numberOfPages = 1 ∧
      (([] : List Page).map tileCount).sum = 0 ∧
      ([noTilePage].map tileCount).sum = 0 :=
  ⟨rfl, rfl, rfl, rfl, rfl⟩

/-- C10, amended: for every ordered sequence of captured pages (pages with
their `captures`) `generatePDF` produces the document, and its number of pages
is the sum of the tile counts of the pages when there is at least one tile (one
document page per tile, the first tile on the initial page), and 1, the initial
page, when there is none. -/
theorem generatePDF_numberOfPages (loadImage : Option String → Option Image)
    (pages : List Page) (settings : Settings)
    (hall : ∀ p, p ∈ pages → p.captures ≠ none) :
    ∃ pdf, generatePDF loadImage pages settings = some pdf ∧
      pdf.numberOfPages = max 1 (pages.map tileCount).sum ∧
      (0 < (pages.map tileCount).sum → pdf.numberOfPages = (pages.map tileCount).sum) ∧
      ((pages.map tileCount).sum = 0 → pdf.numberOfPages = 1) := by
  obtain ⟨pdf, h1, h2⟩ := generatePDF_pages loadImage pages settings hall
  refine ⟨pdf, h1, h2, ?_, ?_⟩
  · intro h; rw [h2]; omega
  · intro h; rw [h2, h]; rfl

/-- One captured page of 2 tiles gives a document of exactly 2 pages. -/
theorem generatePDF_numberOfPages_witness :
    ∃ pdf, generatePDF decodeAll [twoTilePage] ⟨PageSize.a4, Orientation.portrait⟩ = some pdf ∧
      pdf.numberOfPages = 2 := by
  obtain ⟨pdf, h1, _, h3, _⟩ := generatePDF_numberOfPages decodeAll [twoTilePage]
    ⟨PageSize.a4, Orientation.portrait⟩
    (fun p hp => by
      have hp1 : p = twoTilePage := by simpa using hp
      subst hp1
      simp [twoTilePage])
  exact ⟨pdf, h1, h3 (by decide)⟩

/-! ## The notes of the page assembler -/

/-- One tile of the page with address `url` keeps the notes within `urls`. -/
theorem processCapture_notes (loadImage : Option String → Option Image) (w h : ℚ)
    (urls : List String) (url : String) (hurl : url ∈ urls) (st : Pdf × Bool) (c : Tile)
    (hst : NotesFrom urls st.1) :
    NotesFrom urls (processCapture loadImage w h url st c).1 := by
  have hadd : NotesFrom urls (if (!st.2) = true then st.1.addPage else st.1) := by
    split
    · intro pg hpg s x y hs
      simp only [Pdf.addPage, List.mem_append, List.mem_singleton] at hpg
      rcases hpg with hpg | hpg
      · exact hst pg hpg s x y hs
      · subst hpg; simp at hs
    · exact hst
  intro pg hpg s x y hs
  cases hi : loadImage c.dataUrl with
  | some img =>
    simp only [processCapture, hi] at hpg
    rcases mem_draw _ _ _ _ hpg hs with h1 | ⟨pg0, hpg0, h1⟩
    · cases h1
    · exact hadd pg0 hpg0 s x y h1
  | none =>
    simp only [processCapture, hi] at hpg
    rcases mem_draw _ _ _ _ hpg hs with h1 | ⟨pg0, hpg0, h1⟩
    · simp only [DrawOp.text.injEq] at h1
      exact ⟨url, hurl, h1.1⟩
    · exact hadd pg0 (by simpa [Pdf.setFontSize] using hpg0) s x y h1

/-- The tiles of one page keep the notes within `urls`. -/
theorem foldl_processCapture_notes (loadImage : Option String → Option Image) (w h : ℚ)
    (urls : List String) (url : String) (hurl : url ∈ urls) :
    ∀ (captures : List Tile) (st : Pdf × Bool), NotesFrom urls st.1 →
      NotesFrom urls (captures.foldl (processCapture loadImage w h url) st).1 := by
  intro captures
  induction captures with
  | nil => intro st hst; simpa using hst
  | cons c rest ih =>
    intro st hst
    simp only [List.foldl_cons]
    exact ih _ (processCapture_notes loadImage w h urls url hurl st c hst)

/-- Once `generatePDF` has thrown, the outer loop does nothing more. -/
theorem foldl_processPage_none (loadImage : Option String → Option Image) (w h : ℚ) :
    ∀ (pages : List Page), pages.foldl (processPage loadImage w h) none = none := by
  intro pages
  induction pages with
  | nil => rfl
  | cons p rest ih => simpa [processPage] using ih

/-- The pages keep the notes within the addresses of the pages. -/
theorem foldl_processPage_notes (loadImage : Option String → Option Image) (w h : ℚ)
    (urls : List String) :
    ∀ (pages : List Page) (st st1 : Pdf × Bool), (∀ p, p ∈ pages → p.url ∈ urls) →
      NotesFrom urls st.1 →
      pages.foldl (processPage loadImage w h) (some st) = some st1 →
      NotesFrom urls st1.1 := by
  intro pages
  induction pages with
  | nil =>
    intro st st1 _ hst hf
    simp only [List.foldl_nil, Option.some.injEq] at hf
    subst hf
    exact hst
  | cons p rest ih =>
    intro st st1 hurls hst hf
    cases hc : p.captures with
    | none =>
      simp only [List.foldl_cons, processPage, hc, foldl_processPage_none] at hf
      cases hf
    | some captures =>
      simp only [List.foldl_cons, processPage, hc] at hf
      exact ih _ st1 (fun q hq => hurls q (List.mem_cons_of_mem _ hq))
        (foldl_processCapture_notes loadImage w h urls p.url
          (hurls p (List.mem_cons_self _ _)) captures st hst) hf

/-- Every text in the document of `generatePDF` is the note Failed to capture
followed by the address of one of the pages handed in. -/
theorem generatePDF_notes (loadImage : Option String → Option Image) (pages : List Page)
    (settings : Settings) (pdf : Pdf) (h : generatePDF loadImage pages settings = some pdf) :
    NotesFrom (pages.map Page.url) pdf := by
  simp only [generatePDF, Option.map_eq_some'] at h
  obtain ⟨st1, h1, h2⟩ := h
  subst h2
  refine foldl_processPage_notes loadImage _ _ (pages.map Page.url) pages (jsPDF, true) st1
    (fun p hp => List.mem_map.2 ⟨p, hp, rfl⟩) ?_ h1
  intro pg hpg s x y hs
  simp only [jsPDF, List.mem_singleton] at hpg
  subst hpg
  simp at hs

end Offscreen

/-! ## Failed pages and the document -/

open Popup Offscreen

/-- C8 fails on the code: in `firstLinkFails` the first link fails to capture
and the second one is captured; the job is saved, but the pages handed to PDF
generation hold the second link only, and the document that `generatePDF` makes
of them has a single page with the image of that link and no note for the
failed one. -/
theorem createPDF_failed_page_has_no_note :
    truthy (firstLinkFails.loadPage 0 "https://a.example/").error = true ∧
      createPDF firstLinkFails
        = (JobOutcome.saved,
          [Call.loadPageAndCapture "https://a.example/",
            Call.loadPageAndCapture "https://b.example/",
            Call.createPDF
              [⟨"https://b.example/", "https://b.example/",
                some [⟨some "data:image/png;base64,AAAA", 0, 600⟩],
                some ⟨600, 600, 800, 800⟩⟩]
              ⟨PageSize.a4, Orientation.portrait⟩,
            Call.download "data:application/pdf;base64,JVBERi0=" "Home.pdf"]) ∧
      generatePDF decodeAll
          [⟨"https://b.example/", "https://b.example/",
            some [⟨some "data:image/png;base64,AAAA", 0, 600⟩],
            some ⟨600, 600, 800, 800⟩⟩]
          ⟨PageSize.a4, Orientation.portrait⟩
        = some ⟨[[DrawOp.image (some "data:image/png;base64,AAAA") 0 (279 / 4) 210
            (315 / 2)]], 16⟩ := by
  refine ⟨by decide, by decide, ?_⟩
  simp [generatePDF, processPage, processCapture, decodeAll, pageDims, pageSizes, fitSize,
    jsPDF, Pdf.draw]
  norm_num

/-- Every page among the captured links is the page of a selected link whose
reply carries no error. -/
theorem capturedLinks_origin (env : PopupEnv) :
    ∀ (links : List String) (i : Nat) (p : Page), p ∈ capturedLinks env links i →
      ∃ j url, links[j]? = some url ∧ truthy (env.loadPage (i + j) url).error = false ∧
        p = ⟨url, url, (env.loadPage (i + j) url).captures,
          (env.loadPage (i + j) url).dimensions⟩ := by
  intro links
  induction links with
  | nil => intro i p h; simp [capturedLinks] at h
  | cons u rest ih =>
    intro i p h
    have hrest : p ∈ capturedLinks env rest (i + 1) →
        ∃ j url, (u :: rest)[j]? = some url ∧
          truthy (env.loadPage (i + j) url).error = false ∧
          p = ⟨url, url, (env.loadPage (i + j) url).captures,
            (env.loadPage (i + j) url).dimensions⟩ := by
      intro hm
      obtain ⟨j, url, h1, h2, h3⟩ := ih (i + 1) p hm
      have e : i + 1 + j = i + (j + 1) := by omega
      rw [e] at h2 h3
      exact ⟨j + 1, url, by simpa using h1, h2, h3⟩
    by_cases ht : truthy (env.loadPage i u).error = true
    · simp only [capturedLinks, ht, if_true] at h
      exact hrest h
    · simp only [capturedLinks, ht, Bool.false_eq_true, if_false, List.mem_cons] at h
      rcases h with h | h
      · exact ⟨0, u, by simp, by simpa using ht, by simpa using h⟩
      · exact hrest h

/-- C8, amended: in a batch whose current page, if included, is captured and
in which at least one target is captured, PDF generation is requested with the
captured targets only; a target that failed to capture is left out of the
document: `generatePDF` makes of the captured targets a document with one page
per tile of these targets, and every note Failed to capture in it carries the
address of a captured target (one of whose tiles could not be decoded). -/
theorem createPDF_failed_pages_left_out (env : PopupEnv)
    (loadImage : Option String → Option Image)
    (hcur : env.includeCurrent = true → truthy env.captureCurrent.error = false)
    (hsome : capturedTargets env ≠ [])
    (hcaps : ∀ p, p ∈ capturedTargets env → p.captures ≠ none) :
    Call.createPDF (capturedTargets env) env.settings ∈ (createPDF env).2 ∧
      (∀ p, p ∈ capturedTargets env →
        (env.includeCurrent = true ∧ p = currentPage env) ∨
          ∃ j url, env.selectedLinks[j]? = some url ∧
            truthy (env.loadPage j url).error = false ∧
            p = ⟨url, url, (env.loadPage j url).captures,
              (env.loadPage j url).dimensions⟩) ∧
      ∃ pdf, generatePDF loadImage (capturedTargets env) env.settings = some pdf ∧
        pdf.numberOfPages = max 1 ((capturedTargets env).map tileCount).sum ∧
        ∀ pg, pg ∈ pdf.pages → ∀ s x y, DrawOp.text s x y ∈ pg →
          ∃ p, p ∈ capturedTargets env ∧ s = "Failed to capture: " ++ p.url := by
  refine ⟨?_, ?_, ?_⟩
  · obtain ⟨extra, h1, _, h3⟩ := createPDF_calls env hcur
    obtain ⟨more, hm, _⟩ := h3 hsome
    rw [h1, hm]
    exact List.mem_append_right _ (List.mem_cons_self _ _)
  · intro p hp
    simp only [capturedTargets, List.mem_append] at hp
    rcases hp with hp | hp
    · left
      by_cases hinc : env.includeCurrent = true
      · simp only [hinc, if_true, List.mem_singleton] at hp
        exact ⟨hinc, hp⟩
      · simp [hinc] at hp
    · right
      obtain ⟨j, url, h1, h2, h3⟩ := capturedLinks_origin env env.selectedLinks 0 p hp
      simp only [Nat.zero_add] at h2 h3
      exact ⟨j, url, h1, h2, h3⟩
  · obtain ⟨pdf, h1, h2⟩ := generatePDF_pages loadImage (capturedTargets env) env.settings hcaps
    refine ⟨pdf, h1, h2, ?_⟩
    intro pg hpg s x y hs
    obtain ⟨u, hu, hsu⟩ := generatePDF_notes loadImage _ _ pdf h1 pg hpg s x y hs
    obtain ⟨p, hp, hpu⟩ := List.mem_map.1 hu
    exact ⟨p, hp, by rw [hpu]; exact hsu⟩

/-- In `firstLinkFails` PDF generation is requested with the captured link. -/
theorem createPDF_failed_pages_left_out_witness :
    Call.createPDF (capturedTargets firstLinkFails) firstLinkFails.settings
      ∈ (createPDF firstLinkFails).2 :=
  (createPDF_failed_pages_left_out firstLinkFails decodeAll
    (fun h => by simp [firstLinkFails] at h) (by decide) (by decide)).1

namespace Offscreen

/-! ## Fitting and centring the image -/

/-- C11: for an image of positive pixel width w and height h and a page of
width W and positive height H, in exact rational arithmetic, the size computed
by `generatePDF` fits the page, keeps the aspect ratio of the image, and fills
one dimension: the width when w / h > W / H, the height otherwise. -/
theorem fitSize_fits (img : Image) (W H : ℚ)
    (hw : 0 < img.width) (hh : 0 < img.height) (hH : 0 < H) :
    (fitSize img W H).1 ≤ W ∧ (fitSize img W H).2 ≤ H ∧
      (fitSize img W H).1 * (img.height : ℚ) = (fitSize img W H).2 * (img.width : ℚ) ∧
      ((img.width : ℚ) / (img.height : ℚ) > W / H → (fitSize img W H).1 = W) ∧
      (¬ (img.width : ℚ) / (img.height : ℚ) > W / H → (fitSize img W H).2 = H) := by
  have hwq : (0 : ℚ) < (img.width : ℚ) := by exact_mod_cast hw
  have hhq : (0 : ℚ) < (img.height : ℚ) := by exact_mod_cast hh
  have hr : (0 : ℚ) < (img.width : ℚ) / (img.height : ℚ) := div_pos hwq hhq
  by_cases hc : (img.width : ℚ) / (img.height : ℚ) > W / H
  · have hfit : fitSize img W H = (W, W / ((img.width : ℚ) / (img.height : ℚ))) := by
      simp [fitSize, hc]
    rw [hfit]
    refine ⟨le_refl W, ?_, ?_, fun _ => rfl, fun h => absurd hc h⟩
    · rw [div_le_iff₀ hr]
      have h1 : W / H * H = W := div_mul_cancel₀ W (ne_of_gt hH)
      have h2 : W / H * H < (img.width : ℚ) / (img.height : ℚ) * H :=
        mul_lt_mul_of_pos_right hc hH
      linarith [mul_comm H ((img.width : ℚ) / (img.height : ℚ))]
    · simp only
      field_simp
  · have hfit : fitSize img W H = (H * ((img.width : ℚ) / (img.height : ℚ)), H) := by
      simp [fitSize, hc]
    rw [hfit]
    refine ⟨?_, le_refl H, ?_, fun h => absurd h hc, fun _ => rfl⟩
    · have hle : (img.width : ℚ) / (img.height : ℚ) ≤ W / H := not_lt.1 hc
      have h1 : H * (W / H) = W := mul_div_cancel₀ W (ne_of_gt hH)
      have h2 : H * ((img.width : ℚ) / (img.height : ℚ)) ≤ H * (W / H) :=
        mul_le_mul_of_nonneg_left hle (le_of_lt hH)
      simp only
      linarith
    · simp only
      field_simp

/-- An image of 800 by 600 pixels on A4 portrait is 210 wide and 157.5 high. -/
theorem fitSize_fits_witness :
    (fitSize ⟨800, 600⟩ 210 297).1 ≤ 210 ∧ (fitSize ⟨800, 600⟩ 210 297).2 ≤ 297 :=
  ⟨(fitSize_fits ⟨800, 600⟩ 210 297 (by decide) (by decide) (by norm_num)).1,
    (fitSize_fits ⟨800, 600⟩ 210 297 (by decide) (by decide) (by norm_num)).2.1⟩

/-- The two cases of `fitSize`: the full width with a height within the page,
or the full height with a width within the page. -/
theorem fitSize_cases (img : Image) (W H : ℚ)
    (hw : 0 < img.width) (hh : 0 < img.height) (hH : 0 < H) :
    ((fitSize img W H).1 = W ∧ (fitSize img W H).2 ≤ H) ∨
      ((fitSize img W H).2 = H ∧ (fitSize img W H).1 ≤ W) := by
  have hwq : (0 : ℚ) < (img.width : ℚ) := by exact_mod_cast hw
  have hhq : (0 : ℚ) < (img.height : ℚ) := by exact_mod_cast hh
  have hr : (0 : ℚ) < (img.width : ℚ) / (img.height : ℚ) := div_pos hwq hhq
  by_cases hc : (img.width : ℚ) / (img.height : ℚ) > W / H
  · left
    have hfit : fitSize img W H = (W, W / ((img.width : ℚ) / (img.height : ℚ))) := by
      simp [fitSize, hc]
    rw [hfit]
    refine ⟨rfl, ?_⟩
    rw [div_le_iff₀ hr]
    have h1 : W / H * H = W := div_mul_cancel₀ W (ne_of_gt hH)
    have h2 : W / H * H < (img.width : ℚ) / (img.height : ℚ) * H :=
      mul_lt_mul_of_pos_right hc hH
    linarith [mul_comm H ((img.width : ℚ) / (img.height : ℚ))]
  · right
    have hfit : fitSize img W H = (H * ((img.width : ℚ) / (img.height : ℚ)), H) := by
      simp [fitSize, hc]
    rw [hfit]
    refine ⟨rfl, ?_⟩
    have hle : (img.width : ℚ) / (img.height : ℚ) ≤ W / H := not_lt.1 hc
    have h1 : H * (W / H) = W := mul_div_cancel₀ W (ne_of_gt hH)
    have h2 : H * ((img.width : ℚ) / (img.height : ℚ)) ≤ H * (W / H) :=
      mul_le_mul_of_nonneg_left hle (le_of_lt hH)
    simp only
    linarith

/-- What `processCapture` draws for a tile whose image decodes. -/
theorem processCapture_image (loadImage : Option String → Option Image) (W H : ℚ)
    (url : String) (st : Pdf × Bool) (c : Tile) (img : Image)
    (hload : loadImage c.dataUrl = some img) :
    (processCapture loadImage W H url st c).1
      = (if (!st.2) = true then st.1.addPage else st.1).draw
          (DrawOp.image c.dataUrl ((W - (fitSize img W H).1) / 2)
            ((H - (fitSize img W H).2) / 2) (fitSize img W H).1 (fitSize img W H).2) := by
  simp only [processCapture, hload]

/-- C12: for a tile whose image decodes to positive pixel size, `generatePDF`
draws the image at x = (W - imgWidth) / 2 and y = (H - imgHeight) / 2, so that
the left and right margins are equal and the top and bottom margins are equal;
both offsets are non-negative and the offset along the filled dimension is 0.
On A4 portrait, which is 210 by 297, an image wider than tall is drawn at x = 0
with width 210 and a height of at most 297, vertically centred. -/
theorem processCapture_centred (loadImage : Option String → Option Image) (W H : ℚ)
    (url : String) (st : Pdf × Bool) (c : Tile) (img : Image)
    (hload : loadImage c.dataUrl = some img)
    (hw : 0 < img.width) (hh : 0 < img.height) (hW : 0 < W) (hH : 0 < H) :
    ∃ x y iw ih,
      (processCapture loadImage W H url st c).1
        = (if (!st.2) = true then st.1.addPage else st.1).draw
            (DrawOp.image c.dataUrl x y iw ih) ∧
      (iw, ih) = fitSize img W H ∧
      x = (W - iw) / 2 ∧ y = (H - ih) / 2 ∧
      W - (x + iw) = x ∧ H - (y + ih) = y ∧
      0 ≤ x ∧ 0 ≤ y ∧
      (iw = W → x = 0) ∧ (ih = H → y = 0) ∧ (x = 0 ∨ y = 0) ∧
      pageDims ⟨PageSize.a4, Orientation.portrait⟩ = (210, 297) ∧
      (W = 210 → H = 297 → img.height < img.width →
        x = 0 ∧ iw = 210 ∧ ih ≤ 297 ∧ y = (297 - ih) / 2 ∧ 297 - (y + ih) = y) := by
  obtain ⟨h1, h2, _, h4, _⟩ := fitSize_fits img W H hw hh hH
  refine ⟨(W - (fitSize img W H).1) / 2, (H - (fitSize img W H).2) / 2,
    (fitSize img W H).1, (fitSize img W H).2,
    processCapture_image loadImage W H url st c img hload, rfl, rfl, rfl, by ring, by ring,
    by linarith, by linarith, ?_, ?_, ?_, ?_, ?_⟩
  · intro h; rw [h]; simp
  · intro h; rw [h]; simp
  · rcases fitSize_cases img W H hw hh hH with ⟨h, _⟩ | ⟨h, _⟩
    · left; rw [h]; simp
    · right; rw [h]; simp
  · simp [pageDims, pageSizes]
  · intro hW1 hH1 hwide
    subst hW1 hH1
    have hwq : (0 : ℚ) < (img.width : ℚ) := by exact_mod_cast hw
    have hhq : (0 : ℚ) < (img.height : ℚ) := by exact_mod_cast hh
    have hlt : (img.height : ℚ) < (img.width : ℚ) := by exact_mod_cast hwide
    have hasp : (img.width : ℚ) / (img.height : ℚ) > 210 / 297 := by
      have h1' : (1 : ℚ) < (img.width : ℚ) / (img.height : ℚ) := by
        rw [lt_div_iff₀ hhq]; linarith
      have h2' : (210 : ℚ) / 297 < 1 := by norm_num
      linarith
    have hiw := h4 hasp
    refine ⟨by rw [hiw]; simp, hiw, h2, rfl, by ring⟩

/-- An image of 800 by 600 pixels is drawn on A4 portrait at x = 0. -/
theorem processCapture_centred_witness :
    ∃ x y iw ih,
      (processCapture decodeAll 210 297 "https://example.org/" (jsPDF, true)
          ⟨some "data:image/png;base64,AAAA", 0, 600⟩).1
        = jsPDF.draw (DrawOp.image (some "data:image/png;base64,AAAA") x y iw ih) ∧
      x = 0 ∧ iw = 210 ∧ ih ≤ 297 ∧ y = (297 - ih) / 2 := by
  obtain ⟨x, y, iw, ih, h1, _, _, _, _, _, _, _, _, _, _, _, h⟩ :=
    processCapture_centred decodeAll 210 297 "https://example.org/" (jsPDF, true)
      ⟨some "data:image/png;base64,AAAA", 0, 600⟩ ⟨800, 600⟩ rfl (by decide) (by decide)
      (by norm_num) (by norm_num)
  obtain ⟨hx, hiw, hih, hy, _⟩ := h rfl rfl (by decide)
  exact ⟨x, y, iw, ih, h1, hx, hiw, hih, hy⟩

/-! ## Tiles that cannot be decoded -/

/-- One tile adds its content as a page of its own. -/
theorem processCapture_assembled (loadImage : Option String → Option Image) (W H : ℚ)
    (url : String) (st : Pdf × Bool) (done : List (List DrawOp)) (c : Tile)
    (hst : Assembled st done) :
    Assembled (processCapture loadImage W H url st c)
      (done ++ [tileContent loadImage W H url c]) := by
  right
  have hflag : (processCapture loadImage W H url st c).2 = false := by
    unfold processCapture
    cases loadImage c.dataUrl <;> rfl
  refine ⟨by simp, hflag, ?_⟩
  rcases hst with ⟨hd, hf, hp⟩ | ⟨_, hf, hp⟩
  · subst hd
    cases hi : loadImage c.dataUrl with
    | some img => simp [processCapture, tileContent, hf, hi, Pdf.draw, hp]
    | none => simp [processCapture, tileContent, hf, hi, Pdf.draw, Pdf.setFontSize, hp]
  · cases hi : loadImage c.dataUrl with
    | some img => simp [processCapture, tileContent, hf, hi, Pdf.draw, Pdf.addPage, hp]
    | none =>
      simp [processCapture, tileContent, hf, hi, Pdf.draw, Pdf.addPage, Pdf.setFontSize, hp]

/-- The tiles of one page add their contents in order. -/
theorem foldl_processCapture_assembled (loadImage : Option String → Option Image) (W H : ℚ)
    (url : String) :
    ∀ (captures : List Tile) (st : Pdf × Bool) (done : List (List DrawOp)),
      Assembled st done →
      Assembled (captures.foldl (processCapture loadImage W H url) st)
        (done ++ captures.map (tileContent loadImage W H url)) := by
  intro captures
  induction captures with
  | nil => intro st done hst; simpa using hst
  | cons c rest ih =>
    intro st done hst
    have := ih _ _ (processCapture_assembled loadImage W H url st done c hst)
    simpa using this

/-- When every page has its `captures`, the outer loop of `generatePDF` ends
normally with the contents of all tiles in order. -/
theorem foldl_processPage_assembled (loadImage : Option String → Option Image) (W H : ℚ) :
    ∀ (pages : List Page) (st : Pdf × Bool) (done : List (List DrawOp)),
      (∀ p, p ∈ pages → p.captures ≠ none) → Assembled st done →
      ∃ st1, pages.foldl (processPage loadImage W H) (some st) = some st1 ∧
        Assembled st1
          (done ++ (allTiles pages).map (fun t => tileContent loadImage W H t.1 t.2)) := by
  intro pages
  induction pages with
  | nil => intro st done _ hst; exact ⟨st, rfl, by simpa [allTiles] using hst⟩
  | cons p rest ih =>
    intro st done hall hst
    cases hc : p.captures with
    | none => exact absurd hc (hall p (List.mem_cons_self _ _))
    | some captures =>
      obtain ⟨st1, h1, h2⟩ := ih
        (captures.foldl (processCapture loadImage W H p.url) st)
        (done ++ captures.map (tileContent loadImage W H p.url))
        (fun q hq => hall q (List.mem_cons_of_mem _ hq))
        (foldl_processCapture_assembled loadImage W H p.url captures st done hst)
      refine ⟨st1, ?_, ?_⟩
      · simp only [List.foldl_cons, processPage, hc]
        exact h1
      · simpa [allTiles, hc, List.map_append, List.map_map, Function.comp_def] using h2

/-- C13: when every page handed to `generatePDF` has its `captures`, the
document is returned whatever tiles fail to decode; its pages are the contents
of the tiles in processing order, one page per tile: the page of a tile whose
image cannot be decoded carries only the text Failed to capture followed by the
address of the page of the tile, at (10, 20), and the page of every other tile
carries only its image. -/
theorem generatePDF_decode_failure (loadImage : Option String → Option Image)
    (pages : List Page) (settings : Settings)
    (hall : ∀ p, p ∈ pages → p.captures ≠ none) :
    ∃ pdf, generatePDF loadImage pages settings = some pdf ∧
      (allTiles pages ≠ [] →
        pdf.pages = (allTiles pages).map (fun t =>
          tileContent loadImage (pageDims settings).1 (pageDims settings).2 t.1 t.2)) ∧
      (∀ (i : Nat) (url : String) (c : Tile), (allTiles pages)[i]? = some (url, c) →
        (loadImage c.dataUrl = none →
          pdf.pages[i]? = some [DrawOp.text ("Failed to capture: " ++ url) 10 20]) ∧
        (∀ img, loadImage c.dataUrl = some img →
          ∃ x y w h, pdf.pages[i]? = some [DrawOp.image c.dataUrl x y w h])) := by
  obtain ⟨st1, h1, h2⟩ := foldl_processPage_assembled loadImage (pageDims settings).1
    (pageDims settings).2 pages (jsPDF, true) [] hall (Or.inl ⟨rfl, rfl, rfl⟩)
  simp only [List.nil_append] at h2
  have hpages : allTiles pages ≠ [] →
      st1.1.pages = (allTiles pages).map (fun t =>
        tileContent loadImage (pageDims settings).1 (pageDims settings).2 t.1 t.2) := by
    intro hne
    rcases h2 with ⟨hd, _, _⟩ | ⟨_, _, hp⟩
    · exact absurd (List.map_eq_nil_iff.1 hd) hne
    · exact hp
  refine ⟨st1.1, by simp [generatePDF, h1], hpages, ?_⟩
  intro i url c hi
  have hne : allTiles pages ≠ [] := by
    intro h; rw [h] at hi; simp at hi
  have hget : st1.1.pages[i]?
      = some (tileContent loadImage (pageDims settings).1 (pageDims settings).2 url c) := by
    rw [hpages hne, List.getElem?_map, hi]
    rfl
  constructor
  · intro hfail
    rw [hget]
    simp [tileContent, hfail]
  · intro img himg
    rw [hget]
    simp only [tileContent, himg]
    exact ⟨_, _, _, _, rfl⟩

/-- The second tile of `twoTilePage` cannot be decoded by `decodeButOne`: the
second page of the document carries the note only. -/
theorem generatePDF_decode_failure_witness :
    ∃ pdf, generatePDF decodeButOne [twoTilePage] ⟨PageSize.a4, Orientation.portrait⟩
        = some pdf ∧
      pdf.pages[1]? = some [DrawOp.text "Failed to capture: https://example.org/" 10 20] := by
  obtain ⟨pdf, h1, _, h3⟩ := generatePDF_decode_failure decodeButOne [twoTilePage]
    ⟨PageSize.a4, Orientation.portrait⟩
    (fun p hp => by
      have hp1 : p = twoTilePage := by simpa using hp
      subst hp1
      simp [twoTilePage])
  exact ⟨pdf, h1, (h3 1 "https://example.org/"
    ⟨some "data:image/png;base64,BBBB", 600, 600⟩ (by decide)).1 (by decide)⟩

end Offscreen

namespace Links

/-! ## Characters -/

/-- The lower-case ASCII letters by their code. -/
theorem isLower_iff (c : Char) : c.isLower = true ↔ 97 ≤ c.toNat ∧ c.toNat ≤ 122 := by
  simp only [Char.isLower, Char.toNat, Bool.and_eq_true, decide_eq_true_eq, ge_iff_le,
    UInt32.le_def, BitVec.le_def, UInt32.toNat]
  rfl

/-- The upper-case ASCII letters by their code. -/
theorem isUpper_iff (c : Char) : c.isUpper = true ↔ 65 ≤ c.toNat ∧ c.toNat ≤ 90 := by
  simp only [Char.isUpper, Char.toNat, Bool.and_eq_true, decide_eq_true_eq, ge_iff_le,
    UInt32.le_def, BitVec.le_def, UInt32.toNat]
  rfl

/-- The ASCII digits by their code. -/
theorem isDigit_iff (c : Char) : c.isDigit = true ↔ 48 ≤ c.toNat ∧ c.toNat ≤ 57 := by
  simp only [Char.isDigit, Char.toNat, Bool.and_eq_true, decide_eq_true_eq, ge_iff_le,
    UInt32.le_def, BitVec.le_def, UInt32.toNat]
  rfl

/-- A character is determined by its code. -/
theorem eq_of_toNat_eq (c d : Char) (h : c.toNat = d.toNat) : c = d := by
  rw [← Char.ofNat_toNat c, ← Char.ofNat_toNat d, h]

/-- The word characters by their code. -/
theorem isWordChar_iff (c : Char) :
    isWordChar c = true ↔
      (65 ≤ c.toNat ∧ c.toNat ≤ 90) ∨ (97 ≤ c.toNat ∧ c.toNat ≤ 122) ∨
        (48 ≤ c.toNat ∧ c.toNat ≤ 57) ∨ c.toNat = 95 := by
  have h95 : (c == '_') = true ↔ c.toNat = 95 := by
    constructor
    · intro h
      have : c = '_' := by simpa using h
      rw [this]; rfl
    · intro h
      have : c = '_' := eq_of_toNat_eq c '_' (by rw [h]; rfl)
      simp [this]
  simp only [isWordChar, Char.isAlphanum, Char.isAlpha, Bool.or_eq_true, isUpper_iff,
    isLower_iff, isDigit_iff, h95]
  tauto

/-- The code of an upper-case letter made from its code. -/
theorem toNat_ofNat_upper (n : Nat) (h1 : 65 ≤ n) (h2 : n ≤ 90) : (Char.ofNat n).toNat = n := by
  interval_cases n <;> rfl

/-- The code of `c.toUpper`. -/
theorem toNat_toUpper (c : Char) :
    c.toUpper.toNat = if 97 ≤ c.toNat ∧ c.toNat ≤ 122 then c.toNat - 32 else c.toNat := by
  unfold Char.toUpper
  by_cases h : 97 ≤ c.toNat ∧ c.toNat ≤ 122
  · simp only [ge_iff_le, h, and_self, if_true]
    exact toNat_ofNat_upper _ (by omega) (by omega)
  · simp only [ge_iff_le, h, if_false]

/-- Upper-casing keeps word characters and the other characters apart. -/
theorem isWordChar_toUpper (c : Char) : isWordChar c.toUpper = isWordChar c := by
  rw [Bool.eq_iff_iff, isWordChar_iff, isWordChar_iff, toNat_toUpper]
  split <;> omega

/-- An upper-cased character is not a lower-case letter. -/
theorem isLower_toUpper (c : Char) : c.toUpper.isLower = false := by
  rw [Bool.eq_false_iff]
  intro h
  rw [isLower_iff, toNat_toUpper] at h
  split at h <;> omega

/-- White space is not made of word characters. -/
theorem isWordChar_of_isWhiteSpace (c : Char) (h : isWhiteSpace c = true) :
    isWordChar c = false := by
  rw [Bool.eq_false_iff]
  intro hw
  rw [isWordChar_iff] at hw
  simp only [isWhiteSpace, List.contains_eq_any_beq, List.any_cons, List.any_nil,
    Bool.or_false, Bool.or_eq_true, beq_iff_eq] at h
  omega

/-! ## Label formatting -/

/-- What `dropWhile` leaves does not start with a dropped character. -/
theorem head_dropWhile (p : Char → Bool) :
    ∀ (l : List Char) (c : Char), (l.dropWhile p).head? = some c → p c = false := by
  intro l
  induction l with
  | nil => intro c h; simp at h
  | cons x xs ih =>
    intro c h
    by_cases hx : p x = true
    · rw [List.dropWhile_cons_of_pos hx] at h
      exact ih c h
    · rw [List.dropWhile_cons_of_neg hx] at h
      simp only [List.head?_cons, Option.some.injEq] at h
      subst h
      simpa using hx

/-- The trimmed characters stand in the middle of the given ones, after white
space only. -/
theorem trimChars_infix (l : List Char) :
    ∃ a b, l = a ++ trimChars l ++ b ∧ ∀ c, c ∈ a → isWhiteSpace c = true := by
  refine ⟨l.takeWhile isWhiteSpace,
    (((l.dropWhile isWhiteSpace).reverse).takeWhile isWhiteSpace).reverse, ?_, ?_⟩
  · have h1 := List.takeWhile_append_dropWhile isWhiteSpace l
    have h2 := List.takeWhile_append_dropWhile isWhiteSpace (l.dropWhile isWhiteSpace).reverse
    have h3 : l.dropWhile isWhiteSpace
        = trimChars l ++ (((l.dropWhile isWhiteSpace).reverse).takeWhile isWhiteSpace).reverse := by
      have := congrArg List.reverse h2
      simp only [List.reverse_append, List.reverse_reverse] at this
      exact this.symm
    rw [List.append_assoc, ← h3, h1]
  · intro c hc
    exact List.mem_takeWhile_imp hc

/-- The trimmed characters do not start with white space. -/
theorem trimChars_head (l : List Char) (c : Char) (h : (trimChars l).head? = some c) :
    isWhiteSpace c = false := by
  obtain ⟨a, b, hl, _⟩ := trimChars_infix l
  have h3 : l.dropWhile isWhiteSpace
      = trimChars l ++ (((l.dropWhile isWhiteSpace).reverse).takeWhile isWhiteSpace).reverse := by
    have h2 := List.takeWhile_append_dropWhile isWhiteSpace (l.dropWhile isWhiteSpace).reverse
    have := congrArg List.reverse h2
    simp only [List.reverse_append, List.reverse_reverse] at this
    exact this.symm
  apply head_dropWhile isWhiteSpace l c
  rw [h3]
  cases ht : trimChars l with
  | nil => rw [ht] at h; simp at h
  | cons x xs =>
    rw [ht] at h
    simpa using h

/-- The trimmed characters do not end with white space. -/
theorem trimChars_getLast (l : List Char) (c : Char) (h : (trimChars l).getLast? = some c) :
    isWhiteSpace c = false := by
  unfold trimChars at h
  rw [List.getLast?_reverse] at h
  exact head_dropWhile isWhiteSpace _ c h

/-- In the capitalised characters a word character at the start of a word is
not a lower-case letter. -/
theorem capitalize_word_start :
    ∀ (l : List Char) (prev : Bool) (pre : List Char) (c : Char) (post : List Char),
      capitalize prev l = pre ++ c :: post → isWordChar c = true →
      (pre = [] → prev = false) →
      (∀ q, pre.getLast? = some q → isWordChar q = false) → c.isLower = false := by
  intro l
  induction l with
  | nil =>
    intro prev pre c post h
    simp [capitalize] at h
  | cons x xs ih =>
    intro prev pre c post h hc hprev hlast
    cases pre with
    | nil =>
      have hp := hprev rfl
      simp only [capitalize, hp, Bool.not_false, Bool.and_true, List.nil_append,
        List.cons.injEq] at h
      obtain ⟨h1, _⟩ := h
      by_cases hx : isWordChar x = true
      · rw [if_pos hx] at h1
        rw [← h1]
        exact isLower_toUpper x
      · rw [if_neg hx] at h1
        rw [h1] at hx
        exact absurd hc hx
    | cons q pre1 =>
      simp only [capitalize, List.cons_append, List.cons.injEq] at h
      obtain ⟨hq, hrest⟩ := h
      have hqx : isWordChar q = isWordChar x := by
        rw [← hq]
        split
        · exact isWordChar_toUpper x
        · rfl
      refine ih (isWordChar x) pre1 c post hrest hc ?_ ?_
      · intro hpre1
        subst hpre1
        rw [← hqx]
        exact hlast q rfl
      · intro r hr
        apply hlast r
        cases pre1 with
        | nil => simp at hr
        | cons y ys => simpa using hr

/-- The separators are gone after the first replacement and do not come back. -/
theorem formatChars_no_separator (cs : List Char) (c : Char) (h : c ∈ formatChars cs) :
    c ≠ '-' ∧ c ≠ '_' := by
  have hrep : ∀ d, d ∈ replaceSeparators cs → d ≠ '-' ∧ d ≠ '_' := by
    intro d hd
    simp only [replaceSeparators, List.mem_map] at hd
    obtain ⟨x, _, hx⟩ := hd
    by_cases hsep : (x == '-' || x == '_') = true
    · rw [if_pos hsep] at hx
      rw [← hx]
      exact ⟨by decide, by decide⟩
    · rw [if_neg hsep] at hx
      rw [← hx]
      simp only [Bool.or_eq_true, beq_iff_eq, not_or] at hsep
      exact hsep
  have hsplit : ∀ (l : List Char), (∀ d, d ∈ l → d ≠ '-' ∧ d ≠ '_') →
      ∀ d, d ∈ splitCamel l → d ≠ '-' ∧ d ≠ '_' := by
    intro l
    induction l using splitCamel.induct with
    | case1 => intro _ d hd; simp [splitCamel] at hd
    | case2 a => intro hl d hd; exact hl d (by simpa [splitCamel] using hd)
    | case3 a b rest hab ih =>
      intro hl d hd
      simp only [splitCamel, hab, if_true, List.mem_cons] at hd
      rcases hd with hd | hd | hd | hd
      · exact hl d (by simp [hd])
      · rw [hd]; exact ⟨by decide, by decide⟩
      · exact hl d (by simp [hd])
      · exact ih (fun e he => hl e (by simp [he])) d hd
    | case4 a b rest hab ih =>
      intro hl d hd
      simp only [splitCamel, hab, Bool.false_eq_true, if_false, List.mem_cons] at hd
      rcases hd with hd | hd
      · exact hl d (by simp [hd])
      · exact ih (fun e he => hl e (List.mem_cons_of_mem _ he)) d hd
  have hcap : ∀ (l : List Char) (prev : Bool), (∀ d, d ∈ l → d ≠ '-' ∧ d ≠ '_') →
      ∀ d, d ∈ capitalize prev l → d ≠ '-' ∧ d ≠ '_' := by
    intro l
    induction l with
    | nil => intro prev _ d hd; simp [capitalize] at hd
    | cons x xs ih =>
      intro prev hl d hd
      simp only [capitalize, List.mem_cons] at hd
      rcases hd with hd | hd
      · by_cases hup : (isWordChar x && !prev) = true
        · rw [if_pos hup] at hd
          have hx := hl x (List.mem_cons_self _ _)
          have hn := toNat_toUpper x
          constructor
          · intro h1
            rw [← hd, h1] at hn
            have h45 : ('-' : Char).toNat = 45 := rfl
            rw [h45] at hn
            split at hn
            · omega
            · exact hx.1 (eq_of_toNat_eq x '-' (by rw [h45]; exact hn.symm))
          · intro h1
            rw [← hd, h1] at hn
            have h95 : ('_' : Char).toNat = 95 := rfl
            rw [h95] at hn
            split at hn
            · omega
            · exact hx.2 (eq_of_toNat_eq x '_' (by rw [h95]; exact hn.symm))
        · rw [if_neg hup] at hd
          rw [hd]
          exact hl x (List.mem_cons_self _ _)
      · exact ih (isWordChar x) (fun e he => hl e (List.mem_cons_of_mem _ he)) d hd
  obtain ⟨a, b, hl, _⟩ := trimChars_infix (capitalize false (splitCamel (replaceSeparators cs)))
  apply hcap (splitCamel (replaceSeparators cs)) false (hsplit _ hrep) c
  rw [hl]
  simp only [List.mem_append]
  exact Or.inl (Or.inr h)

/-- The first replacement by positions: a hyphen or an underscore becomes a
space and every other character stays. -/
theorem replaceSeparators_eq (l : List Char) :
    replaceSeparators l = l.map (fun c => if c = '-' ∨ c = '_' then ' ' else c) := by
  unfold replaceSeparators
  apply List.map_congr_left
  intro c _
  by_cases h : c = '-' ∨ c = '_'
  · rw [if_pos h, if_pos (by simpa using h)]
  · rw [if_neg h, if_neg (by simpa using h)]

/-- An upper-case letter is not a lower-case letter. -/
theorem isLower_of_isUpper (c : Char) (h : c.isUpper = true) : c.isLower = false := by
  rw [Bool.eq_false_iff]
  intro hl
  rw [isUpper_iff] at h
  rw [isLower_iff] at hl
  omega

/-- A lower-case letter is a word character. -/
theorem isWordChar_of_isLower (c : Char) (h : c.isLower = true) : isWordChar c = true := by
  rw [isLower_iff] at h
  rw [isWordChar_iff]
  exact Or.inr (Or.inl h)

/-- The specification of the second step keeps the first character first. -/
theorem spaceAtBoundaries_cons (a : Char) (l : List Char) :
    ∃ t, spaceAtBoundaries (a :: l) = a :: t := by
  cases l with
  | nil => exact ⟨[], rfl⟩
  | cons b rest =>
    by_cases hab : (a.isLower && b.isUpper) = true
    · exact ⟨' ' :: spaceAtBoundaries (b :: rest), by simp only [spaceAtBoundaries, hab, if_true]⟩
    · exact ⟨spaceAtBoundaries (b :: rest),
        by simp only [spaceAtBoundaries, hab, Bool.false_eq_true, if_false]⟩

/-- After an upper-case letter the specification of the second step goes on
with the rest. -/
theorem spaceAtBoundaries_upper (b : Char) (rest : List Char) (hb : b.isUpper = true) :
    spaceAtBoundaries (b :: rest) = b :: spaceAtBoundaries rest := by
  cases rest with
  | nil => rfl
  | cons c r =>
    simp only [spaceAtBoundaries, isLower_of_isUpper b hb, Bool.false_and, Bool.false_eq_true,
      if_false]

/-- The second replacement, whose matches do not overlap, puts a space at every
boundary from a lower-case to an upper-case letter: it is the specification. -/
theorem splitCamel_eq_spaceAtBoundaries (l : List Char) :
    splitCamel l = spaceAtBoundaries l := by
  induction l using splitCamel.induct with
  | case1 => rfl
  | case2 a => rfl
  | case3 a b rest hab ih =>
    have hb : b.isUpper = true := by
      simp only [Bool.and_eq_true] at hab
      exact hab.2
    simp only [splitCamel, spaceAtBoundaries, hab, if_true, spaceAtBoundaries_upper b rest hb, ih]
  | case4 a b rest hab ih =>
    simp only [splitCamel, spaceAtBoundaries, hab, Bool.false_eq_true, if_false, ih]

/-- The third replacement keeps the number of characters. -/
theorem capitalize_length : ∀ (l : List Char) (prev : Bool),
    (capitalize prev l).length = l.length := by
  intro l
  induction l with
  | nil => intro prev; rfl
  | cons x xs ih =>
    intro prev
    simp only [capitalize, List.length_cons, ih]

/-- The third replacement by positions: the character at position `i` is
upper-cased when it is a word character and the character before it, or `prev`
at position 0, is not one; it stays otherwise. -/
theorem capitalize_getElem? : ∀ (l : List Char) (prev : Bool) (i : Nat) (c : Char),
    l[i]? = some c →
    (capitalize prev l)[i]?
      = some (if (isWordChar c &&
                !(match i with
                  | 0 => prev
                  | j + 1 => ((l[j]?).map isWordChar).getD false)) = true
              then c.toUpper else c) := by
  intro l
  induction l with
  | nil => intro prev i c h; simp at h
  | cons x xs ih =>
    intro prev i c h
    cases i with
    | zero =>
      simp only [List.getElem?_cons_zero, Option.some.injEq] at h
      subst h
      simp only [capitalize, List.getElem?_cons_zero]
    | succ j =>
      simp only [List.getElem?_cons_succ] at h
      simp only [capitalize, List.getElem?_cons_succ]
      rw [ih (isWordChar x) j c h]
      cases j with
      | zero => simp only [List.getElem?_cons_zero, Option.map_some', Option.getD_some]
      | succ k => simp only [List.getElem?_cons_succ]

/-- The third replacement upper-cases exactly the characters at the start of a
word. -/
theorem capitalize_word_starts (l : List Char) (i : Nat) (c : Char) (h : l[i]? = some c) :
    (capitalize false l)[i]? = some (if isWordStart l i = true then c.toUpper else c) := by
  rw [capitalize_getElem? l false i c h]
  cases i with
  | zero =>
    simp only [isWordStart, h, Option.map_some', Option.getD_some, Bool.not_false,
      Bool.and_true, beq_self_eq_true, Bool.true_or]
  | succ j =>
    simp only [isWordStart, h, Option.map_some', Option.getD_some, Nat.add_sub_cancel,
      Nat.add_one_ne_zero, beq_iff_eq, Bool.false_or, Nat.succ_ne_zero, decide_False]
    rfl

/-- The trimmed characters stand between white space only. -/
theorem trimChars_between (l : List Char) :
    ∃ a b, l = a ++ trimChars l ++ b ∧ (∀ c, c ∈ a → isWhiteSpace c = true) ∧
      ∀ c, c ∈ b → isWhiteSpace c = true := by
  refine ⟨l.takeWhile isWhiteSpace,
    (((l.dropWhile isWhiteSpace).reverse).takeWhile isWhiteSpace).reverse, ?_, ?_, ?_⟩
  · have h1 := List.takeWhile_append_dropWhile isWhiteSpace l
    have h2 := List.takeWhile_append_dropWhile isWhiteSpace (l.dropWhile isWhiteSpace).reverse
    have h3 : l.dropWhile isWhiteSpace
        = trimChars l ++ (((l.dropWhile isWhiteSpace).reverse).takeWhile isWhiteSpace).reverse := by
      have := congrArg List.reverse h2
      simp only [List.reverse_append, List.reverse_reverse] at this
      exact this.symm
    rw [List.append_assoc, ← h3, h1]
  · intro c hc
    exact List.mem_takeWhile_imp hc
  · intro c hc
    exact List.mem_takeWhile_imp (List.mem_reverse.1 hc)

/-- The specification of the second step leaves no boundary from a lower-case
to an upper-case letter. -/
theorem spaceAtBoundaries_chain (l : List Char) :
    List.Chain' NoBoundary (spaceAtBoundaries l) := by
  induction l using spaceAtBoundaries.induct with
  | case1 => exact List.chain'_nil
  | case2 a => exact List.chain'_singleton a
  | case3 a b rest hab ih =>
    obtain ⟨t, ht⟩ := spaceAtBoundaries_cons b rest
    simp only [spaceAtBoundaries, hab, if_true]
    rw [ht] at ih ⊢
    refine List.chain'_cons.2 ⟨?_, List.chain'_cons.2 ⟨?_, ih⟩⟩
    · intro h
      exact absurd h.2 (by decide)
    · intro h
      exact absurd h.1 (by decide)
  | case4 a b rest hab ih =>
    obtain ⟨t, ht⟩ := spaceAtBoundaries_cons b rest
    simp only [spaceAtBoundaries, hab, Bool.false_eq_true, if_false]
    rw [ht] at ih ⊢
    refine List.chain'_cons.2 ⟨?_, ih⟩
    intro h
    apply hab
    simp only [Bool.and_eq_true]
    exact h

/-- The third replacement makes no boundary from a lower-case to an upper-case
letter: the character before an upper-cased one is not a word character. -/
theorem capitalize_chain : ∀ (l : List Char) (prev : Bool),
    List.Chain' NoBoundary l → List.Chain' NoBoundary (capitalize prev l) := by
  intro l
  induction l with
  | nil => intro prev _; exact List.chain'_nil
  | cons x xs ih =>
    intro prev h
    cases xs with
    | nil => exact List.chain'_singleton _
    | cons y ys =>
      have hxy := (List.chain'_cons.1 h).1
      have hrest := ih (isWordChar x) (List.chain'_cons.1 h).2
      simp only [capitalize] at hrest ⊢
      refine List.chain'_cons.2 ⟨?_, hrest⟩
      intro hb
      by_cases hx : (isWordChar x && !prev) = true
      · rw [if_pos hx, isLower_toUpper] at hb
        exact absurd hb.1 (by decide)
      · rw [if_neg hx] at hb
        have hwx : isWordChar x = true := isWordChar_of_isLower x hb.1
        have hy : ¬ ((isWordChar y && !isWordChar x) = true) := by simp [hwx]
        rw [if_neg hy] at hb
        exact hxy hb

/-- The label has no boundary from a lower-case to an upper-case letter. -/
theorem formatChars_chain (cs : List Char) : List.Chain' NoBoundary (formatChars cs) := by
  obtain ⟨a, b, hl, _⟩ := trimChars_infix (capitalize false (splitCamel (replaceSeparators cs)))
  have h := capitalize_chain (splitCamel (replaceSeparators cs)) false
    (by rw [splitCamel_eq_spaceAtBoundaries]; exact spaceAtBoundaries_chain _)
  exact h.infix ⟨a, b, hl.symm⟩

/-- C20 fails on the code for a word that does not start with a letter: the
label of the identifier 3d-view is 3d View, whose first word starts with the
digit 3 and not with an upper-case letter. -/
theorem formatLabel_digit_word :
    formatLabel "3d-view" = "3d View" ∧
      ("3d View".toList.head?.map Char.isUpper) = some false ∧
      ("3d View".toList.head?.map Char.isAlpha) = some false := by
  decide

/-- C20, amended: `formatLabel` replaces every hyphen and underscore by a
space, puts a space at every boundary from a lower-case to an upper-case letter,
upper-cases the first character of every word, and trims: the label contains
no hyphen and no underscore, has no white space at its start or its end, and no
word in it starts with a lower-case ASCII letter (the first character of a word
is upper-cased when it is an ASCII letter and kept as it is otherwise);
`formatLabel` of footer-links is Footer Links and of mainNav is Main Nav.
The four steps are stated against their specification: with `l2` the characters
of `s` after every hyphen and underscore became a space and a space was put at
every boundary (`spaceAtBoundaries`), the label is what trimming leaves of the
list `l3` that has at every position the character of `l2`, upper-cased exactly
at the starts of words; and no lower-case letter of the label stands directly
before an upper-case letter, as in Foo Bar Baz for fooBarBaz. -/
theorem formatLabel_spec (s : String) :
    formatLabel s
        = ⟨trimChars (capitalize false (splitCamel (replaceSeparators s.toList)))⟩ ∧
      ('-' ∉ (formatLabel s).toList ∧ '_' ∉ (formatLabel s).toList) ∧
      (∀ c, (formatLabel s).toList.head? = some c → isWhiteSpace c = false) ∧
      (∀ c, (formatLabel s).toList.getLast? = some c → isWhiteSpace c = false) ∧
      (∀ pre c post, (formatLabel s).toList = pre ++ c :: post → isWordChar c = true →
        (∀ q, pre.getLast? = some q → isWordChar q = false) → c.isLower = false) ∧
      formatLabel "footer-links" = "Footer Links" ∧ formatLabel "mainNav" = "Main Nav" ∧
      (∃ l3 a b,
        l3.length
            = (spaceAtBoundaries
                (s.toList.map (fun c => if c = '-' ∨ c = '_' then ' ' else c))).length ∧
          (∀ i c,
            (spaceAtBoundaries
                (s.toList.map (fun c => if c = '-' ∨ c = '_' then ' ' else c)))[i]? = some c →
            l3[i]?
              = some (if isWordStart (spaceAtBoundaries
                    (s.toList.map (fun c => if c = '-' ∨ c = '_' then ' ' else c))) i = true
                  then c.toUpper else c)) ∧
          l3 = a ++ (formatLabel s).toList ++ b ∧
          (∀ c, c ∈ a → isWhiteSpace c = true) ∧ (∀ c, c ∈ b → isWhiteSpace c = true)) ∧
      (∀ pre x y post, (formatLabel s).toList = pre ++ x :: y :: post →
        ¬ (x.isLower = true ∧ y.isUpper = true)) ∧
      formatLabel "fooBarBaz" = "Foo Bar Baz" ∧
      formatLabel "my_XMLParser-v2" = "My XMLParser V2" := by
  refine ⟨rfl, ⟨?_, ?_⟩, ?_, ?_, ?_, by decide, by decide, ?_, ?_, by decide, by decide⟩
  · intro h
    exact (formatChars_no_separator s.toList '-' h).1 rfl
  · intro h
    exact (formatChars_no_separator s.toList '_' h).2 rfl
  · intro c h
    exact trimChars_head _ c h
  · intro c h
    exact trimChars_getLast _ c h
  · intro pre c post h hc hlast
    obtain ⟨a, b, hl, ha⟩ :=
      trimChars_infix (capitalize false (splitCamel (replaceSeparators s.toList)))
    have h1 : formatChars s.toList = pre ++ c :: post := h
    have h2 : capitalize false (splitCamel (replaceSeparators s.toList))
        = (a ++ pre) ++ c :: (post ++ b) := by
      rw [hl]
      have : trimChars (capitalize false (splitCamel (replaceSeparators s.toList)))
          = pre ++ c :: post := h1
      rw [this]
      simp
    refine capitalize_word_start _ false (a ++ pre) c (post ++ b) h2 hc (fun _ => rfl) ?_
    intro q hq
    cases pre with
    | nil =>
      simp only [List.append_nil] at hq
      exact isWordChar_of_isWhiteSpace q (ha q (List.mem_of_mem_getLast? hq))
    | cons y ys =>
      apply hlast q
      rw [List.getLast?_append_of_ne_nil _ (by simp)] at hq
      exact hq
  · obtain ⟨a, b, hl, ha, hb⟩ :=
      trimChars_between (capitalize false (splitCamel (replaceSeparators s.toList)))
    refine ⟨capitalize false (splitCamel (replaceSeparators s.toList)), a, b, ?_, ?_, hl, ha, hb⟩
    · rw [capitalize_length, splitCamel_eq_spaceAtBoundaries, replaceSeparators_eq]
    · intro i c hc
      rw [splitCamel_eq_spaceAtBoundaries, replaceSeparators_eq]
      exact capitalize_word_starts _ i c hc
  · intro pre x y post h
    have hchain : List.Chain' NoBoundary (pre ++ x :: y :: post) := by
      rw [← h]
      exact formatChars_chain s.toList
    exact (List.chain'_cons.1 (hchain.suffix (List.suffix_append pre (x :: y :: post)))).1

/-! ## The page with the heading Resources -/

/-- C19 fails on the code: on `resourcesPage` the div footer-links has the
heading Resources among its previous siblings, so its 2 links join the 3 links
of the list in the one group Resources; both extractors return that group only. -/
theorem resourcesPage_one_group :
    summary (extractLinksFromDOM resourcesPage) = [("heading-Resources", "Resources", 5)] ∧
      summary (extractLinks resourcesPage) = [("heading-Resources", "Resources", 5)] := by
  decide

/-- C19, amended: classifying `resourcesPage` yields exactly 1 group, named
Resources, with all 5 links, the 3 of the list first; when the heading and the
list stand in a div of their own, as in `wrappedResourcesPage`, the result is
the 2 groups Resources with 3 links and Footer Links with 2 links. -/
theorem resourcesPage_groups :
    (extractLinksFromDOM resourcesPage).map (fun g => (g.groupName, g.links.map LinkRecord.url))
        = [("Resources", ["https://alpha.example/", "https://beta.example/docs",
            "https://gamma.example/", "https://example.org/about",
            "https://example.org/contact"])] ∧
      summary (extractLinksFromDOM wrappedResourcesPage)
        = [("heading-Resources", "Resources", 3), ("div-footer-links", "Footer Links", 2)] ∧
      summary (extractLinks wrappedResourcesPage)
        = [("heading-Resources", "Resources", 3), ("div-footer-links", "Footer Links", 2)] := by
  decide

/-! ## The filters of the classifier -/

/-- A recorded link passed every filter, and its record is made from its
address, its text and its parsed address. -/
theorem examine_kept (doc : Document) (exts : List String) (seen : List String) (a : Anchor)
    (h : String) (g : Group) (r : LinkRecord)
    (hex : examine doc exts seen a = Verdict.kept h g r) :
    h = doc.href a.hrefAttr ∧ seen.contains h = false ∧ passes doc exts h = true ∧
      g = findParentGroup a.ancestors ∧
      ∃ u, doc.parseURL h = some u ∧
        r = ⟨h, displayText (linkText doc a.element) u h, u.hostname == doc.hostname⟩ := by
  unfold examine at hex
  simp only at hex
  split at hex
  · cases hex
  · rename_i h1
    split at hex
    · cases hex
    · rename_i h2
      split at hex
      · cases hex
      · cases hex
      · rename_i h3
        split at hex
        · cases hex
        · rename_i h4
          split at hex
          · cases hex
          · rename_i h5
            split at hex
            · cases hex
            · rename_i u h6
              simp only [Verdict.kept.injEq] at hex
              obtain ⟨e1, e2, e3⟩ := hex
              subst e1
              simp only [Bool.or_eq_true, beq_iff_eq, not_or, Bool.not_eq_true] at h1
              simp only [Bool.not_eq_true, Bool.not_eq_eq_eq_not, Bool.not_true,
                Bool.not_false] at h2 h4 h5
              refine ⟨rfl, h1.2, ?_, e2.symm, u, h6, e3.symm⟩
              simp [passes, h1.1, h2, h3, h4, h5, h6]

/-- When `new URL` throws after the filters, the address is one that it rejects. -/
theorem examine_seenOnly (doc : Document) (exts : List String) (seen : List String)
    (a : Anchor) (h : String) (hex : examine doc exts seen a = Verdict.seenOnly h) :
    doc.parseURL h = none := by
  unfold examine at hex
  simp only at hex
  split at hex
  · cases hex
  · split at hex
    · cases hex
    · split at hex
      · cases hex
      · cases hex
      · split at hex
        · cases hex
        · split at hex
          · cases hex
          · split at hex
            · rename_i h6
              simp only [Verdict.seenOnly.injEq] at hex
              rw [← hex]
              exact h6
            · cases hex

/-- A link whose address passes the filters and was not seen is recorded. -/
theorem examine_of_passes (doc : Document) (exts : List String) (seen : List String)
    (a : Anchor) (hp : passes doc exts (doc.href a.hrefAttr) = true)
    (hs : seen.contains (doc.href a.hrefAttr) = false) :
    ∃ u, doc.parseURL (doc.href a.hrefAttr) = some u ∧
      examine doc exts seen a
        = Verdict.kept (doc.href a.hrefAttr) (findParentGroup a.ancestors)
            ⟨doc.href a.hrefAttr,
              displayText (linkText doc a.element) u (doc.href a.hrefAttr),
              u.hostname == doc.hostname⟩ := by
  simp only [passes, Bool.and_eq_true, Bool.not_eq_true', beq_iff_eq,
    Option.isSome_iff_exists] at hp
  obtain ⟨⟨⟨⟨⟨h1, h2⟩, h3⟩, h4⟩, h5⟩, u, h6⟩ := hp
  refine ⟨u, h6, ?_⟩
  have hs1 : doc.href a.hrefAttr ∉ seen := by simpa using hs
  have h1e : ¬ doc.href a.hrefAttr = "" := by simpa using h1
  simp [examine, h1e, hs1, h2, h3, h4, h5, h6]

/-! ## The loop over the links -/

/-- The loop over the links pushes the recorded links in document order. -/
theorem foldl_visit_groups (doc : Document) (exts : List String) :
    ∀ (as : List Anchor) (seen : List String) (gs : List LinkGroup),
      (as.foldl (visit doc exts) ⟨seen, gs⟩).groups = pushAll gs (kept doc exts seen as) := by
  intro as
  induction as with
  | nil => intro seen gs; rfl
  | cons a rest ih =>
    intro seen gs
    simp only [List.foldl_cons, visit, kept]
    cases hex : examine doc exts seen a with
    | skipped => exact ih seen gs
    | seenOnly h => exact ih (seen ++ [h]) gs
    | kept h g r =>
      simp only
      rw [ih (seen ++ [h]) (pushLink gs g r)]
      rfl

/-- An extractor returns the map to which the surviving links were pushed. -/
theorem extractWith_eq (exts : List String) (doc : Document) :
    extractWith exts doc = pushAll [] (survivors doc exts) :=
  foldl_visit_groups doc exts (anchors doc) [] []

/-- Pushing a record adds it to the records of the groups. -/
theorem allLinks_pushLink (g : Group) (r : LinkRecord) :
    ∀ (gs : List LinkGroup), (allLinks (pushLink gs g r)).Perm (allLinks gs ++ [r]) := by
  intro gs
  induction gs with
  | nil => simp [pushLink, allLinks]
  | cons x xs ih =>
    by_cases hx : (x.groupId == g.id) = true
    · simp only [pushLink, hx, if_true, allLinks]
      rw [List.append_assoc, List.append_assoc]
      exact List.Perm.append_left _ List.perm_append_comm
    · simp only [pushLink, hx, Bool.false_eq_true, if_false, allLinks]
      rw [List.append_assoc]
      exact List.Perm.append_left _ ih

/-- Pushing records adds them to the records of the groups. -/
theorem allLinks_pushAll :
    ∀ (ps : List (Group × LinkRecord)) (gs : List LinkGroup),
      (allLinks (pushAll gs ps)).Perm (allLinks gs ++ ps.map Prod.snd) := by
  intro ps
  induction ps with
  | nil => intro gs; simp [pushAll]
  | cons p rest ih =>
    intro gs
    have h1 := ih (pushLink gs p.1 p.2)
    have h2 := (allLinks_pushLink p.1 p.2 gs).append_right (rest.map Prod.snd)
    have h3 := h1.trans h2
    simpa [pushAll, List.append_assoc] using h3

/-- Where a recorded link comes from. -/
theorem kept_mem (doc : Document) (exts : List String) :
    ∀ (as : List Anchor) (seen : List String) (p : Group × LinkRecord),
      p ∈ kept doc exts seen as →
      ∃ a, a ∈ as ∧ p.2.url = doc.href a.hrefAttr ∧ p.2.url ∉ seen ∧
        passes doc exts p.2.url = true ∧ p.1 = findParentGroup a.ancestors ∧
        ∃ u, doc.parseURL p.2.url = some u ∧
          p.2 = ⟨p.2.url, displayText (linkText doc a.element) u p.2.url,
            u.hostname == doc.hostname⟩ := by
  intro as
  induction as with
  | nil => intro seen p hp; simp [kept] at hp
  | cons a rest ih =>
    intro seen p hp
    have hrest : ∀ seen1, (∀ x, x ∈ seen → x ∈ seen1) → p ∈ kept doc exts seen1 rest →
        ∃ a1, a1 ∈ a :: rest ∧ p.2.url = doc.href a1.hrefAttr ∧ p.2.url ∉ seen ∧
          passes doc exts p.2.url = true ∧ p.1 = findParentGroup a1.ancestors ∧
          ∃ u, doc.parseURL p.2.url = some u ∧
            p.2 = ⟨p.2.url, displayText (linkText doc a1.element) u p.2.url,
              u.hostname == doc.hostname⟩ := by
      intro seen1 hsub hmem
      obtain ⟨a1, h1, h2, h3, h4⟩ := ih seen1 p hmem
      exact ⟨a1, List.mem_cons_of_mem _ h1, h2, fun hin => h3 (hsub _ hin), h4⟩
    simp only [kept] at hp
    cases hex : examine doc exts seen a with
    | skipped =>
      rw [hex] at hp
      exact hrest seen (fun _ hx => hx) hp
    | seenOnly h =>
      rw [hex] at hp
      exact hrest (seen ++ [h]) (fun _ hx => List.mem_append_left _ hx) hp
    | kept h g r =>
      rw [hex] at hp
      simp only [List.mem_cons] at hp
      rcases hp with hp | hp
      · obtain ⟨e1, e2, e3, e4, u, e5, e6⟩ := examine_kept doc exts seen a h g r hex
        subst hp
        have hurl : r.url = h := by rw [e6]
        simp only
        rw [hurl]
        refine ⟨a, List.mem_cons_self _ _, e1, ?_, e3, e4, u, e5, e6⟩
        simpa using e2
      · exact hrest (seen ++ [h]) (fun _ hx => List.mem_append_left _ hx) hp

/-- No address is recorded twice, and none that was seen before. -/
theorem kept_nodup (doc : Document) (exts : List String) :
    ∀ (as : List Anchor) (seen : List String),
      ((kept doc exts seen as).map (fun p => p.2.url)).Nodup ∧
        ∀ p, p ∈ kept doc exts seen as → p.2.url ∉ seen := by
  intro as
  induction as with
  | nil => intro seen; simp [kept]
  | cons a rest ih =>
    intro seen
    simp only [kept]
    cases hex : examine doc exts seen a with
    | skipped => exact ih seen
    | seenOnly h =>
      obtain ⟨h1, h2⟩ := ih (seen ++ [h])
      exact ⟨h1, fun p hp hin => h2 p hp (List.mem_append_left _ hin)⟩
    | kept h g r =>
      obtain ⟨h1, h2⟩ := ih (seen ++ [h])
      obtain ⟨_, e2, _, _, u, _, e6⟩ := examine_kept doc exts seen a h g r hex
      have hurl : r.url = h := by rw [e6]
      constructor
      · simp only [List.map_cons, List.nodup_cons, List.mem_map, not_exists, not_and]
        refine ⟨?_, h1⟩
        intro p hp heq
        apply h2 p hp
        rw [heq, hurl]
        simp
      · intro p hp
        simp only [List.mem_cons] at hp
        rcases hp with hp | hp
        · subst hp
          simp only
          rw [hurl]
          simpa using e2
        · exact fun hin => h2 p hp (List.mem_append_left _ hin)

/-- Every address that passes the filters was seen before or is recorded. -/
theorem kept_complete (doc : Document) (exts : List String) :
    ∀ (as : List Anchor) (seen : List String) (a : Anchor), a ∈ as →
      passes doc exts (doc.href a.hrefAttr) = true →
      doc.href a.hrefAttr ∈ seen ∨
        doc.href a.hrefAttr ∈ (kept doc exts seen as).map (fun p => p.2.url) := by
  intro as
  induction as with
  | nil => intro seen a ha; simp at ha
  | cons b rest ih =>
    intro seen a ha hp
    by_cases hseen : doc.href a.hrefAttr ∈ seen
    · exact Or.inl hseen
    · right
      simp only [List.mem_cons] at ha
      rcases ha with ha | ha
      · subst ha
        obtain ⟨u, _, hex⟩ := examine_of_passes doc exts seen a hp (by simpa using hseen)
        simp [kept, hex]
      · simp only [kept]
        cases hex : examine doc exts seen b with
        | skipped =>
          rcases ih seen a ha hp with h | h
          · exact absurd h hseen
          · exact h
        | seenOnly h =>
          rcases ih (seen ++ [h]) a ha hp with h1 | h1
          · simp only [List.mem_append, List.mem_singleton] at h1
            rcases h1 with h1 | h1
            · exact absurd h1 hseen
            · exfalso
              have hnone := examine_seenOnly doc exts seen b h hex
              simp only [passes, Bool.and_eq_true, Option.isSome_iff_exists] at hp
              obtain ⟨_, u, hu⟩ := hp
              rw [h1, hnone] at hu
              cases hu
          · exact h1
        | kept h g r =>
          obtain ⟨_, _, _, _, u, _, e6⟩ := examine_kept doc exts seen b h g r hex
          have hurl : r.url = h := by rw [e6]
          rcases ih (seen ++ [h]) a ha hp with h1 | h1
          · simp only [List.mem_append, List.mem_singleton] at h1
            rcases h1 with h1 | h1
            · exact absurd h1 hseen
            · simp [h1, hurl]
          · simp only [List.map_cons, List.mem_cons]
            exact Or.inr h1

/-- The addresses that an extractor returns: no address twice, and exactly the
addresses of the links that pass the filters. -/
theorem extractWith_urls (exts : List String) (doc : Document) :
    (allUrls (extractWith exts doc)).Nodup ∧
      ∀ u, u ∈ allUrls (extractWith exts doc) ↔
        ∃ a, a ∈ anchors doc ∧ doc.href a.hrefAttr = u ∧ passes doc exts u = true := by
  have hperm : (allUrls (extractWith exts doc)).Perm
      ((survivors doc exts).map (fun p => p.2.url)) := by
    have h := (allLinks_pushAll (survivors doc exts) []).map LinkRecord.url
    rw [extractWith_eq]
    simpa [allUrls, allLinks, List.map_map, Function.comp_def] using h
  constructor
  · exact hperm.nodup_iff.2 (kept_nodup doc exts (anchors doc) []).1
  · intro u
    rw [hperm.mem_iff]
    constructor
    · intro hu
      obtain ⟨p, hp, hpu⟩ := List.mem_map.1 hu
      obtain ⟨a, h1, h2, _, h4, _⟩ := kept_mem doc exts (anchors doc) [] p hp
      exact ⟨a, h1, by rw [← h2, hpu], by rw [← hpu]; exact h4⟩
    · rintro ⟨a, ha, hau, hp⟩
      subst hau
      rcases kept_complete doc exts (anchors doc) [] a ha hp with h | h
      · simp at h
      · exact h

/-- The records that an extractor returns are those of the surviving links. -/
theorem mem_allLinks_extractWith (exts : List String) (doc : Document) (r : LinkRecord) :
    r ∈ allLinks (extractWith exts doc) ↔ r ∈ (survivors doc exts).map Prod.snd := by
  have h := allLinks_pushAll (survivors doc exts) []
  rw [extractWith_eq, h.mem_iff]
  simp [allLinks]

/-- Membership in the addresses of a page. -/
theorem mem_hrefs (doc : Document) (u : String) :
    u ∈ hrefs doc ↔ ∃ a, a ∈ anchors doc ∧ doc.href a.hrefAttr = u := by
  simp [hrefs, List.mem_map]

/-- The filters without and with the test on the extension. -/
theorem passes_extension (doc : Document) (exts : List String) (u : String) :
    passes doc exts u = (passes doc [] u && !matchesExtension exts u) := by
  have h0 : matchesExtension [] u = false := by simp [matchesExtension]
  simp only [passes, h0, Bool.not_false, Bool.and_true]
  cases !(u == "") <;> cases startsWith u "http" <;>
    cases (samePageAnchor doc u == some false) <;> cases matchesExtension exts u <;>
    cases includes u "javascript:" <;> cases (doc.parseURL u).isSome <;> rfl

/-- C14: in the output of each of the two extractors no address appears in two
link records, of the same group or of different groups, and the address of
every link that passes the filters (a non-empty address that starts with http,
is no anchor into the current page, has none of the extensions, does not
include javascript: and is accepted by `new URL`) appears in the output. -/
theorem extract_each_url_once (doc : Document) :
    ((allUrls (extractLinksFromDOM doc)).Nodup ∧
        ∀ u, u ∈ hrefs doc → passes doc workerExtensions u = true →
          u ∈ allUrls (extractLinksFromDOM doc)) ∧
      ((allUrls (extractLinks doc)).Nodup ∧
        ∀ u, u ∈ hrefs doc → passes doc contentExtensions u = true →
          u ∈ allUrls (extractLinks doc)) := by
  constructor
  · obtain ⟨h1, h2⟩ := extractWith_urls workerExtensions doc
    refine ⟨h1, fun u hu hp => ?_⟩
    obtain ⟨a, ha, hau⟩ := (mem_hrefs doc u).1 hu
    exact (h2 u).2 ⟨a, ha, hau, hp⟩
  · obtain ⟨h1, h2⟩ := extractWith_urls contentExtensions doc
    refine ⟨h1, fun u hu hp => ?_⟩
    obtain ⟨a, ha, hau⟩ := (mem_hrefs doc u).1 hu
    exact (h2 u).2 ⟨a, ha, hau, hp⟩

/-- The first link of `resourcesPage` is in the output of `extractLinksFromDOM`. -/
theorem extract_each_url_once_witness :
    "https://alpha.example/" ∈ allUrls (extractLinksFromDOM resourcesPage) :=
  (extract_each_url_once resourcesPage).1.2 "https://alpha.example/" (by decide) (by decide)

/-- C15 fails on the code: on `extensionPage` the link to the image, whose path
/photo.png ends in an extension, is in the output because its address goes on
with a query, and the link to /view, whose path ends in no extension, is
discarded because its query ends in .pdf. -/
theorem extension_test_on_address :
    allUrls (extractLinksFromDOM extensionPage) = ["https://example.org/photo.png?size=large"] ∧
      allUrls (extractLinks extensionPage) = ["https://example.org/photo.png?size=large"] ∧
      sampleURL "https://example.org/photo.png?size=large" = some ⟨"/photo.png", "example.org"⟩ ∧
      matchesExtension workerExtensions "/photo.png" = true ∧
      sampleURL "https://example.org/view?file=report.pdf" = some ⟨"/view", "example.org"⟩ ∧
      matchesExtension workerExtensions "/view" = false ∧
      passes extensionPage [] "https://example.org/view?file=report.pdf" = true := by
  decide

/-- C15, amended: the test is made on the whole address, not on its path: no
link in the output of either extractor has an address that ends, whatever the
case of the letters, in a dot and one of the twelve extensions of the claim,
and `extractLinksFromDOM` keeps every link whose address does not end so and
passes the other filters.  For `extractLinks` the same holds with the list of
its own regular expression, which has webp and ico besides. -/
theorem extract_extension_filter (doc : Document) :
    ((∀ r, r ∈ allLinks (extractLinksFromDOM doc) →
          matchesExtension workerExtensions r.url = false) ∧
        ∀ u, u ∈ hrefs doc → matchesExtension workerExtensions u = false →
          passes doc [] u = true → u ∈ allUrls (extractLinksFromDOM doc)) ∧
      ((∀ r, r ∈ allLinks (extractLinks doc) →
          matchesExtension contentExtensions r.url = false) ∧
        ∀ u, u ∈ hrefs doc → matchesExtension contentExtensions u = false →
          passes doc [] u = true → u ∈ allUrls (extractLinks doc)) ∧
      (∀ r, r ∈ allLinks (extractLinks doc) →
        matchesExtension workerExtensions r.url = false) := by
  have key : ∀ exts, (∀ r, r ∈ allLinks (extractWith exts doc) →
        matchesExtension exts r.url = false) ∧
      ∀ u, u ∈ hrefs doc → matchesExtension exts u = false →
        passes doc [] u = true → u ∈ allUrls (extractWith exts doc) := by
    intro exts
    obtain ⟨_, h2⟩ := extractWith_urls exts doc
    constructor
    · intro r hr
      have hu : r.url ∈ allUrls (extractWith exts doc) := List.mem_map.2 ⟨r, hr, rfl⟩
      obtain ⟨a, _, _, hp⟩ := (h2 r.url).1 hu
      rw [passes_extension] at hp
      simp only [Bool.and_eq_true, Bool.not_eq_true'] at hp
      exact hp.2
    · intro u hu hm hp
      obtain ⟨a, ha, hau⟩ := (mem_hrefs doc u).1 hu
      refine (h2 u).2 ⟨a, ha, hau, ?_⟩
      rw [passes_extension, hp, hm]
      rfl
  refine ⟨key workerExtensions, key contentExtensions, ?_⟩
  intro r hr
  have hc := (key contentExtensions).1 r hr
  have hlist : contentExtensions = workerExtensions ++ ["webp", "ico"] := rfl
  simp only [matchesExtension, hlist, List.any_append, Bool.or_eq_false_iff] at hc
  exact hc.1

/-- On `extensionPage` the link to the image with a query is in the output. -/
theorem extract_extension_filter_witness :
    "https://example.org/photo.png?size=large" ∈ allUrls (extractLinksFromDOM extensionPage) :=
  (extract_extension_filter extensionPage).1.2 "https://example.org/photo.png?size=large"
    (by decide) (by decide) (by decide)

/-- C16 fails on the code: on `httpxPage` the link with the scheme httpx, which
is neither http nor https, is in the output of both extractors. -/
theorem scheme_httpx_kept :
    allUrls (extractLinksFromDOM httpxPage) = ["httpx://example.org/"] ∧
      allUrls (extractLinks httpxPage) = ["httpx://example.org/"] ∧
      scheme "httpx://example.org/" = "httpx" ∧
      scheme "httpx://example.org/" ≠ "http" ∧ scheme "httpx://example.org/" ≠ "https" := by
  decide

/-- C16, amended: every link record in the output of an extractor has an
address that starts with the four characters http, and a link whose address
does not start with them is discarded; the scheme itself is not compared. -/
theorem extract_http_start (doc : Document) :
    ((∀ r, r ∈ allLinks (extractLinksFromDOM doc) → startsWith r.url "http" = true) ∧
        ∀ u, u ∈ hrefs doc → startsWith u "http" = false →
          u ∉ allUrls (extractLinksFromDOM doc)) ∧
      ((∀ r, r ∈ allLinks (extractLinks doc) → startsWith r.url "http" = true) ∧
        ∀ u, u ∈ hrefs doc → startsWith u "http" = false →
          u ∉ allUrls (extractLinks doc)) := by
  have key : ∀ exts, (∀ r, r ∈ allLinks (extractWith exts doc) →
        startsWith r.url "http" = true) ∧
      ∀ u, u ∈ hrefs doc → startsWith u "http" = false →
        u ∉ allUrls (extractWith exts doc) := by
    intro exts
    obtain ⟨_, h2⟩ := extractWith_urls exts doc
    have hstart : ∀ u, u ∈ allUrls (extractWith exts doc) → startsWith u "http" = true := by
      intro u hu
      obtain ⟨a, _, _, hp⟩ := (h2 u).1 hu
      simp only [passes, Bool.and_eq_true] at hp
      exact hp.1.1.1.1.2
    constructor
    · intro r hr
      exact hstart r.url (List.mem_map.2 ⟨r, hr, rfl⟩)
    · intro u _ hu hin
      rw [hstart u hin] at hu
      cases hu
  exact ⟨key workerExtensions, key contentExtensions⟩

/-- On a page with a mailto link that link is not in the output. -/
theorem extract_http_start_witness :
    "mailto:team@example.org" ∉
      allUrls (extractLinksFromDOM (samplePage [linkTo "mailto:team@example.org" "Mail"])) :=
  (extract_http_start (samplePage [linkTo "mailto:team@example.org" "Mail"])).1.2
    "mailto:team@example.org" (by decide) (by decide)

/-! ## The display text -/

/-- The first `n` characters are at most `n`. -/
theorem substring0_length (t : String) (n : Nat) : (substring0 t n).length ≤ n := by
  simp only [substring0, String.length_mk, List.length_take]
  omega

/-- The first 100 characters of a non-empty string are not empty. -/
theorem substring0_ne_empty (t : String) (h : t ≠ "") : substring0 t 100 ≠ "" := by
  intro h1
  apply h
  have h2 : (t.toList.take 100) = [] := by
    have := congrArg String.toList h1
    simpa [substring0] using this
  have h3 : t.toList = [] := by
    cases ht : t.toList with
    | nil => rfl
    | cons x xs => rw [ht] at h2; simp at h2
  exact String.ext h3

/-- C17 fails on the code for a link without text: on `longPathPage` the text
of the link is empty, and the display text of its record is the path of its
address, which has 104 characters. -/
theorem display_text_of_empty_link :
    linkText longPathPage
        (linkTo
          "https://example.org/archive/2024/reports/quarterly/finance/summary/europe/western-region/district-12/details/tables/annex-b"
          "") = "" ∧
      (allLinks (extractLinksFromDOM longPathPage)).map LinkRecord.text
        = ["/archive/2024/reports/quarterly/finance/summary/europe/western-region/district-12/details/tables/annex-b"] ∧
      (allLinks (extractLinksFromDOM longPathPage)).map (fun r => r.text.length) = [104] ∧
      (allLinks (extractLinks longPathPage)).map (fun r => r.text.length) = [104] := by
  decide

/-- The display text of the records of an extractor. -/
theorem extractWith_text (exts : List String) (doc : Document) (r : LinkRecord)
    (hr : r ∈ allLinks (extractWith exts doc)) :
    ∃ a u, a ∈ anchors doc ∧ r.url = doc.href a.hrefAttr ∧ doc.parseURL r.url = some u ∧
      (linkText doc a.element ≠ "" →
        r.text = substring0 (linkText doc a.element) 100 ∧ r.text.length ≤ 100) ∧
      (linkText doc a.element = "" → r.text = orElse u.pathname r.url) := by
  rw [mem_allLinks_extractWith] at hr
  obtain ⟨p, hp, hpr⟩ := List.mem_map.1 hr
  obtain ⟨a, h1, h2, _, _, _, u, h6, h7⟩ := kept_mem doc exts (anchors doc) [] p hp
  subst hpr
  have htext : p.2.text = displayText (linkText doc a.element) u p.2.url := by
    conv_lhs => rw [h7]
  refine ⟨a, u, h1, h2, h6, ?_, ?_⟩
  · intro hne
    have hsub := substring0_ne_empty _ hne
    have : p.2.text = substring0 (linkText doc a.element) 100 := by
      rw [htext]
      simp [displayText, orElse, hsub]
    exact ⟨this, by rw [this]; exact substring0_length _ _⟩
  · intro he
    rw [htext, he]
    have : substring0 "" 100 = "" := by decide
    simp [displayText, this, orElse]

/-- C17, amended: every link record in the output of an extractor whose link
has a non-empty trimmed text has as display text the first 100 characters of
that text, so at most 100 characters; the record of a link whose text is empty
has as display text the path of its address, or the address when the path is
empty, whatever their length. -/
theorem extract_display_text (doc : Document) :
    (∀ r, r ∈ allLinks (extractLinksFromDOM doc) →
        ∃ a u, a ∈ anchors doc ∧ r.url = doc.href a.hrefAttr ∧
          doc.parseURL r.url = some u ∧
          (linkText doc a.element ≠ "" →
            r.text = substring0 (linkText doc a.element) 100 ∧ r.text.length ≤ 100) ∧
          (linkText doc a.element = "" → r.text = orElse u.pathname r.url)) ∧
      (∀ r, r ∈ allLinks (extractLinks doc) →
        ∃ a u, a ∈ anchors doc ∧ r.url = doc.href a.hrefAttr ∧
          doc.parseURL r.url = some u ∧
          (linkText doc a.element ≠ "" →
            r.text = substring0 (linkText doc a.element) 100 ∧ r.text.length ≤ 100) ∧
          (linkText doc a.element = "" → r.text = orElse u.pathname r.url)) :=
  ⟨extractWith_text workerExtensions doc, extractWith_text contentExtensions doc⟩

/-- The record of the link of `httpxPage` is made from a link of the page. -/
theorem extract_display_text_witness :
    ∃ a u, a ∈ anchors httpxPage ∧ "httpx://example.org/" = httpxPage.href a.hrefAttr ∧
      httpxPage.parseURL "httpx://example.org/" = some u ∧
      (linkText httpxPage a.element ≠ "" →
        "Elsewhere" = substring0 (linkText httpxPage a.element) 100 ∧
          "Elsewhere".length ≤ 100) ∧
      (linkText httpxPage a.element = "" →
        "Elsewhere" = orElse u.pathname "httpx://example.org/") :=
  (extract_display_text httpxPage).1 ⟨"httpx://example.org/", "Elsewhere", true⟩ (by decide)

/-! ## The order of the groups and of their links -/

/-- A record with a new id opens a group at the end. -/
theorem pushLink_new (g : Group) (r : LinkRecord) :
    ∀ (gs : List LinkGroup), g.id ∉ gs.map LinkGroup.groupId →
      pushLink gs g r = gs ++ [⟨g.id, g.name, [r]⟩] := by
  intro gs
  induction gs with
  | nil => intro _; rfl
  | cons x xs ih =>
    intro h
    simp only [List.map_cons, List.mem_cons, not_or] at h
    have hx : ¬ (x.groupId == g.id) = true := by
      simp only [beq_iff_eq]
      exact fun e => h.1 e.symm
    simp only [pushLink, hx, Bool.false_eq_true, if_false, List.cons_append, ih h.2]

/-- A record with a known id is added to the links of its group. -/
theorem pushLink_old (g : Group) (r : LinkRecord) :
    ∀ (gs : List LinkGroup), (gs.map LinkGroup.groupId).Nodup →
      g.id ∈ gs.map LinkGroup.groupId →
      pushLink gs g r
        = gs.map (fun x =>
            if x.groupId == g.id then ⟨x.groupId, x.groupName, x.links ++ [r]⟩ else x) := by
  intro gs
  induction gs with
  | nil => intro _ h; simp at h
  | cons x xs ih =>
    intro hnd hmem
    simp only [List.map_cons, List.nodup_cons] at hnd
    by_cases hx : (x.groupId == g.id) = true
    · have hxe : x.groupId = g.id := by simpa using hx
      have hrest : xs.map (fun y =>
          if y.groupId == g.id then (⟨y.groupId, y.groupName, y.links ++ [r]⟩ : LinkGroup)
          else y) = xs := by
        conv_rhs => rw [← List.map_id xs]
        apply List.map_congr_left
        intro y hy
        have hne : ¬ (y.groupId == g.id) = true := by
          simp only [beq_iff_eq]
          intro e
          apply hnd.1
          rw [hxe, ← e]
          exact List.mem_map.2 ⟨y, hy, rfl⟩
        simp [hne]
      simp only [pushLink, hx, if_true, List.map_cons, hrest]
    · have hmem1 : g.id ∈ xs.map LinkGroup.groupId := by
        simp only [List.map_cons, List.mem_cons] at hmem
        rcases hmem with h | h
        · exfalso
          apply hx
          simp [h]
        · exact h
      simp only [pushLink, hx, Bool.false_eq_true, if_false, List.map_cons, ih hnd.2 hmem1]

/-- Pushing one record keeps the invariant of the map `groups`. -/
theorem groupsOf_pushLink (gs : List LinkGroup) (S : List (Group × LinkRecord))
    (g : Group) (r : LinkRecord) (h : GroupsOf gs S) :
    GroupsOf (pushLink gs g r) (S ++ [(g, r)]) := by
  obtain ⟨hnd, hcov, hlinks, hord⟩ := h
  have hidS : ∀ id, id ∈ gs.map LinkGroup.groupId → id ∈ S.map (fun p => p.1.id) := by
    intro id hid
    obtain ⟨x, hx, hxid⟩ := List.mem_map.1 hid
    obtain ⟨hl, hne⟩ := hlinks x hx
    rw [hl] at hne
    cases hf : S.filter (fun p => p.1.id == x.groupId) with
    | nil => rw [hf] at hne; simp at hne
    | cons p ps =>
      have hp : p ∈ S.filter (fun p => p.1.id == x.groupId) := by rw [hf]; simp
      rw [List.mem_filter] at hp
      refine List.mem_map.2 ⟨p, hp.1, ?_⟩
      rw [← hxid]
      simpa using hp.2
  have hidx : ∀ id, id ∈ gs.map LinkGroup.groupId →
      ((S ++ [(g, r)]).map (fun p => p.1.id)).indexOf id
        = (S.map (fun p => p.1.id)).indexOf id := by
    intro id hid
    rw [List.map_append]
    exact List.indexOf_append_of_mem (hidS id hid)
  have hord1 : List.Pairwise
      (fun a b => ((S ++ [(g, r)]).map (fun p => p.1.id)).indexOf a
        < ((S ++ [(g, r)]).map (fun p => p.1.id)).indexOf b)
      (gs.map LinkGroup.groupId) := by
    have h0 := List.pairwise_map.1 hord
    exact h0.imp_of_mem (fun ha hb hab => by rw [hidx _ ha, hidx _ hb]; exact hab)
  by_cases hin : g.id ∈ gs.map LinkGroup.groupId
  · rw [pushLink_old g r gs hnd hin]
    have hids : (gs.map (fun x =>
          if x.groupId == g.id then (⟨x.groupId, x.groupName, x.links ++ [r]⟩ : LinkGroup)
          else x)).map LinkGroup.groupId = gs.map LinkGroup.groupId := by
      rw [List.map_map]
      apply List.map_congr_left
      intro x _
      simp only [Function.comp]
      split <;> rfl
    refine ⟨by rw [hids]; exact hnd, ?_, ?_, by rw [hids]; exact List.pairwise_map.2 hord1⟩
    · intro p hp
      rw [hids]
      simp only [List.mem_append, List.mem_singleton] at hp
      rcases hp with hp | hp
      · exact hcov p hp
      · rw [hp]; exact hin
    · intro y hy
      obtain ⟨x, hx, hxy⟩ := List.mem_map.1 hy
      obtain ⟨hl, hne⟩ := hlinks x hx
      by_cases hxg : (x.groupId == g.id) = true
      · rw [if_pos hxg] at hxy
        rw [← hxy]
        have hgx : (g.id == x.groupId) = true := by
          simp only [beq_iff_eq] at hxg ⊢
          exact hxg.symm
        simp [List.filter_append, hgx, hl]
      · rw [if_neg hxg] at hxy
        rw [← hxy]
        have hgx : ¬ (g.id == x.groupId) = true := by
          simp only [beq_iff_eq] at hxg ⊢
          exact fun e => hxg e.symm
        refine ⟨?_, hne⟩
        simp [List.filter_append, hgx, hl]
  · rw [pushLink_new g r gs hin]
    have hnoS : S.filter (fun p => p.1.id == g.id) = [] := by
      rw [List.filter_eq_nil_iff]
      intro p hp hpid
      apply hin
      have := hcov p hp
      simp only [beq_iff_eq] at hpid
      rw [← hpid]
      exact this
    have hgS : g.id ∉ S.map (fun p => p.1.id) := by
      intro hmem
      obtain ⟨p, hp, hpid⟩ := List.mem_map.1 hmem
      exact hin (by rw [← hpid]; exact hcov p hp)
    refine ⟨?_, ?_, ?_, ?_⟩
    · rw [List.map_append, List.nodup_append]
      refine ⟨hnd, by simp, ?_⟩
      intro id h1 h2
      simp only [List.map_cons, List.map_nil, List.mem_singleton] at h2
      exact hin (by rw [← h2]; exact h1)
    · intro p hp
      simp only [List.mem_append, List.mem_singleton] at hp
      rw [List.map_append, List.mem_append]
      rcases hp with hp | hp
      · exact Or.inl (hcov p hp)
      · right; rw [hp]; simp
    · intro y hy
      simp only [List.mem_append, List.mem_singleton] at hy
      rcases hy with hy | hy
      · obtain ⟨hl, hne⟩ := hlinks y hy
        have hgy : ¬ (g.id == y.groupId) = true := by
          simp only [beq_iff_eq]
          intro e
          exact hin (by rw [e]; exact List.mem_map.2 ⟨y, hy, rfl⟩)
        refine ⟨?_, hne⟩
        simp [List.filter_append, hgy, hl]
      · subst hy
        simp [List.filter_append, hnoS]
    · have e1 : (gs ++ [(⟨g.id, g.name, [r]⟩ : LinkGroup)]).map LinkGroup.groupId
          = gs.map LinkGroup.groupId ++ [g.id] := by simp
      rw [List.pairwise_map, e1, List.pairwise_append]
      refine ⟨hord1, by simp, ?_⟩
      intro id hid j hj
      simp only [List.mem_singleton] at hj
      have h1 : (S.map (fun p => p.1.id)).indexOf id < (S.map (fun p => p.1.id)).length :=
        List.indexOf_lt_length.2 (hidS id hid)
      have h2 : ((S ++ [(g, r)]).map (fun p => p.1.id)).indexOf g.id
          = (S.map (fun p => p.1.id)).length := by
        rw [List.map_append, List.indexOf_append_of_not_mem hgS]
        simp
      rw [hj, h2, hidx id hid]
      exact h1

/-- Pushing records in order keeps the invariant of the map `groups`. -/
theorem groupsOf_pushAll :
    ∀ (T : List (Group × LinkRecord)) (gs : List LinkGroup) (S : List (Group × LinkRecord)),
      GroupsOf gs S → GroupsOf (pushAll gs T) (S ++ T) := by
  intro T
  induction T with
  | nil => intro gs S h; simpa [pushAll] using h
  | cons p rest ih =>
    intro gs S h
    have h1 := ih (pushLink gs p.1 p.2) (S ++ [(p.1, p.2)]) (groupsOf_pushLink gs S p.1 p.2 h)
    simpa [pushAll, List.append_assoc] using h1

/-- The recorded links stand in document order. -/
theorem kept_sublist (doc : Document) (exts : List String) :
    ∀ (as : List Anchor) (seen : List String),
      ((kept doc exts seen as).map (fun p => p.2.url)).Sublist
        (as.map (fun a => doc.href a.hrefAttr)) := by
  intro as
  induction as with
  | nil => intro seen; simp [kept]
  | cons a rest ih =>
    intro seen
    simp only [kept, List.map_cons]
    cases hex : examine doc exts seen a with
    | skipped => exact (ih seen).cons _
    | seenOnly h => exact (ih (seen ++ [h])).cons _
    | kept h g r =>
      obtain ⟨e1, _, _, _, u, _, e6⟩ := examine_kept doc exts seen a h g r hex
      have hurl : r.url = doc.href a.hrefAttr := by rw [e6]; exact e1
      simp only [List.map_cons, hurl]
      exact (ih (seen ++ [h])).cons₂ _

/-- The groups that an extractor returns, in terms of the surviving links. -/
theorem extractWith_groups (exts : List String) (doc : Document) :
    GroupsOf (extractWith exts doc) (survivors doc exts) := by
  have h := groupsOf_pushAll (survivors doc exts) [] []
    ⟨by simp, by simp, by simp, by simp⟩
  rw [extractWith_eq]
  simpa using h

/-- The order of the output of an extractor with the extensions `exts`. -/
theorem extractWith_order (exts : List String) (doc : Document) :
    List.Sublist ((survivors doc exts).map (fun p => p.2.url)) (hrefs doc) ∧
      ((extractWith exts doc).map LinkGroup.groupId).Nodup ∧
      List.Pairwise (fun a b => a < b)
        (((extractWith exts doc).map LinkGroup.groupId).map
          (fun id => ((survivors doc exts).map (fun p => p.1.id)).indexOf id)) ∧
      ∀ g, g ∈ extractWith exts doc →
        g.links = ((survivors doc exts).filter (fun p => p.1.id == g.groupId)).map Prod.snd ∧
        g.links ≠ [] ∧
        List.Sublist g.links ((survivors doc exts).map Prod.snd) := by
  obtain ⟨hnd, _, hlinks, hord⟩ := extractWith_groups exts doc
  refine ⟨kept_sublist doc exts (anchors doc) [], hnd, hord, ?_⟩
  intro g hg
  obtain ⟨h1, h2⟩ := hlinks g hg
  refine ⟨h1, h2, ?_⟩
  rw [h1]
  exact (List.filter_sublist _).map Prod.snd

/-- C18: for each of the two extractors, the surviving links taken in document
order, each with the id of its group, determine the output: the groups have
distinct ids and stand in the order in which their ids first occur among the
surviving links, that is by the document position of their first link, and the
links of a group are the surviving links with its id, in document order, hence
a subsequence of the document-order list of the surviving links. -/
theorem extract_order (doc : Document) :
    (List.Sublist ((survivors doc workerExtensions).map (fun p => p.2.url)) (hrefs doc) ∧
        ((extractLinksFromDOM doc).map LinkGroup.groupId).Nodup ∧
        List.Pairwise (fun a b => a < b)
          (((extractLinksFromDOM doc).map LinkGroup.groupId).map
            (fun id => ((survivors doc workerExtensions).map (fun p => p.1.id)).indexOf id)) ∧
        ∀ g, g ∈ extractLinksFromDOM doc →
          g.links = ((survivors doc workerExtensions).filter
              (fun p => p.1.id == g.groupId)).map Prod.snd ∧
          g.links ≠ [] ∧
          List.Sublist g.links ((survivors doc workerExtensions).map Prod.snd)) ∧
      (List.Sublist ((survivors doc contentExtensions).map (fun p => p.2.url)) (hrefs doc) ∧
        ((extractLinks doc).map LinkGroup.groupId).Nodup ∧
        List.Pairwise (fun a b => a < b)
          (((extractLinks doc).map LinkGroup.groupId).map
            (fun id => ((survivors doc contentExtensions).map (fun p => p.1.id)).indexOf id)) ∧
        ∀ g, g ∈ extractLinks doc →
          g.links = ((survivors doc contentExtensions).filter
              (fun p => p.1.id == g.groupId)).map Prod.snd ∧
          g.links ≠ [] ∧
          List.Sublist g.links ((survivors doc contentExtensions).map Prod.snd)) :=
  ⟨extractWith_order workerExtensions doc, extractWith_order contentExtensions doc⟩

/-- On `wrappedResourcesPage` the links of the group Footer Links are the two
surviving links with its id, in document order. -/
theorem extract_order_witness :
    [(⟨"https://example.org/about", "About", true⟩ : LinkRecord),
        ⟨"https://example.org/contact", "Contact", true⟩]
      = ((survivors wrappedResourcesPage workerExtensions).filter
          (fun p => p.1.id == "div-footer-links")).map Prod.snd :=
  ((extract_order wrappedResourcesPage).1.2.2.2
    ⟨"div-footer-links", "Footer Links",
      [⟨"https://example.org/about", "About", true⟩,
        ⟨"https://example.org/contact", "Contact", true⟩]⟩ (by decide)).1

/-- The first word of the label of mainNav starts with the upper-case M. -/
theorem formatLabel_spec_witness : ('M' : Char).isLower = false :=
  (formatLabel_spec "mainNav").2.2.2.2.1 [] 'M' "ain Nav".toList (by decide) (by decide)
    (fun q hq => by simp at hq)

end Links

namespace ServiceWorker

/-! ## Termination of the scroll loop -/

/-- With a positive step the scroll loop returns within the number of offsets
that are left, whatever the scroll commands and the captures do. -/
theorem captureLoop_returns (env : TabEnv) (H C : Nat) :
    ∀ (n fuel i : Nat) (caps : List Tile), n ≤ fuel → H ≤ (i + n) * C →
      ∃ res, captureLoop env H C fuel i (i * C) caps = some res := by
  intro n
  induction n with
  | zero =>
    intro fuel i caps _ hH
    have hnot : ¬ (i * C < H) := by
      have : H ≤ i * C := by simpa using hH
      omega
    cases fuel <;> exact ⟨LoopResult.done caps, by simp [captureLoop, hnot]⟩
  | succ n ih =>
    intro fuel i caps hf hH
    obtain ⟨f, rfl⟩ : ∃ f, fuel = f + 1 := ⟨fuel - 1, by omega⟩
    by_cases hy : i * C < H
    · cases hstep : captureStep env H C i (i * C) caps with
      | thrown e => exact ⟨LoopResult.thrown e, by simp [captureLoop, hy, hstep]⟩
      | done caps1 =>
        have hH1 : H ≤ (i + 1 + n) * C := by
          have : i + 1 + n = i + (n + 1) := by omega
          rw [this]; exact hH
        obtain ⟨res, hres⟩ := ih f (i + 1) caps1 (by omega) hH1
        have hyC : i * C + C = (i + 1) * C := by ring
        exact ⟨res, by simp only [captureLoop, if_pos hy, hstep, hyC]; exact hres⟩
    · exact ⟨LoopResult.done caps, by simp [captureLoop, hy]⟩

/-- The retry loop started with 3 retries makes 1 to 3 attempts and never ends
with `dataUrl` unassigned. -/
theorem retryLoop_attempts (att : Nat → CaptureOutcome) :
    1 ≤ (retryLoop att 3 0).2 ∧ (retryLoop att 3 0).2 ≤ 3 ∧
      (retryLoop att 3 0).1 ≠ RetryResult.value none := by
  rcases retryLoop_spec att with ⟨k, d, hk, _, _, hret⟩ | ⟨n, m, hn1, hn3, _, _, _, hret⟩
  · rw [hret]
    refine ⟨by simp, by simp only; omega, by simp⟩
  · rw [hret]
    exact ⟨hn1, hn3, by simp⟩

/-- Every tile that the scroll loop pushes has an image. -/
theorem captureLoop_images (env : TabEnv) (H C : Nat) :
    ∀ (fuel i y : Nat) (caps result : List Tile),
      captureLoop env H C fuel i y caps = some (LoopResult.done result) →
      (∀ t, t ∈ caps → ∃ d, t.dataUrl = some d) →
      ∀ t, t ∈ result → ∃ d, t.dataUrl = some d := by
  intro fuel
  induction fuel with
  | zero =>
    intro i y caps result h hcaps
    by_cases hy : y < H
    · simp [captureLoop, hy] at h
    · simp only [captureLoop, if_neg hy, Option.some.injEq, LoopResult.done.injEq] at h
      rw [← h]; exact hcaps
  | succ f ih =>
    intro i y caps result h hcaps
    by_cases hy : y < H
    · simp only [captureLoop, if_pos hy] at h
      cases hstep : captureStep env H C i y caps with
      | thrown e => simp [hstep] at h
      | done caps1 =>
        simp only [hstep] at h
        refine ih (i + 1) (y + C) caps1 result h ?_
        intro t ht
        simp only [captureStep] at hstep
        cases hsc : env.scrollTo i with
        | some e => simp [hsc] at hstep
        | none =>
          simp only [hsc] at hstep
          cases hrt : (retryLoop (env.capture i) 3 0).1 with
          | thrown e => simp [hrt] at hstep
          | value d =>
            simp only [hrt, LoopResult.done.injEq] at hstep
            rw [← hstep, List.mem_append, List.mem_singleton] at ht
            rcases ht with ht | ht
            · exact hcaps t ht
            · have hne := (retryLoop_attempts (env.capture i)).2.2
              rw [hrt] at hne
              cases d with
              | none => exact absurd rfl hne
              | some v => exact ⟨v, by rw [ht]⟩
    · simp only [captureLoop, if_neg hy, Option.some.injEq, LoopResult.done.injEq] at h
      rw [← h]; exact hcaps

/-- C23: on a page with scroll height H and client height C ≥ 1 the scroll
loop of `captureFullPage` terminates whatever the captures and the scroll
commands do: with fuel for `ceil (H / C)` iterations the loop and
`captureFullPage` return; in every iteration the retry loop makes at least 1 and
at most 3 capture attempts and never ends with `dataUrl` unassigned; and every
tile of a reply with captures has an image, the number of tiles being
`ceil (H / C)`. -/
theorem captureLoop_terminates (env : TabEnv) (dims : Dimensions) (fuel : Nat)
    (hdims : env.getDimensions = Except.ok dims) (hC : 1 ≤ dims.clientHeight)
    (hfuel : ⌈(dims.scrollHeight : ℚ) / (dims.clientHeight : ℚ)⌉₊ ≤ fuel) :
    (∃ res, captureLoop env dims.scrollHeight dims.clientHeight fuel 0 0 [] = some res) ∧
      (∃ r, captureFullPage env fuel = some r) ∧
      (∀ i, 1 ≤ (retryLoop (env.capture i) 3 0).2 ∧ (retryLoop (env.capture i) 3 0).2 ≤ 3 ∧
        (retryLoop (env.capture i) 3 0).1 ≠ RetryResult.value none) ∧
      (∀ r tiles, captureFullPage env fuel = some r → r.captures = some tiles →
        tiles.length = ⌈(dims.scrollHeight : ℚ) / (dims.clientHeight : ℚ)⌉₊ ∧
        ∀ t, t ∈ tiles → ∃ d, t.dataUrl = some d) := by
  have hb := ceil_bounds dims.scrollHeight dims.clientHeight hC
  obtain ⟨res, hres⟩ := captureLoop_returns env dims.scrollHeight dims.clientHeight
    ⌈(dims.scrollHeight : ℚ) / (dims.clientHeight : ℚ)⌉₊ fuel 0 [] hfuel (by simpa using hb.1)
  simp only [Nat.zero_mul] at hres
  refine ⟨⟨res, hres⟩, ?_, fun i => retryLoop_attempts (env.capture i), ?_⟩
  · simp only [captureFullPage, hdims, hres]
    cases res with
    | thrown e => exact ⟨_, rfl⟩
    | done caps =>
      cases env.resetScroll with
      | some e => exact ⟨_, rfl⟩
      | none => exact ⟨_, rfl⟩
  · intro r tiles hr hcaps
    simp only [captureFullPage, hdims, hres] at hr
    cases res with
    | thrown e =>
      simp only [Option.some.injEq] at hr
      rw [← hr] at hcaps
      simp at hcaps
    | done caps =>
      simp only at hr
      cases hrs : env.resetScroll with
      | some e =>
        simp only [hrs, Option.some.injEq] at hr
        rw [← hr] at hcaps
        simp at hcaps
      | none =>
        simp only [hrs, Option.some.injEq] at hr
        rw [← hr] at hcaps
        simp only [Option.some.injEq] at hcaps
        subst hcaps
        constructor
        · have hloop : captureLoop env dims.scrollHeight dims.clientHeight fuel 0
              (0 * dims.clientHeight) [] = some (LoopResult.done caps) := by
            rw [Nat.zero_mul]; exact hres
          obtain ⟨n, rest, hrest, hgeo, hHn, hlt⟩ :=
            captureLoop_done env dims.scrollHeight dims.clientHeight fuel 0 [] caps hloop
          simp only [List.nil_append] at hrest
          subst hrest
          simp only [Nat.zero_add] at hHn hlt
          have hlen := (tiles_geometry dims.scrollHeight dims.clientHeight n caps hgeo).1
          rw [hlen]
          exact count_eq_ceil dims.scrollHeight dims.clientHeight n hC hHn hlt
        · exact captureLoop_images env dims.scrollHeight dims.clientHeight fuel 0 0 [] caps hres
            (by simp)

/-- The capture of `retryTab` returns with fuel for 3 iterations. -/
theorem captureLoop_terminates_witness :
    ∃ r, captureFullPage retryTab 3 = some r :=
  (captureLoop_terminates retryTab ⟨1000, 400, 800, 800⟩ 3 rfl (by decide)
    (Nat.ceil_le.2 (by norm_num))).2.1

end ServiceWorker

namespace Links

/-! ## The two extractors -/

/-- C22 fails on the code at `webpPage`: `extractLinksFromDOM`, whose regular
expression has neither webp nor ico, returns the link to logo.webp in the group
Other Links, and `extractLinks`, whose regular expression has both, discards
it and returns no group. -/
theorem extractors_differ_on_webp :
    extractLinksFromDOM webpPage
        = [⟨"ungrouped", "Other Links", [⟨"https://example.org/logo.webp", "Logo", true⟩]⟩] ∧
      extractLinks webpPage = [] ∧
      extractLinksFromDOM webpPage ≠ extractLinks webpPage := by
  decide

/-- The two lists of extensions differ by webp and ico. -/
theorem matchesExtension_content (href : String) :
    matchesExtension contentExtensions href
      = (matchesExtension workerExtensions href || matchesExtension ["webp", "ico"] href) := by
  have h : contentExtensions = workerExtensions ++ ["webp", "ico"] := rfl
  simp only [matchesExtension, h, List.any_append]

/-- The two extractors treat a link alike unless its address ends in .webp or .ico. -/
theorem examine_agree (doc : Document) (seen : List String) (a : Anchor)
    (h : matchesExtension ["webp", "ico"] (doc.href a.hrefAttr) = false) :
    examine doc contentExtensions seen a = examine doc workerExtensions seen a := by
  simp only [examine, matchesExtension_content, h, Bool.or_false]

/-- On a page none of whose links has an address that ends in .webp or .ico the
two extractors return the same groups. -/
theorem extractors_agree_without_webp_ico (doc : Document)
    (h : ∀ a, a ∈ anchors doc → matchesExtension ["webp", "ico"] (doc.href a.hrefAttr) = false) :
    extractLinks doc = extractLinksFromDOM doc := by
  have key : ∀ (as : List Anchor) (st : ExtractState),
      (∀ a, a ∈ as → matchesExtension ["webp", "ico"] (doc.href a.hrefAttr) = false) →
      as.foldl (visit doc contentExtensions) st = as.foldl (visit doc workerExtensions) st := by
    intro as
    induction as with
    | nil => intro st _; rfl
    | cons a rest ih =>
      intro st hall
      have ha : visit doc contentExtensions st a = visit doc workerExtensions st a := by
        simp only [visit, examine_agree doc st.seen a (hall a (List.mem_cons_self _ _))]
      simp only [List.foldl_cons, ha]
      exact ih _ (fun b hb => hall b (List.mem_cons_of_mem _ hb))
  simp only [extractLinks, extractLinksFromDOM, extractWith, key (anchors doc) ⟨[], []⟩ h]

end Links

namespace Links

/-! ## The walk of findParentGroup -/

mutual
/-- The ancestors of a link found in a subtree end with the ancestors of the subtree. -/
theorem collectNode_ancestors (ancestors : List Frame) (prev : List Node) :
    ∀ (n : Node) (a : Anchor), a ∈ collectNode ancestors prev n →
      ∃ below, a.ancestors = below ++ ancestors
  | Node.text _, a, h => by simp [collectNode] at h
  | Node.element t as cs, a, h => by
    simp only [collectNode, List.mem_append] at h
    rcases h with h | h
    · cases hv : (if t == "A" then getAttribute as "href" else none) with
      | none => rw [hv] at h; simp at h
      | some v =>
        rw [hv] at h
        simp only [List.mem_singleton] at h
        exact ⟨[], by rw [h]; rfl⟩
    · obtain ⟨below, hb⟩ := collectList_ancestors (⟨t, as, cs, prev⟩ :: ancestors) [] cs a h
      exact ⟨below ++ [⟨t, as, cs, prev⟩], by rw [hb]; simp⟩
/-- The ancestors of a link found among siblings end with the ancestors of the siblings. -/
theorem collectList_ancestors (ancestors : List Frame) (prev : List Node) :
    ∀ (ns : List Node) (a : Anchor), a ∈ collectList ancestors prev ns →
      ∃ below, a.ancestors = below ++ ancestors
  | [], a, h => by simp [collectList] at h
  | n :: ns, a, h => by
    simp only [collectList, List.mem_append] at h
    rcases h with h | h
    · exact collectNode_ancestors ancestors prev n a h
    · exact collectList_ancestors ancestors _ ns a h
end

/-- The ancestors of every link of a page end with the body. -/
theorem anchors_ancestors (doc : Document) (a : Anchor) (h : a ∈ anchors doc) :
    ∃ below, a.ancestors = below ++ [bodyFrame doc] :=
  collectList_ancestors [bodyFrame doc] [] doc.bodyChildren a h

/-- The walk goes past the ancestors that match no rule and returns the group
of the first ancestor that matches one. -/
theorem findParentGroup_stops :
    ∀ (pre : List Frame) (current parent : Frame) (rest : List Frame) (g : Group),
      (∀ i c p, (pre ++ [current])[i]? = some c → (pre ++ [current])[i + 1]? = some p →
        groupAt c p = none) →
      groupAt current parent = some g →
      findParentGroup (pre ++ current :: parent :: rest) = g := by
  intro pre
  induction pre with
  | nil =>
    intro current parent rest g _ hg
    simp [findParentGroup, hg]
  | cons x pre1 ih =>
    intro current parent rest g hno hg
    have hshift : ∀ i c p, (pre1 ++ [current])[i]? = some c →
        (pre1 ++ [current])[i + 1]? = some p → groupAt c p = none := by
      intro i c p h1 h2
      exact hno (i + 1) c p (by simpa using h1) (by simpa using h2)
    have hrec := ih current parent rest g hshift hg
    cases pre1 with
    | nil =>
      have h0 : groupAt x current = none := hno 0 x current (by simp) (by simp)
      simp only [List.nil_append] at hrec
      simp only [List.cons_append, List.nil_append, findParentGroup, h0]
      exact hrec
    | cons y pre2 =>
      have h0 : groupAt x y = none := hno 0 x y (by simp) (by simp)
      simp only [List.cons_append] at hrec
      simp only [List.cons_append, findParentGroup, h0]
      exact hrec

/-- When no ancestor below the body matches a rule the group is Other Links. -/
theorem findParentGroup_none :
    ∀ (below : List Frame) (body : Frame),
      (∀ i c p, (below ++ [body])[i]? = some c → (below ++ [body])[i + 1]? = some p →
        groupAt c p = none) →
      findParentGroup (below ++ [body]) = ⟨"ungrouped", "Other Links"⟩ := by
  intro below
  induction below with
  | nil => intro body _; rfl
  | cons x below1 ih =>
    intro body hno
    have hshift : ∀ i c p, (below1 ++ [body])[i]? = some c →
        (below1 ++ [body])[i + 1]? = some p → groupAt c p = none := by
      intro i c p h1 h2
      exact hno (i + 1) c p (by simpa using h1) (by simpa using h2)
    have hrec := ih body hshift
    cases below1 with
    | nil =>
      have h0 : groupAt x body = none := hno 0 x body (by simp) (by simp)
      simp only [List.cons_append, List.nil_append, findParentGroup, h0]
    | cons y below2 =>
      have h0 : groupAt x y = none := hno 0 x y (by simp) (by simp)
      simp only [List.cons_append] at hrec
      simp only [List.cons_append, findParentGroup, h0]
      exact hrec

/-- An ancestor with a heading among its previous siblings gives the group of
the closest such heading, whatever the ancestor is. -/
theorem groupAt_heading (current parent : Frame) (h : Node)
    (hh : current.prev.find? (fun sibling => isHeadingTag sibling.tagName) = some h) :
    groupAt current parent
        = some ⟨"heading-" ++ substring0 (trim (textContent h)) 50,
            substring0 (trim (textContent h)) 50⟩ ∧
      (substring0 (trim (textContent h)) 50).length ≤ 50 ∧
      isHeadingTag h.tagName = true ∧
      ∃ before after, current.prev = before ++ h :: after ∧
        ∀ s, s ∈ before → isHeadingTag s.tagName = false := by
  refine ⟨by simp [groupAt, hh, textGroup], substring0_length _ _, ?_, ?_⟩
  · exact (List.find?_eq_some.1 hh).1
  · obtain ⟨_, before, after, h1, h2⟩ := List.find?_eq_some.1 hh
    exact ⟨before, after, h1, fun s hs => by simpa using h2 s hs⟩

/-- C21: the group of every surviving link is `findParentGroup` of its
ancestors, which go from its parent up to the body; the walk goes past the
ancestors that match no rule and stops at the first one that matches; if that
ancestor has a heading among its previous siblings, whatever the ancestor is (a
sectioning element, a list, a div with a meaningful id or anything else), the
group id is heading- followed by the first 50 characters of the trimmed text of
the closest such heading and the group name is that text, of at most 50
characters; if no ancestor below the body matches, the group is Other Links. -/
theorem findParentGroup_walk :
    (∀ (doc : Document) (exts : List String) (p : Group × LinkRecord),
        p ∈ survivors doc exts →
        ∃ a below, a ∈ anchors doc ∧ p.2.url = doc.href a.hrefAttr ∧
          p.1 = findParentGroup a.ancestors ∧ a.ancestors = below ++ [bodyFrame doc]) ∧
      (∀ (pre : List Frame) (current parent : Frame) (rest : List Frame) (g : Group),
        (∀ i c p, (pre ++ [current])[i]? = some c → (pre ++ [current])[i + 1]? = some p →
          groupAt c p = none) →
        groupAt current parent = some g →
        findParentGroup (pre ++ current :: parent :: rest) = g) ∧
      (∀ (pre : List Frame) (current parent : Frame) (rest : List Frame) (h : Node),
        (∀ i c p, (pre ++ [current])[i]? = some c → (pre ++ [current])[i + 1]? = some p →
          groupAt c p = none) →
        current.prev.find? (fun sibling => isHeadingTag sibling.tagName) = some h →
        findParentGroup (pre ++ current :: parent :: rest)
            = ⟨"heading-" ++ substring0 (trim (textContent h)) 50,
                substring0 (trim (textContent h)) 50⟩ ∧
          (substring0 (trim (textContent h)) 50).length ≤ 50 ∧
          isHeadingTag h.tagName = true ∧
          ∃ before after, current.prev = before ++ h :: after ∧
            ∀ s, s ∈ before → isHeadingTag s.tagName = false) ∧
      (∀ (below : List Frame) (body : Frame),
        (∀ i c p, (below ++ [body])[i]? = some c → (below ++ [body])[i + 1]? = some p →
          groupAt c p = none) →
        findParentGroup (below ++ [body]) = ⟨"ungrouped", "Other Links"⟩) := by
  refine ⟨?_, findParentGroup_stops, ?_, findParentGroup_none⟩
  · intro doc exts p hp
    obtain ⟨a, h1, h2, _, _, h5, _⟩ := kept_mem doc exts (anchors doc) [] p hp
    obtain ⟨below, hb⟩ := anchors_ancestors doc a h1
    exact ⟨a, below, h1, h2, h5, hb⟩
  · intro pre current parent rest h hno hh
    obtain ⟨h1, h2, h3, h4⟩ := groupAt_heading current parent h hh
    exact ⟨findParentGroup_stops pre current parent rest _ hno h1, h2, h3, h4⟩

/-- On `toolsPage` the link in the section with the id tools is grouped under
the heading Tools before the section, not under the section. -/
theorem findParentGroup_walk_witness :
    findParentGroup
        ([] ++ (⟨"SECTION", [("id", "tools")], [linkTo "https://example.org/about" "About"],
            [Node.element "H3" [] [Node.text "  Tools  "]]⟩ : Frame)
          :: bodyFrame toolsPage :: [])
      = ⟨"heading-" ++ substring0 (trim (textContent
            (Node.element "H3" [] [Node.text "  Tools  "]))) 50,
          substring0 (trim (textContent (Node.element "H3" [] [Node.text "  Tools  "]))) 50⟩ ∧
      summary (extractLinksFromDOM toolsPage) = [("heading-Tools", "Tools", 1)] :=
  ⟨(findParentGroup_walk.2.2.1 []
      ⟨"SECTION", [("id", "tools")], [linkTo "https://example.org/about" "About"],
        [Node.element "H3" [] [Node.text "  Tools  "]]⟩
      (bodyFrame toolsPage) [] (Node.element "H3" [] [Node.text "  Tools  "])
      (fun i c p _ h2 => by simp at h2) rfl).1,
    by decide⟩

end Links

end PdfCreator
